import Mathlib

/-!
Verification of the air-rag-backend ingestion pipeline.

Texts are modeled as lists of Unicode characters (`Str`); this matches the
JavaScript string operations used by the source (`length`, `slice`, `trim`,
regex split/match) at the character level.  Each definition in the
`AirRag` namespace is a direct translation of a function of the repository:
`cleanTextLineBreaks` from src/utils/text-cleaner.util.ts, the chunking
functions (`semanticChunking`, `sentenceBasedChunking`, `getLastWords`) and
the service operations (`uploadDocument`, `processDocument`,
`deleteDocument`, `reprocessDocument`) from the DocumentsService, and
`upsertVector` / `queryVectors` from the PineconeService.
-/

namespace AirRag

abbrev Str := List Char

/-- The JavaScript whitespace class `\s` (also the set trimmed by
`String.prototype.trim`): space, tab, line feed, vertical tab, form feed,
carriage return, NBSP, the Unicode space separators, line/paragraph
separators, narrow NBSP, medium mathematical space, ideographic space and
the BOM. -/
def isWs (c : Char) : Bool :=
  let n := c.toNat
  n == 0x20 || n == 0x09 || n == 0x0a || n == 0x0b || n == 0x0c || n == 0x0d ||
  n == 0xa0 || n == 0x1680 || (decide (0x2000 ≤ n) && decide (n ≤ 0x200a)) ||
  n == 0x2028 || n == 0x2029 || n == 0x202f || n == 0x205f || n == 0x3000 ||
  n == 0xfeff

/-- Left part of JavaScript `trim`: drop leading whitespace. -/
def trimLeft : Str → Str
  | [] => []
  | c :: cs => if isWs c then trimLeft cs else c :: cs

/-- Right part of JavaScript `trim`: drop trailing whitespace. -/
def trimRight (s : Str) : Str := (trimLeft s.reverse).reverse

/-- JavaScript `String.prototype.trim`. -/
def trimJS (s : Str) : Str := trimRight (trimLeft s)

/-! ## cleanTextLineBreaks (src/utils/text-cleaner.util.ts)

`text.replace(/\n{3,}/g, '\n\n')`: each maximal run of three or more
consecutive line feeds is replaced by exactly two.  The guard `if (!text)
return text` only matters for the empty string, which the recursion already
maps to itself. -/

def cleanTextLineBreaks : Str → Str
  | [] => []
  | c :: cs =>
    if c = '\n' then
      let run := cs.takeWhile (fun d => d == '\n')
      let rest := cs.dropWhile (fun d => d == '\n')
      (if 3 ≤ run.length + 1 then ['\n', '\n'] else c :: run) ++ cleanTextLineBreaks rest
    else
      c :: cleanTextLineBreaks cs
  termination_by s => s.length
  decreasing_by
    · simp only [List.length_cons]
      have h := List.Sublist.length_le (@List.dropWhile_sublist _ cs (fun d => d == '\n'))
      omega
    · simp only [List.length_cons]; omega

/-- Three consecutive line feeds occur somewhere in the text. -/
def hasTripleNl (t : Str) : Prop := ['\n', '\n', '\n'] <:+: t

instance (t : Str) : Decidable (hasTripleNl t) := by
  unfold hasTripleNl; infer_instance

/-! ### Basic facts about the trim helpers -/

theorem trimLeft_suffix (s : Str) : trimLeft s <:+ s := by
  induction s with
  | nil => simp [trimLeft]
  | cons c cs ih =>
    rw [trimLeft]
    by_cases h : isWs c
    · simp only [h, if_true]
      exact ih.trans (List.suffix_cons c cs)
    · simp [h]

theorem trimLeft_length_le (s : Str) : (trimLeft s).length ≤ s.length :=
  (trimLeft_suffix s).length_le

theorem trimLeft_head_not_ws (s : Str) (c : Char) (cs : Str)
    (h : trimLeft s = c :: cs) : isWs c = false := by
  induction s with
  | nil => simp [trimLeft] at h
  | cons d ds ih =>
    rw [trimLeft] at h
    by_cases hd : isWs d
    · simp only [hd, if_true] at h; exact ih h
    · simp only [hd, if_false] at h
      cases h
      simpa using hd

theorem trimLeft_cons_not_ws (c : Char) (cs : Str) (h : isWs c = false) :
    trimLeft (c :: cs) = c :: cs := by
  rw [trimLeft]; simp [h]

theorem trimLeft_eq_nil_iff (s : Str) : trimLeft s = [] ↔ ∀ c ∈ s, isWs c := by
  induction s with
  | nil => simp [trimLeft]
  | cons c cs ih =>
    rw [trimLeft]
    by_cases h : isWs c
    · simp [h, ih]
    · simp [h]

theorem trimLeft_append_of_all_ws (s u : Str) (h : ∀ c ∈ s, isWs c) :
    trimLeft (s ++ u) = trimLeft u := by
  induction s with
  | nil => simp
  | cons c cs ih =>
    have hc : isWs c := h c (by simp)
    rw [List.cons_append, trimLeft]
    simp only [hc, if_true]
    exact ih (fun d hd => h d (by simp [hd]))

theorem trimLeft_append_of_head_not_ws (c : Char) (cs u : Str) (h : isWs c = false) :
    trimLeft ((c :: cs) ++ u) = (c :: cs) ++ u := by
  rw [List.cons_append, trimLeft]; simp [h]

theorem trimLeft_idem (s : Str) : trimLeft (trimLeft s) = trimLeft s := by
  cases h : trimLeft s with
  | nil => simp [trimLeft]
  | cons c cs => exact trimLeft_cons_not_ws c cs (trimLeft_head_not_ws s c cs h)

theorem trimRight_length_le (s : Str) : (trimRight s).length ≤ s.length := by
  unfold trimRight
  calc (trimLeft s.reverse).reverse.length = (trimLeft s.reverse).length := by simp
    _ ≤ s.reverse.length := trimLeft_length_le _
    _ = s.length := by simp

theorem trimJS_length_le (s : Str) : (trimJS s).length ≤ s.length :=
  (trimRight_length_le _).trans (trimLeft_length_le _)

theorem trimRight_eq_nil_iff (s : Str) : trimRight s = [] ↔ ∀ c ∈ s, isWs c := by
  unfold trimRight
  rw [List.reverse_eq_nil_iff, trimLeft_eq_nil_iff]
  constructor
  · intro h c hc; exact h c (by simpa using hc)
  · intro h c hc; exact h c (by simpa using hc)

theorem trimLeft_decomp (s : Str) :
    ∃ pre, s = pre ++ trimLeft s ∧ ∀ c ∈ pre, isWs c := by
  induction s with
  | nil => exact ⟨[], by simp [trimLeft]⟩
  | cons c cs ih =>
    rw [trimLeft]
    by_cases h : isWs c
    · rcases ih with ⟨pre, hpre, hws⟩
      refine ⟨c :: pre, ?_, ?_⟩
      · simp only [h, if_true, List.cons_append]
        exact congrArg (c :: ·) hpre
      · intro d hd
        rcases List.mem_cons.mp hd with rfl | hd
        · exact h
        · exact hws d hd
    · exact ⟨[], by simp [h]⟩

theorem trimJS_eq_nil_iff (s : Str) : trimJS s = [] ↔ ∀ c ∈ s, isWs c := by
  unfold trimJS
  rw [trimRight_eq_nil_iff]
  constructor
  · intro h c hc
    rcases trimLeft_decomp s with ⟨pre, hpre, hws⟩
    rw [hpre] at hc
    rcases List.mem_append.mp hc with hc | hc
    · exact hws c hc
    · exact h c hc
  · intro h c hc
    exact h c ((trimLeft_suffix s).subset hc)

/-! ### Properties of cleanTextLineBreaks -/

theorem dropWhile_head_false {p : Char → Bool} {l : Str} {c : Char} {cs : Str}
    (h : l.dropWhile p = c :: cs) : p c = false := by
  induction l with
  | nil => simp [List.dropWhile] at h
  | cons d ds ih =>
    rw [List.dropWhile] at h
    by_cases hd : p d
    · simp only [hd, if_true] at h
      exact ih h
    · simp only [hd, if_false] at h
      cases h
      simpa using hd

theorem takeWhile_nl_eq_replicate (cs : Str) :
    cs.takeWhile (fun d => d == '\n') =
      List.replicate (cs.takeWhile (fun d => d == '\n')).length '\n' := by
  rw [List.eq_replicate_length]
  intro b hb
  have := List.mem_takeWhile_imp hb
  simpa using this

theorem noTriple_tail {c : Char} {cs : Str} (h : ¬ hasTripleNl (c :: cs)) :
    ¬ hasTripleNl cs := fun hc => h (List.infix_cons hc)

theorem noTriple_of_suffix {s t : Str} (hsub : s <:+ t) (h : ¬ hasTripleNl t) :
    ¬ hasTripleNl s := fun hc => h (hc.trans (List.IsSuffix.isInfix hsub))

theorem cs_eq_nlrun_append (cs : Str) :
    cs = List.replicate (cs.takeWhile (fun d => d == '\n')).length '\n' ++
        cs.dropWhile (fun d => d == '\n') := by
  conv_lhs => rw [← List.takeWhile_append_dropWhile (fun d => d == '\n') cs]
  rw [← takeWhile_nl_eq_replicate]

/-- In a triple-free text a leading run of line feeds has length at most 2. -/
theorem nlrun_le_two {cs : Str} (h : ¬ hasTripleNl ('\n' :: cs)) :
    (cs.takeWhile (fun d => d == '\n')).length + 1 ≤ 2 := by
  by_contra hgt
  push_neg at hgt
  set n := (cs.takeWhile (fun d => d == '\n')).length with hn
  have h2 : 2 ≤ n := by omega
  apply h
  refine ⟨[], List.replicate (n - 2) '\n' ++ cs.dropWhile (fun d => d == '\n'), ?_⟩
  rw [List.nil_append]
  conv_rhs => rw [cs_eq_nlrun_append cs]
  rw [← hn]
  rw [show (['\n', '\n', '\n'] : Str) = List.replicate 3 '\n' from rfl,
    ← List.append_assoc, ← List.replicate_add, ← List.cons_append,
    ← List.replicate_succ]
  congr 2
  omega

theorem clean_nil : cleanTextLineBreaks [] = [] := by
  rw [cleanTextLineBreaks]

theorem clean_cons_not_nl (c : Char) (cs : Str) (h : ¬ c = '\n') :
    cleanTextLineBreaks (c :: cs) = c :: cleanTextLineBreaks cs := by
  rw [cleanTextLineBreaks]
  simp [h]

theorem clean_cons_nl (cs : Str) :
    cleanTextLineBreaks ('\n' :: cs) =
      (if 3 ≤ (cs.takeWhile (fun d => d == '\n')).length + 1 then ['\n', '\n']
       else '\n' :: cs.takeWhile (fun d => d == '\n')) ++
      cleanTextLineBreaks (cs.dropWhile (fun d => d == '\n')) := by
  rw [cleanTextLineBreaks]
  simp

theorem clean_eq_self_of_noTriple_aux :
    ∀ (n : Nat) (t : Str), t.length ≤ n → ¬ hasTripleNl t →
      cleanTextLineBreaks t = t := by
  intro n
  induction n with
  | zero =>
    intro t ht _
    have : t = [] := List.length_eq_zero.mp (by omega)
    subst this
    exact clean_nil
  | succ n ih =>
    intro t ht h
    match t with
    | [] => exact clean_nil
    | c :: cs =>
      by_cases hc : c = '\n'
      · subst hc
        rw [clean_cons_nl]
        have hrun := nlrun_le_two h
        rw [if_neg (by omega)]
        have hrest : cleanTextLineBreaks (cs.dropWhile (fun d => d == '\n')) =
            cs.dropWhile (fun d => d == '\n') := by
          apply ih
          · have := List.Sublist.length_le
              (@List.dropWhile_sublist _ cs (fun d => d == '\n'))
            simp only [List.length_cons] at ht
            omega
          · exact noTriple_of_suffix
              ((List.dropWhile_suffix (fun d => d == '\n')).trans
                (List.suffix_cons '\n' cs))
              h
        rw [hrest, List.cons_append, List.takeWhile_append_dropWhile]
      · rw [clean_cons_not_nl c cs hc]
        congr 1
        apply ih
        · simp only [List.length_cons] at ht; omega
        · exact noTriple_tail h

theorem clean_eq_self_of_noTriple (t : Str) (h : ¬ hasTripleNl t) :
    cleanTextLineBreaks t = t :=
  clean_eq_self_of_noTriple_aux t.length t le_rfl h

theorem noTriple_nil : ¬ hasTripleNl [] := by
  intro ⟨s, u, hsu⟩
  simpa using congrArg List.length hsu

theorem noTriple_cons_of {c : Char} {out : Str} (hc : ¬ c = '\n')
    (hout : ¬ hasTripleNl out) : ¬ hasTripleNl (c :: out) := by
  intro h
  rcases List.infix_cons_iff.mp h with h | h
  · rcases List.cons_prefix_cons.mp h with ⟨h1, _⟩
    exact hc h1.symm
  · exact hout h

theorem noTriple_one_nl {out : Str} (hout : ¬ hasTripleNl out)
    (hhead : ∀ d ds, out = d :: ds → ¬ d = '\n') :
    ¬ hasTripleNl ('\n' :: out) := by
  intro h
  rcases List.infix_cons_iff.mp h with h | h
  · rcases List.cons_prefix_cons.mp h with ⟨_, h2⟩
    match out, h2 with
    | [], h2 => simpa using List.prefix_nil.mp h2
    | d :: ds, h2 =>
      rcases List.cons_prefix_cons.mp h2 with ⟨h3, _⟩
      exact hhead d ds rfl h3.symm
  · exact hout h

theorem noTriple_two_nl {out : Str} (hout : ¬ hasTripleNl out)
    (hhead : ∀ d ds, out = d :: ds → ¬ d = '\n') :
    ¬ hasTripleNl ('\n' :: '\n' :: out) := by
  intro h
  rcases List.infix_cons_iff.mp h with h | h
  · rcases List.cons_prefix_cons.mp h with ⟨_, h2⟩
    rcases List.cons_prefix_cons.mp h2 with ⟨_, h3⟩
    match out, h3 with
    | [], h3 => simpa using List.prefix_nil.mp h3
    | d :: ds, h3 =>
      rcases List.cons_prefix_cons.mp h3 with ⟨h4, _⟩
      exact hhead d ds rfl h4.symm
  · exact noTriple_one_nl hout hhead h

theorem clean_head_shape (rest : Str)
    (hhead : ∀ d ds, rest = d :: ds → ¬ d = '\n') :
    cleanTextLineBreaks rest = [] ∨
      ∃ d ds, cleanTextLineBreaks rest = d :: ds ∧ ¬ d = '\n' := by
  match rest with
  | [] => exact Or.inl clean_nil
  | d :: ds =>
    have hd : ¬ d = '\n' := hhead d ds rfl
    rw [clean_cons_not_nl d ds hd]
    exact Or.inr ⟨d, cleanTextLineBreaks ds, rfl, hd⟩

theorem noTriple_clean_aux :
    ∀ (n : Nat) (t : Str), t.length ≤ n → ¬ hasTripleNl (cleanTextLineBreaks t) := by
  intro n
  induction n with
  | zero =>
    intro t ht
    have : t = [] := List.length_eq_zero.mp (by omega)
    subst this
    rw [clean_nil]
    exact noTriple_nil
  | succ n ih =>
    intro t ht
    match t with
    | [] => rw [clean_nil]; exact noTriple_nil
    | c :: cs =>
      by_cases hc : c = '\n'
      · subst hc
        rw [clean_cons_nl]
        have hlen : (cs.dropWhile (fun d => d == '\n')).length ≤ n := by
          have := List.Sublist.length_le
            (@List.dropWhile_sublist _ cs (fun d => d == '\n'))
          simp only [List.length_cons] at ht
          omega
        have hout := ih (cs.dropWhile (fun d => d == '\n')) hlen
        have hhead : ∀ d ds, cs.dropWhile (fun d => d == '\n') = d :: ds → ¬ d = '\n' := by
          intro d ds hd
          have := dropWhile_head_false hd
          simpa using this
        rcases clean_head_shape (cs.dropWhile (fun d => d == '\n')) hhead with
          hsh | ⟨d, ds, hsh, hdnl⟩
        · rw [hsh]
          by_cases h3 : 3 ≤ (cs.takeWhile (fun d => d == '\n')).length + 1
          · rw [if_pos h3]
            exact noTriple_two_nl noTriple_nil (by intro d ds h; simp at h)
          · rw [if_neg h3]
            rw [takeWhile_nl_eq_replicate cs]
            have hn : (cs.takeWhile (fun d => d == '\n')).length ≤ 1 := by omega
            interval_cases h : (cs.takeWhile (fun d => d == '\n')).length
            · simpa using noTriple_one_nl noTriple_nil (by intro d ds h; simp at h)
            · simpa using noTriple_two_nl noTriple_nil (by intro d ds h; simp at h)
        · have hhead2 : ∀ e es, cleanTextLineBreaks (cs.dropWhile (fun d => d == '\n')) =
              e :: es → ¬ e = '\n' := by
            intro e es he
            rw [hsh] at he
            cases he
            exact hdnl
          by_cases h3 : 3 ≤ (cs.takeWhile (fun d => d == '\n')).length + 1
          · rw [if_pos h3]
            exact noTriple_two_nl hout hhead2
          · rw [if_neg h3]
            rw [takeWhile_nl_eq_replicate cs]
            have hn : (cs.takeWhile (fun d => d == '\n')).length ≤ 1 := by omega
            interval_cases h : (cs.takeWhile (fun d => d == '\n')).length
            · simpa using noTriple_one_nl hout hhead2
            · simpa using noTriple_two_nl hout hhead2
      · rw [clean_cons_not_nl c cs hc]
        refine noTriple_cons_of hc (ih cs ?_)
        simp only [List.length_cons] at ht
        omega

theorem noTriple_clean (t : Str) : ¬ hasTripleNl (cleanTextLineBreaks t) :=
  noTriple_clean_aux t.length t le_rfl

theorem clean_idem (t : Str) :
    cleanTextLineBreaks (cleanTextLineBreaks t) = cleanTextLineBreaks t :=
  clean_eq_self_of_noTriple _ (noTriple_clean t)

theorem clean_replicate_nl (n : Nat) :
    cleanTextLineBreaks (List.replicate n '\n') = List.replicate (min n 2) '\n' := by
  match n with
  | 0 => exact clean_nil
  | n + 1 =>
    rw [List.replicate_succ, clean_cons_nl]
    rw [List.takeWhile_replicate, List.dropWhile_replicate]
    simp only [beq_self_eq_true, if_true, List.length_replicate, clean_nil,
      List.append_nil]
    by_cases h3 : 3 ≤ n + 1
    · rw [if_pos h3]
      have : min (n + 1) 2 = 2 := by omega
      rw [this]
      rfl
    · rw [if_neg h3]
      have : min (n + 1) 2 = n + 1 := by omega
      rw [this, List.replicate_succ]

/-! ## The chunking engine (DocumentsService.semanticChunking and friends)

The fallback chunker of the DocumentsService:

* `semanticChunking(text, chunkSize, overlapRatio)` splits on the regex
  `/\n\s*\n/`, trims and filters the paragraphs, then accumulates them into
  chunks of at most `chunkSize` characters with `getLastWords` providing the
  overlap context; if no paragraphs were found it falls back to
  `sentenceBasedChunking`.
* `getLastWords(text, maxLength)` returns `text` when it fits, otherwise
  tries the regex `/[.!?]\s+(.+)$/` on `text.slice(-maxLength)`, otherwise
  rebuilds a suffix of whole words from `text.split(/\s+/)`.

The regex operations are modeled character-exactly below; each model
carries a comment deriving its behaviour from the JavaScript regex
semantics (leftmost match, greedy quantifiers with backtracking, `.` not
matching a line feed, `$` anchoring at the very end of the string). -/

/-- Sentence terminators, the class `[.!?]`. -/
def isTerm (c : Char) : Bool := c == '.' || c == '!' || c == '?'

/-- JavaScript `text.slice(-m)` for a natural m: the trailing `m`
characters -- except that `-0 === 0`, so `slice(-0)` is `slice(0)`, the
whole string. -/
def sliceNeg (t : Str) (m : Nat) : Str :=
  if m = 0 then t else t.drop (t.length - m)

/-- Index (from the front) of the last line feed of a text, if any. -/
def lastNlPos : Str → Option Nat
  | [] => none
  | c :: cs =>
    match lastNlPos cs with
    | some k => some (k + 1)
    | none => if c = '\n' then some 0 else none

/-- `String.prototype.split(/\n\s*\n/)`.  The regex engine scans left to
right; at a line feed it matches `\n\s*\n` greedily, which consumes up to
the last line feed of the maximal whitespace run that follows (backtracking
`\s*` from its longest extent until the final `\n` can match).  A line feed
followed by whitespace containing no second line feed does not match and is
kept literally. -/
def splitParasGo : Str → Str → List Str
  | [], acc => [acc.reverse]
  | c :: cs, acc =>
    if c = '\n' then
      match lastNlPos (cs.takeWhile isWs) with
      | some k => acc.reverse :: splitParasGo (cs.drop (k + 1)) []
      | none => splitParasGo cs ('\n' :: acc)
    else splitParasGo cs (c :: acc)
  termination_by s _ => s.length
  decreasing_by
    · simp only [List.length_cons, List.length_drop]
      omega
    · simp only [List.length_cons]; omega
    · simp only [List.length_cons]; omega

def splitParas (t : Str) : List Str := splitParasGo t []

/-- `String.prototype.split(/\s+/)`: pieces between maximal whitespace
runs; a leading or trailing run contributes an empty piece. -/
def splitWsGo : Str → Str → List Str
  | [], acc => [acc.reverse]
  | c :: cs, acc =>
    if isWs c then acc.reverse :: splitWsGo (cs.dropWhile isWs) []
    else splitWsGo cs (c :: acc)
  termination_by s _ => s.length
  decreasing_by
    · simp only [List.length_cons]
      have h := List.Sublist.length_le (@List.dropWhile_sublist _ cs isWs)
      omega
    · simp only [List.length_cons]; omega

def splitWs (t : Str) : List Str := splitWsGo t []

/-- The attempt of `/[.!?]\s+(.+)$/` starting right after a terminator
character whose remaining input is `rest`.  `\s+` greedily takes the
maximal whitespace run `w`; `(.+)` cannot contain a line feed and must
reach the end of the string.  So with `r` the remainder after `w`: if `r`
is nonempty the capture must contain all of `r` (every candidate start lies
at or before `r`), and the greedy engine captures exactly `r`, succeeding
iff `r` has no line feed; if `r` is empty (all-whitespace tail) the capture
is a nonempty whitespace suffix, the engine backtracks `\s*` minimally to a
single final character, succeeding iff that final character is not a line
feed and a whitespace character is left for `\s+`. -/
def tailCapture (rest : Str) : Option Str :=
  let w := rest.takeWhile isWs
  let r := rest.dropWhile isWs
  if w = [] then none
  else if r = [] then
    match w.getLast? with
    | some c => if 2 ≤ w.length ∧ ¬ c = '\n' then some [c] else none
    | none => none
  else if r.all (fun d => d != '\n') then some r else none

/-- `lastPart.match(/[.!?]\s+(.+)$/)`: the capture group of the leftmost
successful match position. -/
def matchTail : Str → Option Str
  | [] => none
  | c :: cs =>
    if isTerm c then
      match tailCapture cs with
      | some cap => some cap
      | none => matchTail cs
    else matchTail cs

/-- The backwards word-accumulation loop of `getLastWords`: starting from
the last element of `words`, prepend `words[i] + ' '` while the result does
not exceed `maxLength`, then stop. -/
def lastWordsLoop (maxLength : Nat) : List Str → Str → Str
  | [], result => result
  | w :: ws, result =>
    if maxLength < (w ++ ' ' :: result).length then result
    else lastWordsLoop maxLength ws (w ++ ' ' :: result)

/-- `DocumentsService.getLastWords(text, maxLength)`. -/
def getLastWords (text : Str) (maxLength : Nat) : Str :=
  if text.length ≤ maxLength then text
  else
    match matchTail (sliceNeg text maxLength) with
    | some cap => cap ++ [' ']
    | none => trimJS (lastWordsLoop maxLength (splitWs text).reverse []) ++ [' ']

def nl2 : Str := ['\n', '\n']

/-- The paragraph-accumulation loop of `semanticChunking`.  Mirrors the
source loop: when adding the paragraph would exceed `chunkSize` and the
buffer is nonempty, emit `(previousContext + currentChunk).trim()`, set the
context to `getLastWords(currentChunk, overlapSize)` and restart the buffer
with this paragraph; otherwise append the paragraph plus a blank line.  On
the last paragraph, additionally emit the remaining buffer if it trims
nonempty. -/
def chunkLoop (S ov : Nat) : List Str → Str → Str → List Str → List Str
  | [], _cur, _ctx, acc => acc
  | p :: rest, cur, ctx, acc =>
    let next :=
      if S < (cur ++ p).length ∧ 0 < cur.length then
        (p ++ nl2, getLastWords cur ov, acc ++ [trimJS (ctx ++ cur)])
      else
        (cur ++ p ++ nl2, ctx, acc)
    match rest with
    | [] =>
      if 0 < (trimJS next.1).length then next.2.2 ++ [trimJS (next.2.1 ++ next.1)]
      else next.2.2
    | q :: qs => chunkLoop S ov (q :: qs) next.1 next.2.1 next.2.2

/-- The same loop as `chunkLoop`, collecting for each emitted chunk the
`currentChunk` buffer it was flushed from (the buffer before the overlap
context was prepended), in emission order. -/
def chunkLoopBufs (S : Nat) : List Str → Str → List Str → List Str
  | [], _cur, bacc => bacc
  | p :: rest, cur, bacc =>
    let next :=
      if S < (cur ++ p).length ∧ 0 < cur.length then
        (p ++ nl2, bacc ++ [cur])
      else
        (cur ++ p ++ nl2, bacc)
    match rest with
    | [] =>
      if 0 < (trimJS next.1).length then next.2 ++ [next.1] else next.2
    | q :: qs => chunkLoopBufs S (q :: qs) next.1 next.2

/-- `text.match(/[^.!?]+[.!?]+/g)`: the (possibly empty) list of maximal
`non-terminators then terminators` runs.  A terminator that does not follow
a non-terminator run cannot start a match and is skipped; a tail without
any terminator yields no further match. -/
def sentencesGo : Str → List Str
  | [] => []
  | c :: cs =>
    if hterm : isTerm c then sentencesGo cs
    else
      match hdrop : (c :: cs).dropWhile (fun d => !isTerm d) with
      | [] => []
      | d :: ds =>
        ((c :: cs).takeWhile (fun d => !isTerm d) ++ (d :: ds).takeWhile isTerm)
          :: sentencesGo ((d :: ds).dropWhile isTerm)
  termination_by s => s.length
  decreasing_by
    · simp only [List.length_cons]; omega
    · have h1 : (c :: cs).dropWhile (fun d => !isTerm d) = cs.dropWhile (fun d => !isTerm d) := by
        rw [List.dropWhile_cons_of_pos]
        simp [hterm]
      have h2 := List.Sublist.length_le
        (@List.dropWhile_sublist _ cs (fun d => !isTerm d))
      have h3 := List.Sublist.length_le
        (@List.dropWhile_sublist _ (d :: ds) isTerm)
      rw [h1] at hdrop
      rw [← hdrop] at h3 ⊢
      simp only [List.length_cons]
      omega

/-- `DocumentsService.sentenceBasedChunking`'s sentence loop. -/
def sentLoop (S ov : Nat) : List Str → Str → Str → List Str → List Str
  | [], cur, ctx, acc =>
    if 0 < (trimJS cur).length then acc ++ [trimJS (ctx ++ cur)] else acc
  | s :: rest, cur, ctx, acc =>
    if S < (cur ++ trimJS s).length ∧ 0 < cur.length then
      sentLoop S ov rest (trimJS s ++ [' ']) (getLastWords cur ov)
        (acc ++ [trimJS (ctx ++ cur)])
    else
      sentLoop S ov rest (cur ++ trimJS s ++ [' ']) ctx acc

/-- `DocumentsService.sentenceBasedChunking(text, chunkSize, overlapSize)`:
`text.match(...)` returning null gives `sentences = [text]`. -/
def sentenceBasedChunking (t : Str) (S ov : Nat) : List Str :=
  sentLoop S ov (if sentencesGo t = [] then [t] else sentencesGo t) [] [] []

/-- `Math.floor(chunkSize * overlapRatio)`. -/
def overlapSizeOf (S : Nat) (r : ℚ) : Nat := (Int.floor ((S : ℚ) * r)).toNat

/-- The paragraphs of `semanticChunking`:
`text.split(/\n\s*\n/).map(p => p.trim()).filter(p => p.length > 0)`. -/
def parasOf (t : Str) : List Str :=
  ((splitParas t).map trimJS).filter (fun p => 0 < p.length)

/-- `DocumentsService.semanticChunking(text, chunkSize, overlapRatio)`. -/
def semanticChunking (t : Str) (chunkSize : Nat) (overlapRatio : ℚ) : List Str :=
  if chunkLoop chunkSize (overlapSizeOf chunkSize overlapRatio) (parasOf t) [] [] [] = []
      ∧ 0 < t.length then
    sentenceBasedChunking t chunkSize (overlapSizeOf chunkSize overlapRatio)
  else chunkLoop chunkSize (overlapSizeOf chunkSize overlapRatio) (parasOf t) [] [] []

/-- The buffer each chunk of `semanticChunking` was flushed from (the
sentence fallback only ever fires on whitespace-only text and produces no
chunks, so it has no buffers). -/
def semanticChunkingBufs (t : Str) (chunkSize : Nat) (overlapRatio : ℚ) : List Str :=
  if chunkLoop chunkSize (overlapSizeOf chunkSize overlapRatio) (parasOf t) [] [] [] = []
      ∧ 0 < t.length then []
  else chunkLoopBufs chunkSize (parasOf t) [] []

/-- The `previousContext` in force when the k-th chunk is emitted: empty
for the first chunk, `getLastWords` of the previous chunk's buffer
afterwards. -/
def ctxAt (ov : Nat) (bufs : List Str) : Nat → Str
  | 0 => []
  | k + 1 => getLastWords (bufs.getD k []) ov

/-- The word-rebuild accumulator of `getLastWords`: each word followed by
one space. -/
def wordJoin (l : List Str) : Str := (l.map (fun w => w ++ [' '])).flatten

unseal cleanTextLineBreaks splitParasGo splitWsGo sentencesGo

/-! ### Length bounds for getLastWords -/

theorem trimJS_nil : trimJS [] = [] := rfl

theorem tailCapture_length (rest cap : Str) (h : tailCapture rest = some cap) :
    cap.length + 1 ≤ rest.length := by
  rw [tailCapture] at h
  rw [show (let w := List.takeWhile isWs rest;
    let r := List.dropWhile isWs rest;
    if w = [] then none
    else
      if r = [] then
        match w.getLast? with
        | some c => if 2 ≤ w.length ∧ ¬c = '\n' then some [c] else none
        | none => none
      else if (r.all fun d => d != '\n') = true then some r else none) =
    (if List.takeWhile isWs rest = [] then none
    else
      if List.dropWhile isWs rest = [] then
        match (List.takeWhile isWs rest).getLast? with
        | some c => if 2 ≤ (List.takeWhile isWs rest).length ∧ ¬c = '\n' then some [c] else none
        | none => none
      else if ((List.dropWhile isWs rest).all fun d => d != '\n') = true
        then some (List.dropWhile isWs rest) else none) from rfl] at h
  have hwlen : (rest.takeWhile isWs).length ≤ rest.length :=
    List.IsPrefix.length_le (List.takeWhile_prefix isWs)
  have hsplit : (rest.takeWhile isWs).length + (rest.dropWhile isWs).length =
      rest.length := by
    conv_rhs => rw [← List.takeWhile_append_dropWhile isWs rest]
    rw [List.length_append]
  split at h
  · simp at h
  · split at h
    · split at h
      · split at h
        · next hcond =>
          cases h
          simp only [List.length_cons, List.length_nil]
          omega
        · simp at h
      · simp at h
    · split at h
      · next hw hr _ =>
        cases h
        have hwne : 1 ≤ (rest.takeWhile isWs).length := by
          cases hcase : rest.takeWhile isWs with
          | nil => exact absurd hcase hw
          | cons x xs => simp [hcase]
        omega
      · simp at h

theorem matchTail_length :
    ∀ (t cap : Str), matchTail t = some cap → cap.length + 2 ≤ t.length := by
  intro t
  induction t with
  | nil => intro cap h; simp [matchTail] at h
  | cons c cs ih =>
    intro cap h
    rw [matchTail] at h
    by_cases hterm : isTerm c
    · rw [if_pos hterm] at h
      match hcap : tailCapture cs with
      | some cap2 =>
        rw [hcap] at h
        cases h
        have := tailCapture_length cs cap hcap
        simp only [List.length_cons]
        omega
      | none =>
        rw [hcap] at h
        have := ih cap h
        simp only [List.length_cons]
        omega
    · rw [if_neg hterm] at h
      have := ih cap h
      simp only [List.length_cons]
      omega

theorem lastWordsLoop_length (m : Nat) :
    ∀ (ws : List Str) (res : Str), res.length ≤ m →
      (lastWordsLoop m ws res).length ≤ m := by
  intro ws
  induction ws with
  | nil => intro res h; exact h
  | cons w ws ih =>
    intro res h
    rw [lastWordsLoop]
    by_cases hlt : m < (w ++ ' ' :: res).length
    · rw [if_pos hlt]; exact h
    · rw [if_neg hlt]
      exact ih _ (by omega)

theorem lastWordsLoop_last (m : Nat) :
    ∀ (ws : List Str) (res : Str), (res = [] ∨ res.getLast? = some ' ') →
      (lastWordsLoop m ws res = [] ∨ (lastWordsLoop m ws res).getLast? = some ' ') := by
  intro ws
  induction ws with
  | nil => intro res h; exact h
  | cons w ws ih =>
    intro res h
    rw [lastWordsLoop]
    by_cases hlt : m < (w ++ ' ' :: res).length
    · rw [if_pos hlt]; exact h
    · rw [if_neg hlt]
      apply ih
      right
      rcases h with rfl | h
      · exact List.getLast?_concat w
      · rw [@List.getLast?_append_of_ne_nil _ w (' ' :: res) (by simp)]
        cases res with
        | nil => simp at h
        | cons x xs => rw [List.getLast?_cons_cons]; exact h

theorem getLast?_of_suffix {s t : Str} (h : s <:+ t) (hne : s ≠ []) :
    t.getLast? = s.getLast? := by
  rcases h with ⟨pre, rfl⟩
  exact List.getLast?_append_of_ne_nil pre hne

theorem trimJS_length_lt_of_last_ws (s : Str) (c : Char)
    (h : s.getLast? = some c) (hws : isWs c) : (trimJS s).length < s.length := by
  have hsne : s ≠ [] := by
    intro hcon; rw [hcon] at h; simp at h
  have hslen : 1 ≤ s.length := by
    cases s with
    | nil => exact absurd rfl hsne
    | cons x xs => simp
  unfold trimJS
  cases htl : trimLeft s with
  | nil => simpa [trimRight, htl] using hslen
  | cons d ds =>
    rw [← htl]
    have htlne : trimLeft s ≠ [] := by rw [htl]; simp
    have hlast : (trimLeft s).getLast? = some c := by
      rw [← getLast?_of_suffix (trimLeft_suffix s) htlne, h]
    -- trimRight strictly shortens a text ending in whitespace
    have hrev : (trimLeft s).reverse.head? = some c := by
      rw [List.head?_reverse, hlast]
    have : (trimRight (trimLeft s)).length < (trimLeft s).length := by
      unfold trimRight
      cases hrv : (trimLeft s).reverse with
      | nil => simp [hrv] at hrev
      | cons e es =>
        rw [hrv] at hrev
        simp only [List.head?_cons, Option.some.injEq] at hrev
        subst hrev
        rw [trimLeft]
        simp only [hws, if_true, List.length_reverse]
        have h1 : (trimLeft es).length ≤ es.length := trimLeft_length_le es
        have h2 : (trimLeft s).length = es.length + 1 := by
          have := congrArg List.length hrv
          simpa using this
        omega
    have := trimLeft_length_le s
    omega

theorem sliceNeg_length (t : Str) (m : Nat) (h1 : m ≤ t.length) (h0 : m ≠ 0) :
    (sliceNeg t m).length = m := by
  unfold sliceNeg
  rw [if_neg h0, List.length_drop]
  omega

theorem getLastWords_of_fit (t : Str) (m : Nat) (h : t.length ≤ m) :
    getLastWords t m = t := by
  unfold getLastWords
  rw [if_pos h]

/-- For every positive length bound, `getLastWords` returns at most
`maxLength` characters (the bound fails for `maxLength = 0`, where
`slice(-0)` returns the whole string). -/
theorem getLastWords_length_le (t : Str) (m : Nat) (hm : 1 ≤ m) :
    (getLastWords t m).length ≤ m := by
  unfold getLastWords
  by_cases hfit : t.length ≤ m
  · rw [if_pos hfit]; exact hfit
  · rw [if_neg hfit]
    have hslice : (sliceNeg t m).length = m :=
      sliceNeg_length t m (by omega) (by omega)
    match hmt : matchTail (sliceNeg t m) with
    | some cap =>
      have := matchTail_length _ cap hmt
      rw [hslice] at this
      simp only [List.length_append, List.length_cons, List.length_nil]
      omega
    | none =>
      have hloop := lastWordsLoop_length m (splitWs t).reverse [] (by simp)
      rcases lastWordsLoop_last m (splitWs t).reverse [] (Or.inl rfl) with hnil | hsp
      · rw [hnil]
        simpa using hm
      · have := trimJS_length_lt_of_last_ws _ ' ' hsp (by decide)
        simp only [List.length_append, List.length_cons, List.length_nil]
        omega

/-! ### trimJS as a fixed point -/

theorem trimRight_is_pre (s : Str) : trimRight s <+: s := by
  unfold trimRight
  have h := List.reverse_prefix.mpr (trimLeft_suffix s.reverse)
  rwa [List.reverse_reverse] at h

theorem trimJS_head_not_ws (s : Str) (c : Char) (cs : Str)
    (h : trimJS s = c :: cs) : isWs c = false := by
  have hpre : trimJS s <+: trimLeft s := trimRight_is_pre (trimLeft s)
  rw [h] at hpre
  rcases hpre with ⟨u, hu⟩
  exact trimLeft_head_not_ws s c (cs ++ u) (by rw [← hu, List.cons_append])

theorem trimJS_getLast_not_ws (s : Str) (c : Char)
    (h : (trimJS s).getLast? = some c) : isWs c = false := by
  unfold trimJS trimRight at h
  rw [List.getLast?_reverse] at h
  cases hh : trimLeft (trimLeft s).reverse with
  | nil => rw [hh] at h; simp at h
  | cons e es =>
    rw [hh] at h
    simp only [List.head?_cons, Option.some.injEq] at h
    exact h ▸ trimLeft_head_not_ws _ e es hh

theorem trimRight_eq_self_of_getLast (s : Str)
    (h : ∀ c, s.getLast? = some c → isWs c = false) : trimRight s = s := by
  unfold trimRight
  cases hrv : s.reverse with
  | nil =>
    have : s = [] := by simpa using congrArg List.reverse hrv
    simp [this, trimLeft]
  | cons e es =>
    have he : s.getLast? = some e := by
      rw [← List.head?_reverse, hrv, List.head?_cons]
    rw [trimLeft_cons_not_ws e es (h e he), ← hrv, List.reverse_reverse]

theorem trimJS_fixed (s : Str)
    (hhead : ∀ c cs, s = c :: cs → isWs c = false)
    (hlast : ∀ c, s.getLast? = some c → isWs c = false) : trimJS s = s := by
  cases s with
  | nil => rfl
  | cons c cs =>
    unfold trimJS
    rw [trimLeft_cons_not_ws c cs (hhead c cs rfl)]
    exact trimRight_eq_self_of_getLast _ hlast

theorem trimJS_idem (s : Str) : trimJS (trimJS s) = trimJS s := by
  apply trimJS_fixed
  · exact fun c cs h => trimJS_head_not_ws s c cs h
  · exact fun c h => trimJS_getLast_not_ws s c h

theorem exists_not_ws_of_trimJS_ne_nil (p : Str) (hfix : trimJS p = p)
    (hne : p ≠ []) : ∃ c ∈ p, isWs c = false := by
  by_contra hcon
  push_neg at hcon
  have : trimJS p = [] := by
    rw [trimJS_eq_nil_iff]
    intro c hc
    have := hcon c hc
    simpa using this
  exact hne (by rw [← hfix, this])

/-! ### The paragraph splitter: length accounting and character coverage -/

/-- Each piece costs its length plus the two characters of the shortest
separator (`\n\n`) that followed it in the input. -/
def sumLen (ps : List Str) : Nat := (ps.map (fun p => p.length + 2)).sum

theorem splitParasGo_nil (acc : Str) : splitParasGo [] acc = [acc.reverse] := by
  rw [splitParasGo]

theorem splitParasGo_nl (cs acc : Str) :
    splitParasGo ('\n' :: cs) acc =
      match lastNlPos (cs.takeWhile isWs) with
      | some k => acc.reverse :: splitParasGo (cs.drop (k + 1)) []
      | none => splitParasGo cs ('\n' :: acc) := by
  rw [splitParasGo]
  simp

theorem splitParasGo_cons (c : Char) (cs acc : Str) (h : ¬ c = '\n') :
    splitParasGo (c :: cs) acc = splitParasGo cs (c :: acc) := by
  rw [splitParasGo]
  simp [h]

theorem lastNlPos_lt_length : ∀ (w : Str) (k : Nat), lastNlPos w = some k → k < w.length := by
  intro w
  induction w with
  | nil => intro k h; simp [lastNlPos] at h
  | cons c cs ih =>
    intro k h
    rw [lastNlPos] at h
    match hcs : lastNlPos cs with
    | some k2 =>
      rw [hcs] at h
      cases h
      have := ih k2 hcs
      simp only [List.length_cons]
      omega
    | none =>
      rw [hcs] at h
      by_cases hc : c = '\n'
      · rw [if_pos hc] at h
        cases h
        simp
      · rw [if_neg hc] at h
        simp at h

theorem splitParasGo_sum (s acc : Str) :
    sumLen (splitParasGo s acc) ≤ s.length + acc.length + 2 := by
  induction s, acc using splitParasGo.induct with
  | case1 acc =>
    rw [splitParasGo_nil]
    simp [sumLen]
  | case2 cs acc k hk ih =>
    rw [splitParasGo_nl, hk]
    have hk2 : k < (cs.takeWhile isWs).length := lastNlPos_lt_length _ k hk
    have hk3 : (cs.takeWhile isWs).length ≤ cs.length :=
      List.IsPrefix.length_le (List.takeWhile_prefix isWs)
    have hd : (List.drop (k + 1) cs).length = cs.length - (k + 1) :=
      List.length_drop _ _
    simp only [sumLen, List.map_cons, List.sum_cons, List.length_reverse,
      List.length_cons, List.length_nil, hd] at ih ⊢
    omega
  | case3 cs acc hk ih =>
    rw [splitParasGo_nl, hk]
    simp only [List.length_cons] at ih ⊢
    omega
  | case4 c cs acc hc ih =>
    rw [splitParasGo_cons c cs acc hc]
    simp only [List.length_cons] at ih ⊢
    omega

theorem mem_splitParasGo_sub (s acc : Str) :
    ∀ (p : Str), p ∈ splitParasGo s acc → ∀ c ∈ p, c ∈ s ∨ c ∈ acc := by
  induction s, acc using splitParasGo.induct with
  | case1 acc =>
    intro p hp c hc
    rw [splitParasGo_nil] at hp
    simp only [List.mem_singleton] at hp
    subst hp
    exact Or.inr (by simpa using hc)
  | case2 cs acc k hk ih =>
    intro p hp c hc
    rw [splitParasGo_nl, hk] at hp
    rcases List.mem_cons.mp hp with rfl | hp
    · exact Or.inr (by simpa using hc)
    · rcases ih p hp c hc with h | h
      · exact Or.inl (List.mem_cons_of_mem _ (List.drop_subset (k + 1) cs h))
      · simp at h
  | case3 cs acc hk ih =>
    intro p hp c hc
    rw [splitParasGo_nl, hk] at hp
    rcases ih p hp c hc with h | h
    · exact Or.inl (List.mem_cons_of_mem _ h)
    · rcases List.mem_cons.mp h with rfl | h
      · exact Or.inl (List.mem_cons_self _ _)
      · exact Or.inr h
  | case4 c0 cs acc hc0 ih =>
    intro p hp c hc
    rw [splitParasGo_cons c0 cs acc hc0] at hp
    rcases ih p hp c hc with h | h
    · exact Or.inl (List.mem_cons_of_mem _ h)
    · rcases List.mem_cons.mp h with rfl | h
      · exact Or.inl (List.mem_cons_self _ _)
      · exact Or.inr h

theorem splitParasGo_covers (s acc : Str) :
    ∀ (c : Char), isWs c = false → (c ∈ s ∨ c ∈ acc) →
      ∃ p ∈ splitParasGo s acc, c ∈ p := by
  induction s, acc using splitParasGo.induct with
  | case1 acc =>
    intro c _ hmem
    rw [splitParasGo_nil]
    rcases hmem with h | h
    · simp at h
    · exact ⟨acc.reverse, by simp, by simpa using h⟩
  | case2 cs acc k hk ih =>
    intro c hws hmem
    rw [splitParasGo_nl, hk]
    rcases hmem with h | h
    · rcases List.mem_cons.mp h with rfl | h
      · simp [isWs] at hws
      · -- c is in cs; the k+1 dropped characters are whitespace, so c survives
        have hk2 : k < (cs.takeWhile isWs).length := lastNlPos_lt_length _ k hk
        have hsplit : cs = cs.take (k + 1) ++ cs.drop (k + 1) :=
          (List.take_append_drop (k + 1) cs).symm
        rw [hsplit] at h
        rcases List.mem_append.mp h with h | h
        · exfalso
          have htake : cs.take (k + 1) = (cs.takeWhile isWs).take (k + 1) := by
            conv_lhs => rw [← List.takeWhile_append_dropWhile isWs cs]
            rw [List.take_append_of_le_length (by omega)]
          rw [htake] at h
          have := List.mem_takeWhile_imp (List.take_subset _ _ h)
          rw [hws] at this
          exact Bool.false_ne_true this
        · rcases ih c hws (Or.inl h) with ⟨p, hp, hcp⟩
          exact ⟨p, List.mem_cons_of_mem _ hp, hcp⟩
    · exact ⟨acc.reverse, by simp, by simpa using h⟩
  | case3 cs acc hk ih =>
    intro c hws hmem
    rw [splitParasGo_nl, hk]
    rcases hmem with h | h
    · rcases List.mem_cons.mp h with rfl | h
      · simp [isWs] at hws
      · exact ih c hws (Or.inl h)
    · exact ih c hws (Or.inr (List.mem_cons_of_mem _ h))
  | case4 c0 cs acc hc0 ih =>
    intro c hws hmem
    rw [splitParasGo_cons c0 cs acc hc0]
    rcases hmem with h | h
    · rcases List.mem_cons.mp h with rfl | h
      · exact ih c hws (Or.inr (List.mem_cons_self _ _))
      · exact ih c hws (Or.inl h)
    · exact ih c hws (Or.inr (List.mem_cons_of_mem _ h))

/-! ### The trimmed, filtered paragraph list -/

theorem parasOf_mem (t p : Str) (hp : p ∈ parasOf t) : p ≠ [] ∧ trimJS p = p := by
  unfold parasOf at hp
  have h1 := List.of_mem_filter hp
  have h2 := List.mem_of_mem_filter hp
  rcases List.mem_map.mp h2 with ⟨x, _, rfl⟩
  refine ⟨?_, trimJS_idem x⟩
  simp only [decide_eq_true_eq] at h1
  intro hnil
  rw [hnil] at h1
  simp at h1

theorem sumLen_parasOf (t : Str) : sumLen (parasOf t) ≤ t.length + 2 := by
  unfold parasOf splitParas
  have h1 : sumLen (((splitParasGo t []).map trimJS).filter (fun p => 0 < p.length)) ≤
      sumLen ((splitParasGo t []).map trimJS) := by
    unfold sumLen
    exact List.Sublist.sum_le_sum
      (List.Sublist.map _ (List.filter_sublist _)) (by intro x _; positivity)
  have h2 : sumLen ((splitParasGo t []).map trimJS) ≤ sumLen (splitParasGo t []) := by
    unfold sumLen
    rw [List.map_map]
    apply List.sum_le_sum
    intro p _
    simp only [Function.comp_apply]
    have := trimJS_length_le p
    omega
  have h3 := splitParasGo_sum t []
  simp only [List.length_nil] at h3
  omega

theorem parasOf_nil_of_all_ws (t : Str) (h : ∀ c ∈ t, isWs c) : parasOf t = [] := by
  unfold parasOf
  rw [List.filter_eq_nil]
  intro p hp
  rcases List.mem_map.mp hp with ⟨x, hx, rfl⟩
  have hxws : ∀ c ∈ x, isWs c := by
    intro c hc
    rcases mem_splitParasGo_sub t [] x hx c hc with hm | hm
    · exact h c hm
    · simp at hm
  rw [(trimJS_eq_nil_iff x).mpr hxws]
  simp

theorem parasOf_ne_nil (t : Str) (c : Char) (hc : c ∈ t) (hws : isWs c = false) :
    parasOf t ≠ [] := by
  rcases splitParasGo_covers t [] c hws (Or.inl hc) with ⟨p, hp, hcp⟩
  unfold parasOf
  intro hcon
  rw [List.filter_eq_nil] at hcon
  have hmem : trimJS p ∈ (splitParas t).map trimJS := List.mem_map_of_mem trimJS hp
  have := hcon (trimJS p) hmem
  simp only [decide_eq_true_eq, not_lt, Nat.le_zero, List.length_eq_zero] at this
  rw [trimJS_eq_nil_iff] at this
  have := this c hcp
  rw [hws] at this
  exact Bool.false_ne_true this

/-! ### The paragraph buffer and its trimmed value -/

/-- The chunk buffer built by the loop: every accumulated paragraph is
followed by the `'\n\n'` separator the source appends. -/
def bufJoin (ps : List Str) : Str := (ps.map (fun p => p ++ nl2)).flatten

/-- Paragraphs joined by a single blank line (the trimmed buffer value). -/
def joinParas : List Str → Str
  | [] => []
  | [p] => p
  | p :: q :: rest => p ++ nl2 ++ joinParas (q :: rest)

theorem bufJoin_nil : bufJoin [] = [] := rfl

theorem bufJoin_cons (p : Str) (ps : List Str) :
    bufJoin (p :: ps) = p ++ nl2 ++ bufJoin ps := by
  unfold bufJoin
  rw [List.map_cons, List.flatten_cons, List.append_assoc]

theorem bufJoin_concat (ps : List Str) (p : Str) :
    bufJoin (ps ++ [p]) = bufJoin ps ++ p ++ nl2 := by
  unfold bufJoin
  rw [List.map_append, List.flatten_append]
  simp [List.append_assoc]

theorem bufJoin_length (ps : List Str) : (bufJoin ps).length = sumLen ps := by
  induction ps with
  | nil => rfl
  | cons p ps ih =>
    rw [bufJoin_cons]
    simp only [sumLen, List.map_cons, List.sum_cons, List.length_append]
    simp only [sumLen] at ih
    rw [ih]
    simp only [nl2, List.length_cons, List.length_nil]

theorem trimLeft_append_left (u v : Str) (h : ∃ c ∈ u, isWs c = false) :
    trimLeft (u ++ v) = trimLeft u ++ v := by
  induction u with
  | nil => rcases h with ⟨c, hc, _⟩; simp at hc
  | cons c cs ih =>
    by_cases hc : isWs c
    · have hcs : ∃ d ∈ cs, isWs d = false := by
        rcases h with ⟨d, hd, hdw⟩
        rcases List.mem_cons.mp hd with rfl | hd
        · rw [hc] at hdw; cases hdw
        · exact ⟨d, hd, hdw⟩
      rw [List.cons_append, trimLeft]
      simp only [hc, if_true]
      rw [ih hcs, trimLeft]
      simp [hc]
    · rw [List.cons_append, trimLeft, trimLeft]
      simp [hc]

theorem trimRight_append_right (a b : Str) (h : ∃ c ∈ b, isWs c = false) :
    trimRight (a ++ b) = a ++ trimRight b := by
  unfold trimRight
  rw [List.reverse_append]
  rw [trimLeft_append_left _ _ (by
    rcases h with ⟨c, hc, hcw⟩
    exact ⟨c, by simpa using hc, hcw⟩)]
  rw [List.reverse_append, List.reverse_reverse]

theorem head_not_ws_of_fixed (p : Str) (c : Char) (cs : Str)
    (hfix : trimJS p = p) (hp : p = c :: cs) : isWs c = false :=
  trimJS_head_not_ws p c cs (by rw [hfix, hp])

theorem bufJoin_has_not_ws (ps : List Str)
    (hps : ∀ p ∈ ps, p ≠ [] ∧ trimJS p = p) (hne : ps ≠ []) :
    ∃ c ∈ bufJoin ps, isWs c = false := by
  match ps with
  | [] => exact absurd rfl hne
  | p :: rest =>
    rcases hps p (by simp) with ⟨hpne, hpfix⟩
    rcases exists_not_ws_of_trimJS_ne_nil p hpfix hpne with ⟨c, hc, hcw⟩
    refine ⟨c, ?_, hcw⟩
    rw [bufJoin_cons]
    simp [List.mem_append, hc]

theorem trimJS_append_ws_tail (x u : Str) (hu : ∀ c ∈ u, isWs c)
    (hxfix : trimJS x = x) : trimJS (x ++ u) = x := by
  cases hx : x with
  | nil =>
    simp only [List.nil_append]
    rw [trimJS_eq_nil_iff]
    exact hu
  | cons c cs =>
    rw [← hx]
    have hhead : isWs c = false := head_not_ws_of_fixed x c cs hxfix hx
    unfold trimJS
    rw [hx, trimLeft_append_of_head_not_ws c cs u hhead, ← hx]
    unfold trimRight
    rw [List.reverse_append, trimLeft_append_of_all_ws u.reverse x.reverse
      (fun d hd => hu d (by simpa using hd))]
    have hxr : trimLeft x.reverse = x.reverse := by
      have h1 : trimRight x = x := trimRight_eq_self_of_getLast x
        (fun e he => trimJS_getLast_not_ws x e (by rw [hxfix]; exact he))
      unfold trimRight at h1
      have h2 := congrArg List.reverse h1
      rwa [List.reverse_reverse] at h2
    rw [hxr, List.reverse_reverse]

theorem joinParas_ne_nil (ps : List Str) (hne : ps ≠ [])
    (hps : ∀ p ∈ ps, p ≠ []) : joinParas ps ≠ [] := by
  match ps with
  | [p] =>
    rw [joinParas]
    exact hps p (by simp)
  | p :: q :: rest =>
    rw [joinParas]
    have := hps p (by simp)
    intro hcon
    rcases List.append_eq_nil.mp (List.append_eq_nil.mp hcon).1 with ⟨h1, _⟩
    exact this h1

theorem trimJS_bufJoin (ps : List Str)
    (hps : ∀ p ∈ ps, p ≠ [] ∧ trimJS p = p) (hne : ps ≠ []) :
    trimJS (bufJoin ps) = joinParas ps := by
  match ps with
  | [p] =>
    rw [bufJoin_cons, bufJoin_nil, List.append_nil, joinParas]
    rcases hps p (by simp) with ⟨hpne, hpfix⟩
    refine trimJS_append_ws_tail p nl2 ?_ hpfix
    intro c hc
    simp only [nl2, List.mem_cons, List.not_mem_nil, or_false] at hc
    rcases hc with rfl | rfl <;> decide
  | p :: q :: rest =>
    have hq : ∀ x ∈ q :: rest, x ≠ [] ∧ trimJS x = x := by
      intro x hx; exact hps x (List.mem_cons_of_mem _ hx)
    have ihq : trimJS (bufJoin (q :: rest)) = joinParas (q :: rest) :=
      trimJS_bufJoin (q :: rest) hq (by simp)
    rcases hps p (by simp) with ⟨hpne, hpfix⟩
    rcases hps q (by simp) with ⟨hqne, hqfix⟩
    rw [bufJoin_cons, joinParas]
    -- p starts with a non-whitespace character
    obtain ⟨c, cs, hp⟩ : ∃ c cs, p = c :: cs := by
      cases p with
      | nil => exact absurd rfl hpne
      | cons c cs => exact ⟨c, cs, rfl⟩
    have hhead : isWs c = false := head_not_ws_of_fixed p c cs hpfix hp
    have hbj : ∃ d ∈ bufJoin (q :: rest), isWs d = false :=
      bufJoin_has_not_ws (q :: rest) hq (by simp)
    unfold trimJS
    rw [List.append_assoc, hp, trimLeft_append_of_head_not_ws c cs _ hhead, ← hp,
      ← List.append_assoc]
    rw [trimRight_append_right (p ++ nl2) (bufJoin (q :: rest)) hbj]
    congr 1
    -- trimRight (bufJoin (q :: rest)) is the full trimJS since the head is non-ws
    obtain ⟨d, ds, hqeq⟩ : ∃ d ds, q = d :: ds := by
      cases q with
      | nil => exact absurd rfl hqne
      | cons d ds => exact ⟨d, ds, rfl⟩
    have hqhead : isWs d = false := head_not_ws_of_fixed q d ds hqfix hqeq
    have htl : trimLeft (bufJoin (q :: rest)) = bufJoin (q :: rest) := by
      rw [bufJoin_cons, List.append_assoc, hqeq,
        trimLeft_append_of_head_not_ws d ds _ hqhead, ← hqeq, ← List.append_assoc,
        ← bufJoin_cons]
    calc trimRight (bufJoin (q :: rest))
        = trimRight (trimLeft (bufJoin (q :: rest))) := by rw [htl]
      _ = joinParas (q :: rest) := ihq

/-! ### The chunk loop when everything fits in one chunk -/

theorem sumLen_append (a b : List Str) : sumLen (a ++ b) = sumLen a + sumLen b := by
  unfold sumLen
  rw [List.map_append, List.sum_append]

theorem sumLen_cons (p : Str) (b : List Str) :
    sumLen (p :: b) = (p.length + 2) + sumLen b := by
  unfold sumLen
  rw [List.map_cons, List.sum_cons]

theorem chunkLoop_no_emit (S ov : Nat) :
    ∀ (paras : List Str), ∀ (done acc : List Str), paras ≠ [] →
      (∀ p ∈ done ++ paras, p ≠ [] ∧ trimJS p = p) →
      sumLen (done ++ paras) ≤ S + 2 →
      chunkLoop S ov paras (bufJoin done) [] acc =
        acc ++ [trimJS (bufJoin (done ++ paras))] := by
  intro paras
  induction paras with
  | nil => intro done acc h; exact absurd rfl h
  | cons p rest ih =>
    intro done acc _ hps hsum
    have hcond : ¬ (S < (bufJoin done ++ p).length ∧ 0 < (bufJoin done).length) := by
      intro hand
      have hlen : (bufJoin done ++ p).length = sumLen done + p.length := by
        rw [List.length_append, bufJoin_length]
      have hsum2 : sumLen (done ++ p :: rest) =
          sumLen done + ((p.length + 2) + sumLen rest) := by
        rw [sumLen_append, sumLen_cons]
      have h1 := hand.1
      omega
    have hps2 : ∀ x ∈ (done ++ [p]) ++ rest, x ≠ [] ∧ trimJS x = x := by
      intro x hx
      apply hps
      rwa [List.append_assoc, List.singleton_append] at hx
    cases rest with
    | nil =>
      rw [chunkLoop]
      simp only [if_neg hcond]
      have hbj : bufJoin done ++ p ++ nl2 = bufJoin (done ++ [p]) :=
        (bufJoin_concat done p).symm
      have htb : trimJS (bufJoin (done ++ [p])) = joinParas (done ++ [p]) :=
        trimJS_bufJoin (done ++ [p]) (by simpa using hps2) (by simp)
      have hne2 : trimJS (bufJoin (done ++ [p])) ≠ [] := by
        rw [htb]
        apply joinParas_ne_nil (done ++ [p]) (by simp)
        intro x hx
        exact (hps x (by simpa using hx)).1
      rw [hbj]
      rw [if_pos (by
        cases hcase : trimJS (bufJoin (done ++ [p])) with
        | nil => exact absurd hcase hne2
        | cons y ys => simp [hcase])]
      rw [List.nil_append]
    | cons q qs =>
      rw [chunkLoop]
      simp only [if_neg hcond]
      have hbj : bufJoin done ++ p ++ nl2 = bufJoin (done ++ [p]) :=
        (bufJoin_concat done p).symm
      rw [hbj]
      have := ih (done ++ [p]) acc (by simp) hps2
        (by rwa [List.append_assoc, List.singleton_append])
      rw [this, List.append_assoc, List.singleton_append]

/-! ### Whitespace-only texts yield no chunks at all -/

theorem ws_not_term (c : Char) (h : isWs c = true) : isTerm c = false := by
  by_contra hterm
  rw [Bool.not_eq_false] at hterm
  unfold isTerm at hterm
  simp only [Bool.or_eq_true, beq_iff_eq] at hterm
  rcases hterm with (rfl | rfl) | rfl <;> exact absurd h (by decide)

theorem sentencesGo_all_ws (t : Str) (h : ∀ c ∈ t, isWs c) : sentencesGo t = [] := by
  cases t with
  | nil => rw [sentencesGo]
  | cons c cs =>
    have hterm : isTerm c = false := ws_not_term c (h c (by simp))
    have hdrop : (c :: cs).dropWhile (fun d => !isTerm d) = [] := by
      rw [List.dropWhile_eq_nil_iff]
      intro x hx
      simp [ws_not_term x (h x hx)]
    rw [sentencesGo]
    rw [dif_neg (by simp [hterm])]
    split
    · rfl
    · next d ds heq =>
      rw [hdrop] at heq
      cases heq

theorem sentenceBasedChunking_all_ws (t : Str) (S ov : Nat)
    (h : ∀ c ∈ t, isWs c) : sentenceBasedChunking t S ov = [] := by
  unfold sentenceBasedChunking
  rw [sentencesGo_all_ws t h]
  rw [if_pos rfl]
  have htrim : trimJS t = [] := (trimJS_eq_nil_iff t).mpr h
  rw [sentLoop]
  rw [if_neg (by intro hand; exact absurd hand.2 (by simp))]
  rw [htrim, sentLoop]
  rw [if_neg (by simp [show trimJS ([' '] : Str) = [] from by decide])]

/-- C6 helper: on a short text the fallback chunker produces either no
chunk (whitespace-only input) or exactly the single blank-line join of its
trimmed paragraphs. -/
theorem semanticChunking_short (t : Str) (S : Nat) (r : ℚ) (hS : t.length < S) :
    (trimJS t = [] → semanticChunking t S r = []) ∧
    (trimJS t ≠ [] → semanticChunking t S r = [joinParas (parasOf t)]) := by
  constructor
  · intro htrim
    have hall : ∀ c ∈ t, isWs c := (trimJS_eq_nil_iff t).mp htrim
    have hp : parasOf t = [] := parasOf_nil_of_all_ws t hall
    unfold semanticChunking
    rw [hp]
    have hcl : chunkLoop S (overlapSizeOf S r) [] [] [] [] = [] := by rw [chunkLoop]
    rw [hcl]
    by_cases ht : 0 < t.length
    · rw [if_pos ⟨rfl, ht⟩]
      exact sentenceBasedChunking_all_ws t S (overlapSizeOf S r) hall
    · rw [if_neg (by intro hand; exact ht hand.2)]
  · intro htrim
    have hex : ∃ c ∈ t, isWs c = false := by
      by_contra hcon
      push_neg at hcon
      apply htrim
      rw [trimJS_eq_nil_iff]
      intro c hc
      have := hcon c hc
      simpa using this
    rcases hex with ⟨c, hc, hcw⟩
    have hpne : parasOf t ≠ [] := parasOf_ne_nil t c hc hcw
    have hps : ∀ p ∈ ([] : List Str) ++ parasOf t, p ≠ [] ∧ trimJS p = p := by
      intro p hp
      exact parasOf_mem t p (by simpa using hp)
    have hsum : sumLen (([] : List Str) ++ parasOf t) ≤ S + 2 := by
      rw [List.nil_append]
      have := sumLen_parasOf t
      omega
    have hloop := chunkLoop_no_emit S (overlapSizeOf S r) (parasOf t) [] [] hpne hps hsum
    rw [bufJoin_nil, List.nil_append] at hloop
    unfold semanticChunking
    rw [hloop]
    rw [if_neg (by intro hand; simp at hand)]
    rw [List.nil_append, trimJS_bufJoin (parasOf t) (by simpa using hps) hpne]

/-- C6, counterexample: the text `a\n \nb` is non-empty, shorter than the
target size 1000, and not whitespace-only, yet the single chunk the
fallback chunker returns is `a\n\nb` -- the `\n \n` separator was
normalized to a blank line -- and not the trimmed input text. -/
theorem semanticChunking_short_cex :
    ('a' :: '\n' :: ' ' :: '\n' :: 'b' :: []).length < 1000 ∧
    trimJS ('a' :: '\n' :: ' ' :: '\n' :: 'b' :: []) =
      'a' :: '\n' :: ' ' :: '\n' :: 'b' :: [] ∧
    semanticChunking ('a' :: '\n' :: ' ' :: '\n' :: 'b' :: []) 1000 (1 / 10) =
      [('a' :: '\n' :: '\n' :: 'b' :: [])] ∧
    semanticChunking ('a' :: '\n' :: ' ' :: '\n' :: 'b' :: []) 1000 (1 / 10) ≠
      [trimJS ('a' :: '\n' :: ' ' :: '\n' :: 'b' :: [])] := by
  refine ⟨by decide, by decide, by decide, by decide⟩

/-- C6 (amended): for every text shorter than the target size `S`: if the
text trims to nonempty, `semanticChunking` returns exactly one chunk with no
overlap context prepended, equal to its trimmed nonempty paragraphs joined
by a single blank line (this equals the trimmed input exactly when the
input's blank-line separators are already `\n\n` and it has no outer
whitespace); if the text is empty or whitespace-only it returns zero chunks
without error. -/
theorem semanticChunking_short_spec (t : Str) (S : Nat) (r : ℚ)
    (hS : t.length < S) :
    (trimJS t = [] → semanticChunking t S r = []) ∧
    (trimJS t ≠ [] → semanticChunking t S r = [joinParas (parasOf t)]) :=
  semanticChunking_short t S r hS

/-- Witness for the amended C6 at a concrete short input. -/
theorem semanticChunking_short_spec_witness :
    ('a' :: ' ' :: 'b' :: []).length < 9 ∧
    trimJS ('a' :: ' ' :: 'b' :: []) ≠ [] ∧
    semanticChunking ('a' :: ' ' :: 'b' :: []) 9 (1 / 10) =
      [joinParas (parasOf ('a' :: ' ' :: 'b' :: []))] :=
  ⟨by decide, by decide,
    (semanticChunking_short_spec ('a' :: ' ' :: 'b' :: []) 9 (1 / 10)
      (by decide)).2 (by decide)⟩

/-! ### Overlap structure of the produced chunks (C7) -/

/-- Shape of `currentChunk` in the paragraph loop: a nonempty sequence of
nonempty trimmed paragraphs, each followed by the `'\n\n'` the source
appends. -/
def BufShape (b : Str) : Prop :=
  ∃ ps, ps ≠ [] ∧ (∀ p ∈ ps, p ≠ [] ∧ trimJS p = p) ∧ b = bufJoin ps

theorem BufShape.ne_nil {b : Str} (h : BufShape b) : b ≠ [] := by
  rcases h with ⟨ps, hne, _, rfl⟩
  match ps with
  | p :: rest =>
    rw [bufJoin_cons]
    intro hcon
    have := (List.append_eq_nil.mp (List.append_eq_nil.mp hcon).1).2
    simp [nl2] at this

theorem BufShape.getLast_nl {b : Str} (h : BufShape b) : b.getLast? = some '\n' := by
  rcases h with ⟨ps, hne, _, rfl⟩
  rcases List.eq_nil_or_concat ps with rfl | ⟨qs, p, rfl⟩
  · exact absurd rfl hne
  · rw [show qs.concat p = qs ++ [p] from List.concat_eq_append qs p]
    rw [bufJoin_concat]
    rw [@List.getLast?_append_of_ne_nil _ _ nl2 (by simp [nl2])]
    rfl

theorem BufShape.has_not_ws {b : Str} (h : BufShape b) :
    ∃ c ∈ b, isWs c = false := by
  rcases h with ⟨ps, hne, hps, rfl⟩
  exact bufJoin_has_not_ws ps hps hne

theorem BufShape.trim_ne_nil {b : Str} (h : BufShape b) : trimJS b ≠ [] := by
  rcases h.has_not_ws with ⟨c, hc, hcw⟩
  intro hcon
  rw [trimJS_eq_nil_iff] at hcon
  rw [hcon c hc] at hcw
  cases hcw

theorem lastWordsLoop_zero (ws : List Str) : lastWordsLoop 0 ws [] = [] := by
  cases ws with
  | nil => rfl
  | cons w rest =>
    rw [lastWordsLoop]
    rw [if_pos (by simp)]

theorem tailCapture_none_of_last_nl (rest : Str) (h : rest.getLast? = some '\n') :
    tailCapture rest = none := by
  have hne : rest ≠ [] := by intro hcon; rw [hcon] at h; simp at h
  unfold tailCapture
  by_cases hw : rest.takeWhile isWs = []
  · rw [if_pos hw]
  · rw [if_neg hw]
    by_cases hr : rest.dropWhile isWs = []
    · rw [if_pos hr]
      have hwr : rest.takeWhile isWs = rest := by
        conv_rhs => rw [← List.takeWhile_append_dropWhile isWs rest]
        rw [hr, List.append_nil]
      rw [hwr, h]
      simp
    · rw [if_neg hr]
      have hsfx : rest.dropWhile isWs <:+ rest := List.dropWhile_suffix isWs
      have hlast2 : (rest.dropWhile isWs).getLast? = some '\n' := by
        rw [← getLast?_of_suffix hsfx hr, h]
      have hmem : '\n' ∈ rest.dropWhile isWs := List.mem_of_mem_getLast? hlast2
      rw [if_neg (by
        intro hall
        rw [List.all_eq_true] at hall
        have := hall '\n' hmem
        simp at this)]

theorem matchTail_none_of_last_nl :
    ∀ (t : Str), t.getLast? = some '\n' → matchTail t = none := by
  intro t
  induction t with
  | nil => intro h; simp at h
  | cons c cs ih =>
    intro h
    rw [matchTail]
    cases cs with
    | nil =>
      simp only [List.getLast?_singleton, Option.some.injEq] at h
      subst h
      rw [if_neg (by decide)]
      rfl
    | cons d ds =>
      have hcs : (d :: ds).getLast? = some '\n' := by
        rwa [List.getLast?_cons_cons] at h
      have hmt : matchTail (d :: ds) = none := ih hcs
      by_cases hterm : isTerm c
      · rw [if_pos hterm, tailCapture_none_of_last_nl (d :: ds) hcs, hmt]
      · rw [if_neg hterm]
        exact hmt

theorem getLastWords_zero_ends_nl (b : Str) (hne : b ≠ [])
    (hlast : b.getLast? = some '\n') : getLastWords b 0 = [' '] := by
  unfold getLastWords
  rw [if_neg (by
    intro hcon
    have : b = [] := List.length_eq_zero.mp (by omega)
    exact hne this)]
  have hslice : sliceNeg b 0 = b := by unfold sliceNeg; rw [if_pos rfl]
  rw [hslice, matchTail_none_of_last_nl b hlast, lastWordsLoop_zero]
  rfl

/-- The chained overlap invariant over an emitted chunk list: every chunk
after the first is the trim of `getLastWords` of the previous chunk's
buffer (pre-overlap) prepended to its own buffer. -/
def Linked (ov : Nat) (chunks : List Str) : Prop :=
  ∀ k (h1 : k < chunks.length) (h2 : k + 1 < chunks.length),
    ∃ ctx b b₂, BufShape b ∧ BufShape b₂ ∧
      chunks[k] = trimJS (ctx ++ b) ∧
      chunks[k + 1] = trimJS (getLastWords b ov ++ b₂)

/-- The pending state of the loop invariant: either nothing was emitted yet
and the context is empty, or the context is `getLastWords` of the last
emitted chunk's buffer. -/
def Pending (ov : Nat) (acc : List Str) (ctx : Str) : Prop :=
  (acc = [] ∧ ctx = []) ∨
  ∃ ctxp b, BufShape b ∧ acc.getLast? = some (trimJS (ctxp ++ b)) ∧
    ctx = getLastWords b ov

theorem Linked_nil (ov : Nat) : Linked ov [] := by
  intro k h1 h2
  simp at h1

theorem Linked_push (ov : Nat) (acc : List Str) (ctx cur : Str)
    (hlink : Linked ov acc) (hpend : Pending ov acc ctx) (hcur : BufShape cur) :
    Linked ov (acc ++ [trimJS (ctx ++ cur)]) := by
  intro k h1 h2
  simp only [List.length_append, List.length_cons, List.length_nil] at h1 h2
  by_cases hlt : k + 1 < acc.length
  · rcases hlink k (by omega) hlt with ⟨c0, b, b₂, hb, hb₂, he1, he2⟩
    refine ⟨c0, b, b₂, hb, hb₂, ?_, ?_⟩
    · rw [List.getElem_append_left (by omega)]
      exact he1
    · rw [List.getElem_append_left hlt]
      exact he2
  · have hk : k + 1 = acc.length := by omega
    have haccne : acc ≠ [] := by
      intro hcon
      rw [hcon] at hk
      simp at hk
    rcases hpend with ⟨rfl, _⟩ | ⟨ctxp, b, hb, hgl, hctx⟩
    · exact absurd rfl haccne
    · refine ⟨ctxp, b, cur, hb, hcur, ?_, ?_⟩
      · rw [List.getElem_append_left (by omega)]
        have := List.getLast?_eq_getElem? acc
        rw [hgl] at this
        have h3 := (@List.getElem?_eq_getElem _ acc (acc.length - 1) (by omega)).symm.trans this.symm
        have hk2 : k = acc.length - 1 := by omega
        simp only [hk2]
        exact Option.some.inj h3
      · rw [List.getElem_concat_length acc _ (k + 1) hk]
        rw [hctx]

theorem chunkLoop_linked (S ov : Nat) :
    ∀ (paras : List Str) (cur ctx : Str) (acc : List Str),
      (∀ p ∈ paras, p ≠ [] ∧ trimJS p = p) →
      (cur = [] ∨ BufShape cur) →
      Linked ov acc →
      Pending ov acc ctx →
      Linked ov (chunkLoop S ov paras cur ctx acc) := by
  intro paras
  induction paras with
  | nil =>
    intro cur ctx acc _ _ hlink _
    rw [chunkLoop]
    exact hlink
  | cons p rest ih =>
    intro cur ctx acc hp hcur hlink hpend
    have hpp : p ≠ [] ∧ trimJS p = p := hp p (by simp)
    have hprest : ∀ x ∈ rest, x ≠ [] ∧ trimJS x = x :=
      fun x hx => hp x (List.mem_cons_of_mem _ hx)
    have hcurbOf : 0 < cur.length → BufShape cur := by
      intro hpos
      rcases hcur with rfl | hb
      · exact absurd hpos (by simp)
      · exact hb
    have hemit : ∀ (hc : S < (cur ++ p).length ∧ 0 < cur.length),
        Linked ov (acc ++ [trimJS (ctx ++ cur)]) ∧
        Pending ov (acc ++ [trimJS (ctx ++ cur)]) (getLastWords cur ov) ∧
        BufShape (p ++ nl2) := by
      intro hc
      have hcurb : BufShape cur := hcurbOf hc.2
      refine ⟨Linked_push ov acc ctx cur hlink hpend hcurb, ?_, ?_⟩
      · right
        exact ⟨ctx, cur, hcurb, by rw [List.getLast?_concat], rfl⟩
      · exact ⟨[p], by simp, by simpa using hpp,
          by rw [bufJoin_cons, bufJoin_nil, List.append_nil]⟩
    have hacc2 : BufShape (cur ++ p ++ nl2) := by
      rcases hcur with rfl | ⟨ps, hne, hps, rfl⟩
      · exact ⟨[p], by simp, by simpa using hpp,
          by rw [bufJoin_cons, bufJoin_nil, List.append_nil, List.nil_append]⟩
      · refine ⟨ps ++ [p], by simp, ?_, by rw [bufJoin_concat]⟩
        intro x hx
        rcases List.mem_append.mp hx with hx | hx
        · exact hps x hx
        · rw [List.mem_singleton] at hx
          subst hx
          exact hpp
    cases rest with
    | nil =>
      rw [chunkLoop]
      by_cases hc : S < (cur ++ p).length ∧ 0 < cur.length
      · rcases hemit hc with ⟨hlink2, hpend2, hcur2⟩
        simp only [if_pos hc]
        have htrim : trimJS (p ++ nl2) ≠ [] := hcur2.trim_ne_nil
        rw [if_pos (by
          cases hcase : trimJS (p ++ nl2) with
          | nil => exact absurd hcase htrim
          | cons y ys => simp [hcase])]
        exact Linked_push ov _ _ _ hlink2 hpend2 hcur2
      · simp only [if_neg hc]
        have htrim : trimJS (cur ++ p ++ nl2) ≠ [] := hacc2.trim_ne_nil
        rw [if_pos (by
          cases hcase : trimJS (cur ++ p ++ nl2) with
          | nil => exact absurd hcase htrim
          | cons y ys => simp [hcase])]
        exact Linked_push ov _ _ _ hlink hpend hacc2
    | cons q qs =>
      rw [chunkLoop]
      by_cases hc : S < (cur ++ p).length ∧ 0 < cur.length
      · rcases hemit hc with ⟨hlink2, hpend2, hcur2⟩
        simp only [if_pos hc]
        exact ih (p ++ nl2) (getLastWords cur ov) _ hprest (Or.inr hcur2) hlink2 hpend2
      · simp only [if_neg hc]
        exact ih (cur ++ p ++ nl2) ctx _ hprest (Or.inr hacc2) hlink hpend

theorem chunkLoop_ne_nil (S ov : Nat) :
    ∀ (paras : List Str) (cur ctx : Str) (acc : List Str), paras ≠ [] →
      (∀ p ∈ paras, p ≠ [] ∧ trimJS p = p) →
      (cur = [] ∨ BufShape cur) →
      chunkLoop S ov paras cur ctx acc ≠ [] := by
  intro paras
  induction paras with
  | nil => intro cur ctx acc h; exact absurd rfl h
  | cons p rest ih =>
    intro cur ctx acc _ hp hcur
    have hpp : p ≠ [] ∧ trimJS p = p := hp p (by simp)
    have hprest : ∀ x ∈ rest, x ≠ [] ∧ trimJS x = x :=
      fun x hx => hp x (List.mem_cons_of_mem _ hx)
    have hcur2 : BufShape (p ++ nl2) :=
      ⟨[p], by simp, by simpa using hpp,
        by rw [bufJoin_cons, bufJoin_nil, List.append_nil]⟩
    have hacc2 : BufShape (cur ++ p ++ nl2) := by
      rcases hcur with rfl | ⟨ps, hne, hps, rfl⟩
      · exact ⟨[p], by simp, by simpa using hpp,
          by rw [bufJoin_cons, bufJoin_nil, List.append_nil, List.nil_append]⟩
      · refine ⟨ps ++ [p], by simp, ?_, by rw [bufJoin_concat]⟩
        intro x hx
        rcases List.mem_append.mp hx with hx | hx
        · exact hps x hx
        · rw [List.mem_singleton] at hx
          subst hx
          exact hpp
    cases rest with
    | nil =>
      rw [chunkLoop]
      by_cases hc : S < (cur ++ p).length ∧ 0 < cur.length
      · simp only [if_pos hc]
        rw [if_pos (by
          cases hcase : trimJS (p ++ nl2) with
          | nil => exact absurd hcase hcur2.trim_ne_nil
          | cons y ys => simp [hcase])]
        simp
      · simp only [if_neg hc]
        rw [if_pos (by
          cases hcase : trimJS (cur ++ p ++ nl2) with
          | nil => exact absurd hcase hacc2.trim_ne_nil
          | cons y ys => simp [hcase])]
        simp
    | cons q qs =>
      rw [chunkLoop]
      by_cases hc : S < (cur ++ p).length ∧ 0 < cur.length
      · simp only [if_pos hc]
        exact ih _ _ _ (by simp) hprest (Or.inr hcur2)
      · simp only [if_neg hc]
        exact ih _ _ _ (by simp) hprest (Or.inr hacc2)

theorem semanticChunking_linked (t : Str) (S : Nat) (r : ℚ) :
    Linked (overlapSizeOf S r) (semanticChunking t S r) := by
  unfold semanticChunking
  by_cases hp : parasOf t = []
  · rw [hp]
    have hcl : chunkLoop S (overlapSizeOf S r) [] [] [] [] = [] := by rw [chunkLoop]
    rw [hcl]
    by_cases ht : 0 < t.length
    · rw [if_pos ⟨rfl, ht⟩]
      have hall : ∀ c ∈ t, isWs c := by
        intro c hc
        by_contra hcon
        exact parasOf_ne_nil t c hc (by simpa using hcon) hp
      rw [sentenceBasedChunking_all_ws t S _ hall]
      exact Linked_nil _
    · rw [if_neg (fun hand => ht hand.2)]
      exact Linked_nil _
  · have hps : ∀ x ∈ parasOf t, x ≠ [] ∧ trimJS x = x := fun x hx => parasOf_mem t x hx
    have hne := chunkLoop_ne_nil S (overlapSizeOf S r) (parasOf t) [] [] [] hp hps
      (Or.inl rfl)
    rw [if_neg (fun hand => hne hand.1)]
    exact chunkLoop_linked S _ (parasOf t) [] [] [] hps (Or.inl rfl) (Linked_nil _)
      (Or.inl ⟨rfl, rfl⟩)

/-- The full buffer trace of an emitted chunk list: one buffer per chunk,
each of buffer shape, and every chunk is the trim of the context in force
(empty for the first chunk, `getLastWords` of the previous buffer
afterwards) prepended to its own buffer. -/
def Traced (ov : Nat) (chunks bufs : List Str) : Prop :=
  bufs.length = chunks.length ∧
  ∀ k, k < chunks.length →
    BufShape (bufs.getD k []) ∧
    chunks.getD k [] = trimJS (ctxAt ov bufs k ++ bufs.getD k [])

theorem getD_concat_length {α : Type} (l : List α) (x d : α) :
    (l ++ [x]).getD l.length d = x := by
  rw [List.getD_append_right _ _ _ _ le_rfl]
  simp

theorem ctxAt_append (ov : Nat) (bufs : List Str) (c : Str) (k : Nat)
    (hk : k ≤ bufs.length) : ctxAt ov (bufs ++ [c]) k = ctxAt ov bufs k := by
  cases k with
  | zero => rfl
  | succ j =>
    rw [ctxAt, ctxAt, List.getD_append _ _ _ _ (by omega)]

theorem Traced_nil (ov : Nat) : Traced ov [] [] :=
  ⟨rfl, fun k hk => absurd hk (by simp)⟩

theorem Traced_push (ov : Nat) (acc bacc : List Str) (ctx cur : Str)
    (ht : Traced ov acc bacc) (hctx : ctx = ctxAt ov bacc acc.length)
    (hcur : BufShape cur) :
    Traced ov (acc ++ [trimJS (ctx ++ cur)]) (bacc ++ [cur]) := by
  obtain ⟨hlen, hall⟩ := ht
  constructor
  · simp [hlen]
  · intro k hk
    simp only [List.length_append, List.length_cons, List.length_nil] at hk
    by_cases hklt : k < acc.length
    · obtain ⟨hb, he⟩ := hall k hklt
      refine ⟨?_, ?_⟩
      · rw [List.getD_append _ _ _ _ (by omega)]
        exact hb
      · rw [List.getD_append _ _ _ _ hklt]
        rw [List.getD_append _ _ _ _ (by omega : k < bacc.length)]
        rw [ctxAt_append ov bacc cur k (by omega)]
        exact he
    · have hkeq : k = acc.length := by omega
      subst hkeq
      refine ⟨?_, ?_⟩
      · rw [← hlen, getD_concat_length]
        exact hcur
      · rw [getD_concat_length]
        rw [← hlen, getD_concat_length]
        rw [ctxAt_append ov bacc cur bacc.length le_rfl]
        rw [hctx, hlen]

theorem chunkLoop_traced (S ov : Nat) :
    ∀ (paras : List Str) (cur ctx : Str) (acc bacc : List Str),
      (∀ p ∈ paras, p ≠ [] ∧ trimJS p = p) →
      (cur = [] ∨ BufShape cur) →
      Traced ov acc bacc →
      ctx = ctxAt ov bacc acc.length →
      Traced ov (chunkLoop S ov paras cur ctx acc) (chunkLoopBufs S paras cur bacc) := by
  intro paras
  induction paras with
  | nil =>
    intro cur ctx acc bacc _ _ ht _
    rw [chunkLoop, chunkLoopBufs]
    exact ht
  | cons p rest ih =>
    intro cur ctx acc bacc hp hcur ht hctx
    have hpp : p ≠ [] ∧ trimJS p = p := hp p (by simp)
    have hprest : ∀ x ∈ rest, x ≠ [] ∧ trimJS x = x :=
      fun x hx => hp x (List.mem_cons_of_mem _ hx)
    have hcur2 : BufShape (p ++ nl2) :=
      ⟨[p], by simp, by simpa using hpp,
        by rw [bufJoin_cons, bufJoin_nil, List.append_nil]⟩
    have hacc2 : BufShape (cur ++ p ++ nl2) := by
      rcases hcur with rfl | ⟨ps, hne, hps, rfl⟩
      · exact ⟨[p], by simp, by simpa using hpp,
          by rw [bufJoin_cons, bufJoin_nil, List.append_nil, List.nil_append]⟩
      · refine ⟨ps ++ [p], by simp, ?_, by rw [bufJoin_concat]⟩
        intro x hx
        rcases List.mem_append.mp hx with hx | hx
        · exact hps x hx
        · rw [List.mem_singleton] at hx
          subst hx
          exact hpp
    have hcurbOf : 0 < cur.length → BufShape cur := by
      intro hpos
      rcases hcur with rfl | hb
      · exact absurd hpos (by simp)
      · exact hb
    have htpush : ∀ (hc : S < (cur ++ p).length ∧ 0 < cur.length),
        Traced ov (acc ++ [trimJS (ctx ++ cur)]) (bacc ++ [cur]) :=
      fun hc => Traced_push ov acc bacc ctx cur ⟨ht.1, ht.2⟩ hctx (hcurbOf hc.2)
    have hctx2 : getLastWords cur ov
        = ctxAt ov (bacc ++ [cur]) (acc ++ [trimJS (ctx ++ cur)]).length := by
      rw [List.length_append, List.length_cons, List.length_nil, ctxAt]
      rw [← ht.1, getD_concat_length]
    cases rest with
    | nil =>
      rw [chunkLoop, chunkLoopBufs]
      by_cases hc : S < (cur ++ p).length ∧ 0 < cur.length
      · simp only [if_pos hc]
        have htrim : trimJS (p ++ nl2) ≠ [] := hcur2.trim_ne_nil
        rw [if_pos (by
          cases hcase : trimJS (p ++ nl2) with
          | nil => exact absurd hcase htrim
          | cons y ys => simp [hcase])]
        rw [if_pos (by
          cases hcase : trimJS (p ++ nl2) with
          | nil => exact absurd hcase htrim
          | cons y ys => simp [hcase])]
        exact Traced_push ov _ _ (getLastWords cur ov) (p ++ nl2) (htpush hc) hctx2 hcur2
      · simp only [if_neg hc]
        have htrim : trimJS (cur ++ p ++ nl2) ≠ [] := hacc2.trim_ne_nil
        rw [if_pos (by
          cases hcase : trimJS (cur ++ p ++ nl2) with
          | nil => exact absurd hcase htrim
          | cons y ys => simp [hcase])]
        rw [if_pos (by
          cases hcase : trimJS (cur ++ p ++ nl2) with
          | nil => exact absurd hcase htrim
          | cons y ys => simp [hcase])]
        exact Traced_push ov acc bacc ctx (cur ++ p ++ nl2) ht hctx hacc2
    | cons q qs =>
      rw [chunkLoop, chunkLoopBufs]
      by_cases hc : S < (cur ++ p).length ∧ 0 < cur.length
      · simp only [if_pos hc]
        exact ih (p ++ nl2) (getLastWords cur ov) _ _ hprest (Or.inr hcur2)
          (htpush hc) hctx2
      · simp only [if_neg hc]
        exact ih (cur ++ p ++ nl2) ctx acc bacc hprest (Or.inr hacc2) ht hctx

theorem semanticChunking_traced (t : Str) (S : Nat) (r : ℚ) :
    Traced (overlapSizeOf S r) (semanticChunking t S r) (semanticChunkingBufs t S r) := by
  unfold semanticChunking semanticChunkingBufs
  by_cases hp : parasOf t = []
  · rw [hp]
    have hcl : chunkLoop S (overlapSizeOf S r) [] [] [] [] = [] := by rw [chunkLoop]
    have hclb : chunkLoopBufs S [] [] [] = [] := by rw [chunkLoopBufs]
    rw [hcl, hclb]
    by_cases ht0 : 0 < t.length
    · rw [if_pos ⟨rfl, ht0⟩, if_pos ⟨rfl, ht0⟩]
      have hall : ∀ c ∈ t, isWs c := by
        intro c hc
        by_contra hcon
        exact parasOf_ne_nil t c hc (by simpa using hcon) hp
      rw [sentenceBasedChunking_all_ws t S _ hall]
      exact Traced_nil _
    · rw [if_neg (fun hand => ht0 hand.2), if_neg (fun hand => ht0 hand.2)]
      exact Traced_nil _
  · have hps : ∀ x ∈ parasOf t, x ≠ [] ∧ trimJS x = x := fun x hx => parasOf_mem t x hx
    have hne := chunkLoop_ne_nil S (overlapSizeOf S r) (parasOf t) [] [] [] hp hps
      (Or.inl rfl)
    rw [if_neg (fun hand => hne hand.1), if_neg (fun hand => hne hand.1)]
    exact chunkLoop_traced S _ (parasOf t) [] [] [] [] hps (Or.inl rfl) (Traced_nil _) rfl

/-- C7: `semanticChunkingBufs` lists the loop buffer each chunk was
flushed from: the first chunk is the trim of its own buffer with nothing
prepended, every later chunk is the trim of `getLastWords` of the
previous chunk's buffer (the buffer before overlap was prepended to it)
followed by its own buffer, and the visible overlap prefix — the
left-trim of that `getLastWords` value — is at most
`Math.floor(chunkSize * overlapRatio)` characters long and literally
begins the chunk. -/
theorem semanticChunking_overlap_bound (t : Str) (S : Nat) (r : ℚ) (k : Nat)
    (hk2 : k + 1 < (semanticChunking t S r).length) :
    (semanticChunkingBufs t S r).length = (semanticChunking t S r).length ∧
    BufShape ((semanticChunkingBufs t S r).getD k []) ∧
    (semanticChunking t S r).getD k []
      = trimJS (ctxAt (overlapSizeOf S r) (semanticChunkingBufs t S r) k
          ++ (semanticChunkingBufs t S r).getD k []) ∧
    (semanticChunking t S r).getD (k + 1) []
      = trimJS (getLastWords ((semanticChunkingBufs t S r).getD k []) (overlapSizeOf S r)
          ++ (semanticChunkingBufs t S r).getD (k + 1) []) ∧
    (trimLeft (getLastWords ((semanticChunkingBufs t S r).getD k [])
        (overlapSizeOf S r))).length ≤ overlapSizeOf S r ∧
    ∃ rest, (semanticChunking t S r).getD (k + 1) []
        = trimLeft (getLastWords ((semanticChunkingBufs t S r).getD k [])
            (overlapSizeOf S r)) ++ rest := by
  obtain ⟨hlen, hall⟩ := semanticChunking_traced t S r
  obtain ⟨hb, he⟩ := hall k (by omega)
  obtain ⟨hb2, he2⟩ := hall (k + 1) hk2
  rw [ctxAt] at he2
  refine ⟨hlen, hb, he, he2, ?_, ?_⟩
  · by_cases hov : 1 ≤ overlapSizeOf S r
    · exact le_trans (trimLeft_length_le _) (getLastWords_length_le _ _ hov)
    · have hov0 : overlapSizeOf S r = 0 := by omega
      rw [hov0, getLastWords_zero_ends_nl _ hb.ne_nil hb.getLast_nl]
      decide
  · by_cases hws : ∀ c ∈ getLastWords ((semanticChunkingBufs t S r).getD k [])
        (overlapSizeOf S r), isWs c
    · refine ⟨trimJS ((semanticChunkingBufs t S r).getD (k + 1) []), ?_⟩
      rw [he2]
      rw [show trimLeft (getLastWords ((semanticChunkingBufs t S r).getD k [])
          (overlapSizeOf S r)) = [] from (trimLeft_eq_nil_iff _).mpr hws]
      rw [List.nil_append]
      unfold trimJS
      rw [trimLeft_append_of_all_ws _ _ hws]
    · push_neg at hws
      obtain ⟨c, hc, hcw⟩ := hws
      have hg : ∃ d ∈ getLastWords ((semanticChunkingBufs t S r).getD k [])
          (overlapSizeOf S r), isWs d = false := ⟨c, hc, by simpa using hcw⟩
      refine ⟨trimRight ((semanticChunkingBufs t S r).getD (k + 1) []), ?_⟩
      rw [he2]
      unfold trimJS
      rw [trimLeft_append_left _ _ hg, trimRight_append_right _ _ hb2.has_not_ws]

def c7t : Str :=
  'a' :: 'a' :: 'a' :: 'a' :: 'a' :: 'a' :: '\n' :: '\n' :: 'b' :: 'b' :: 'b' :: []

/-- Witness for C7 at a concrete two-chunk input. -/
theorem semanticChunking_overlap_bound_witness :
    (semanticChunkingBufs c7t 5 (1 / 10)).length = (semanticChunking c7t 5 (1 / 10)).length ∧
    BufShape ((semanticChunkingBufs c7t 5 (1 / 10)).getD 0 []) ∧
    (semanticChunking c7t 5 (1 / 10)).getD 0 []
      = trimJS (ctxAt (overlapSizeOf 5 (1 / 10)) (semanticChunkingBufs c7t 5 (1 / 10)) 0
          ++ (semanticChunkingBufs c7t 5 (1 / 10)).getD 0 []) ∧
    (semanticChunking c7t 5 (1 / 10)).getD 1 []
      = trimJS (getLastWords ((semanticChunkingBufs c7t 5 (1 / 10)).getD 0 [])
            (overlapSizeOf 5 (1 / 10))
          ++ (semanticChunkingBufs c7t 5 (1 / 10)).getD 1 []) ∧
    (trimLeft (getLastWords ((semanticChunkingBufs c7t 5 (1 / 10)).getD 0 [])
        (overlapSizeOf 5 (1 / 10)))).length ≤ overlapSizeOf 5 (1 / 10) ∧
    ∃ rest, (semanticChunking c7t 5 (1 / 10)).getD 1 []
        = trimLeft (getLastWords ((semanticChunkingBufs c7t 5 (1 / 10)).getD 0 [])
            (overlapSizeOf 5 (1 / 10))) ++ rest :=
  semanticChunking_overlap_bound c7t 5 (1 / 10) 0 (by decide)

/-! ### C8: the getLastWords contract -/

theorem getLastWords_trailing_space (t : Str) (m : Nat) :
    getLastWords t m = t ∨ (getLastWords t m).getLast? = some ' ' := by
  unfold getLastWords
  by_cases hfit : t.length ≤ m
  · rw [if_pos hfit]
    exact Or.inl rfl
  · rw [if_neg hfit]
    match matchTail (sliceNeg t m) with
    | some cap => exact Or.inr (List.getLast?_concat cap)
    | none => exact Or.inr (List.getLast?_concat _)

/-- C8, counterexample: for `maxLength = 0` (where JavaScript `slice(-0)`
returns the whole string), `getLastWords` can return a fragment longer than
`maxLength`: on the text `Hi. Yo` it returns `Yo ` of length 3. -/
theorem getLastWords_cex :
    getLastWords ('H' :: 'i' :: '.' :: ' ' :: 'Y' :: 'o' :: []) 0 =
      ('Y' :: 'o' :: ' ' :: []) ∧
    ¬ (getLastWords ('H' :: 'i' :: '.' :: ' ' :: 'Y' :: 'o' :: []) 0).length ≤ 0 := by
  exact ⟨by decide, by decide⟩

theorem sliceNeg_suffix (t : Str) (m : Nat) : sliceNeg t m <:+ t := by
  unfold sliceNeg
  split_ifs
  · exact List.suffix_refl t
  · exact List.drop_suffix _ _

theorem wordJoin_concat (l : List Str) (w : Str) :
    wordJoin (l ++ [w]) = wordJoin l ++ (w ++ [' ']) := by
  unfold wordJoin
  rw [List.map_append, List.flatten_append]
  simp

set_option maxHeartbeats 1000000 in
/-- Every piece produced by `split(/\s+/)` is whitespace-free. -/
theorem splitWsGo_no_ws : ∀ (s acc : Str), (∀ c ∈ acc, isWs c = false) →
    ∀ w ∈ splitWsGo s acc, ∀ c ∈ w, isWs c = false := by
  intro s acc
  induction s, acc using splitWsGo.induct with
  | case1 acc =>
    intro hacc w hw c hc
    rw [splitWsGo] at hw
    rw [List.mem_singleton] at hw
    subst hw
    exact hacc c (by simpa using hc)
  | case2 c cs acc hws ih =>
    intro hacc w hw d hd
    rw [splitWsGo, if_pos hws] at hw
    rcases List.mem_cons.mp hw with rfl | hw2
    · exact hacc d (by simpa using hd)
    · exact ih (by intro x hx; simp at hx) w hw2 d hd
  | case3 c cs acc hws ih =>
    intro hacc w hw d hd
    rw [splitWsGo, if_neg hws] at hw
    refine ih ?_ w hw d hd
    intro x hx
    rcases List.mem_cons.mp hx with rfl | hx2
    · simpa using hws
    · exact hacc x hx2

theorem splitWs_no_ws (t : Str) : ∀ w ∈ splitWs t, ∀ c ∈ w, isWs c = false :=
  splitWsGo_no_ws t [] (by simp)

/-- A successful `tailCapture` splits its input as a nonempty whitespace
run followed by the nonempty, line-feed-free capture. -/
theorem tailCapture_decomp (rest cap : Str) (h : tailCapture rest = some cap) :
    cap ≠ [] ∧ (∀ x ∈ cap, ¬ x = '\n') ∧
    ∃ ws2, rest = ws2 ++ cap ∧ ws2 ≠ [] ∧ (∀ x ∈ ws2, isWs x = true) := by
  rw [tailCapture] at h
  rw [show (let w := List.takeWhile isWs rest;
    let r := List.dropWhile isWs rest;
    if w = [] then none
    else
      if r = [] then
        match w.getLast? with
        | some c => if 2 ≤ w.length ∧ ¬c = '\n' then some [c] else none
        | none => none
      else if (r.all fun d => d != '\n') = true then some r else none) =
    (if List.takeWhile isWs rest = [] then none
    else
      if List.dropWhile isWs rest = [] then
        match (List.takeWhile isWs rest).getLast? with
        | some c => if 2 ≤ (List.takeWhile isWs rest).length ∧ ¬c = '\n' then some [c] else none
        | none => none
      else if ((List.dropWhile isWs rest).all fun d => d != '\n') = true
        then some (List.dropWhile isWs rest) else none) from rfl] at h
  have hsplit : rest.takeWhile isWs ++ rest.dropWhile isWs = rest :=
    List.takeWhile_append_dropWhile isWs rest
  have hwall : ∀ x ∈ rest.takeWhile isWs, isWs x = true :=
    fun x hx => List.mem_takeWhile_imp hx
  by_cases hw : rest.takeWhile isWs = []
  · rw [if_pos hw] at h
    simp at h
  · rw [if_neg hw] at h
    by_cases hr : rest.dropWhile isWs = []
    · rw [if_pos hr] at h
      split at h
      case pos.h_2 => simp at h
      case pos.h_1 =>
        rename_i c hlast
        by_cases hcond : 2 ≤ (rest.takeWhile isWs).length ∧ ¬ c = '\n'
        · rw [if_pos hcond] at h
          have hcap : cap = [c] := (Option.some.inj h).symm
          subst hcap
          refine ⟨by simp, ?_, (rest.takeWhile isWs).dropLast, ?_, ?_, ?_⟩
          · intro x hx
            rw [List.mem_singleton] at hx
            subst hx
            exact hcond.2
          · have hrw : rest.takeWhile isWs = rest := by
              conv_rhs => rw [← hsplit]
              rw [hr, List.append_nil]
            have hne : rest.takeWhile isWs ≠ [] := hw
            have hdl : (rest.takeWhile isWs).dropLast ++ [(rest.takeWhile isWs).getLast hne]
                = rest.takeWhile isWs := List.dropLast_append_getLast hne
            have hgl : (rest.takeWhile isWs).getLast hne = c :=
              Option.some.inj ((List.getLast?_eq_getLast _ hne).symm.trans hlast)
            calc rest = rest.takeWhile isWs := hrw.symm
              _ = (rest.takeWhile isWs).dropLast ++ [(rest.takeWhile isWs).getLast hne] :=
                hdl.symm
              _ = (rest.takeWhile isWs).dropLast ++ [c] := by rw [hgl]
          · intro hcon
            have h0 : ((rest.takeWhile isWs).dropLast).length = 0 := by
              rw [hcon]
              rfl
            rw [List.length_dropLast] at h0
            omega
          · intro x hx
            exact hwall x (List.mem_of_mem_dropLast hx)
        · rw [if_neg hcond] at h
          simp at h
    · rw [if_neg hr] at h
      by_cases hall : ((rest.dropWhile isWs).all fun d => d != '\n') = true
      · rw [if_pos hall] at h
        have hcap : cap = rest.dropWhile isWs := (Option.some.inj h).symm
        subst hcap
        refine ⟨hr, ?_, rest.takeWhile isWs, hsplit.symm, hw, hwall⟩
        intro x hx
        rw [List.all_eq_true] at hall
        have := hall x hx
        simpa using this
      · rw [if_neg hall] at h
        simp at h

/-- A successful sentence-regex match on `u` decomposes `u` as anything,
then a terminator, then nonempty whitespace, then the capture. -/
theorem matchTail_decomp : ∀ (u cap : Str), matchTail u = some cap →
    cap ≠ [] ∧ (∀ x ∈ cap, ¬ x = '\n') ∧
    ∃ pre tc ws2, u = pre ++ tc :: (ws2 ++ cap) ∧ isTerm tc = true ∧
      ws2 ≠ [] ∧ (∀ x ∈ ws2, isWs x = true) := by
  intro u
  induction u with
  | nil =>
    intro cap h
    simp [matchTail] at h
  | cons c cs ih =>
    intro cap h
    rw [matchTail] at h
    by_cases hterm : isTerm c
    · rw [if_pos hterm] at h
      cases htc : tailCapture cs with
      | some cap2 =>
        rw [htc] at h
        cases h
        obtain ⟨hne, hnl, ws2, hsp, hw2ne, hw2⟩ := tailCapture_decomp cs cap htc
        exact ⟨hne, hnl, [], c, ws2, by rw [List.nil_append, hsp], hterm, hw2ne, hw2⟩
      | none =>
        rw [htc] at h
        obtain ⟨hne, hnl, pre, tc, ws2, hu, htc2, hw2ne, hw2⟩ := ih cap h
        exact ⟨hne, hnl, c :: pre, tc, ws2, by rw [hu, List.cons_append], htc2, hw2ne, hw2⟩
    · rw [if_neg hterm] at h
      obtain ⟨hne, hnl, pre, tc, ws2, hu, htc2, hw2ne, hw2⟩ := ih cap h
      exact ⟨hne, hnl, c :: pre, tc, ws2, by rw [hu, List.cons_append], htc2, hw2ne, hw2⟩

/-- The word loop consumes a prefix of the reversed word list (a trailing
run of words), stopping exactly when the next word would overflow. -/
theorem lastWordsLoop_decomp (m : Nat) :
    ∀ (rev : List Str) (res : Str),
      ∃ pre suf, rev = pre ++ suf ∧
        lastWordsLoop m rev res = wordJoin pre.reverse ++ res ∧
        (suf = [] ∨ ∃ w suf2, suf = w :: suf2 ∧
          m < (w ++ ' ' :: (wordJoin pre.reverse ++ res)).length) := by
  intro rev
  induction rev with
  | nil =>
    intro res
    refine ⟨[], [], rfl, ?_, Or.inl rfl⟩
    rw [lastWordsLoop]
    rfl
  | cons w ws ih =>
    intro res
    by_cases hfit : m < (w ++ ' ' :: res).length
    · refine ⟨[], w :: ws, rfl, ?_, Or.inr ⟨w, ws, rfl, ?_⟩⟩
      · rw [lastWordsLoop, if_pos hfit]
        rfl
      · simpa [wordJoin] using hfit
    · obtain ⟨pre, suf, hsplit, hres, hmax⟩ := ih (w ++ ' ' :: res)
      have hjoin : wordJoin (w :: pre).reverse ++ res
          = wordJoin pre.reverse ++ (w ++ ' ' :: res) := by
        rw [List.reverse_cons, wordJoin_concat]
        simp [List.append_assoc]
      refine ⟨w :: pre, suf, by rw [List.cons_append, ← hsplit], ?_, ?_⟩
      · rw [lastWordsLoop, if_neg hfit, hres, hjoin]
      · rcases hmax with rfl | ⟨w2, suf2, rfl, hlt⟩
        · exact Or.inl rfl
        · refine Or.inr ⟨w2, suf2, rfl, ?_⟩
          rw [hjoin]
          exact hlt

/-- C8 (amended): for every text and every `maxLength ≥ 1`, `getLastWords`
returns at most `maxLength` characters; the text itself, unchanged, when
it fits.  Otherwise it works on the `maxLength`-character trailing window
of the text: if the sentence regex matches that window, the result is the
window's nonempty, line-feed-free tail that follows a terminator and a
whitespace run, plus a space; if not, the result is a maximal trailing
run of the text's whitespace-free words rejoined with single spaces
(trimmed, plus a space), degenerating to a single space when not even the
last word fits — never a hard mid-word character cut.  For
`maxLength = 0` the bound fails because `slice(-0)` yields the whole
string. -/
theorem getLastWords_spec (t : Str) (m : Nat) (hm : 1 ≤ m) :
    (getLastWords t m).length ≤ m ∧
    (t.length ≤ m → getLastWords t m = t) ∧
    (m < t.length →
      sliceNeg t m <:+ t ∧ (sliceNeg t m).length = m ∧
      (∀ cap, matchTail (sliceNeg t m) = some cap →
        getLastWords t m = cap ++ [' '] ∧ cap ≠ [] ∧ (∀ x ∈ cap, ¬ x = '\n') ∧
        ∃ pre tc ws2, sliceNeg t m = pre ++ tc :: (ws2 ++ cap) ∧ isTerm tc = true ∧
          ws2 ≠ [] ∧ (∀ x ∈ ws2, isWs x = true)) ∧
      (matchTail (sliceNeg t m) = none →
        ∃ ws, ws <:+ splitWs t ∧
          getLastWords t m = trimJS (wordJoin ws) ++ [' '] ∧
          (∀ w ∈ ws, ∀ c ∈ w, isWs c = false) ∧
          (ws = [] → getLastWords t m = [' ']) ∧
          (ws = splitWs t ∨ ∃ w pre2, splitWs t = pre2 ++ w :: ws ∧
            m < (w ++ ' ' :: wordJoin ws).length))) := by
  refine ⟨getLastWords_length_le t m hm, getLastWords_of_fit t m, ?_⟩
  intro hgt
  refine ⟨sliceNeg_suffix t m, sliceNeg_length t m (by omega) (by omega), ?_, ?_⟩
  · intro cap hcap
    have hglw : getLastWords t m = cap ++ [' '] := by
      unfold getLastWords
      rw [if_neg (by omega), hcap]
    obtain ⟨hne, hnl, pre, tc, ws2, hsp, htc, hw2ne, hw2⟩ :=
      matchTail_decomp _ cap hcap
    exact ⟨hglw, hne, hnl, pre, tc, ws2, hsp, htc, hw2ne, hw2⟩
  · intro hnone
    obtain ⟨pre, suf, hsplit, hres, hmax⟩ := lastWordsLoop_decomp m (splitWs t).reverse []
    have hsw : splitWs t = suf.reverse ++ pre.reverse := by
      have h2 := congrArg List.reverse hsplit
      rw [List.reverse_reverse, List.reverse_append] at h2
      exact h2
    have hglw : getLastWords t m = trimJS (wordJoin pre.reverse) ++ [' '] := by
      unfold getLastWords
      rw [if_neg (by omega), hnone, hres, List.append_nil]
    refine ⟨pre.reverse, ⟨suf.reverse, hsw.symm⟩, hglw, ?_, ?_, ?_⟩
    · intro w hw c hc
      refine splitWs_no_ws t w ?_ c hc
      rw [hsw]
      exact List.mem_append_right _ hw
    · intro hnil
      rw [hglw, hnil]
      rfl
    · rcases hmax with rfl | ⟨w, suf2, rfl, hlt⟩
      · left
        rw [hsw]
        rfl
      · right
        refine ⟨w, suf2.reverse, ?_, ?_⟩
        · rw [hsw, List.reverse_cons, List.append_assoc]
          rfl
        · simpa using hlt

def c8t : Str := 'H' :: 'i' :: '.' :: ' ' :: 'Y' :: 'o' :: []

def c8u : Str := 'a' :: 'b' :: 'c' :: ' ' :: 'd' :: []

/-- Witness for the amended C8: the sentence-boundary branch on `Hi. Yo`
with window 4 and the word-rebuild branch on `abc d` with window 2. -/
theorem getLastWords_spec_witness :
    (getLastWords c8t 4 = ('Y' :: 'o' :: []) ++ [' '] ∧ ('Y' :: 'o' :: [] : Str) ≠ [] ∧
      (∀ x ∈ ('Y' :: 'o' :: [] : Str), ¬ x = '\n') ∧
      ∃ pre tc ws2, sliceNeg c8t 4 = pre ++ tc :: (ws2 ++ ('Y' :: 'o' :: [])) ∧
        isTerm tc = true ∧ ws2 ≠ [] ∧ (∀ x ∈ ws2, isWs x = true)) ∧
    (∃ ws, ws <:+ splitWs c8u ∧
      getLastWords c8u 2 = trimJS (wordJoin ws) ++ [' '] ∧
      (∀ w ∈ ws, ∀ c ∈ w, isWs c = false) ∧
      (ws = [] → getLastWords c8u 2 = [' ']) ∧
      (ws = splitWs c8u ∨ ∃ w pre2, splitWs c8u = pre2 ++ w :: ws ∧
        2 < (w ++ ' ' :: wordJoin ws).length)) :=
  ⟨((getLastWords_spec c8t 4 (by decide)).2.2 (by decide)).2.2.1 ('Y' :: 'o' :: [])
      (by decide),
   ((getLastWords_spec c8u 2 (by decide)).2.2 (by decide)).2.2.2 (by decide)⟩

/-! ## JSON (the platform `JSON.stringify` / `JSON.parse` builtins)

`processDocument` serializes its chunk metadata with `JSON.stringify` and
`queryVectors` decodes the stored field with `JSON.parse`.  These platform
builtins are modeled below: a JSON value type, the stringifier (with the
standard escape rules) and a complete recursive-descent parser.  Numeric
literals with a fraction or exponent are kept as their lexeme
(`Json.numFrac`); their floating-point value is irrelevant to every claim.
`\uXXXX` escapes denoting surrogate halves are rejected by the model
(Unicode scalars only); the stringifier never emits them. -/

inductive Json where
  | null : Json
  | bool (b : Bool) : Json
  | num (n : Int) : Json
  | numFrac (lexeme : Str) : Json
  | str (s : Str) : Json
  | arr (xs : List Json) : Json
  | obj (kvs : List (Str × Json)) : Json

/-- JSON whitespace (space, tab, line feed, carriage return). -/
def isJsonWs (c : Char) : Bool :=
  c == ' ' || c == '\t' || c == '\n' || c == '\r'

def skipWs (l : Str) : Str := l.dropWhile isJsonWs

def isDigit (c : Char) : Bool := 48 ≤ c.toNat && c.toNat ≤ 57

def digitChar : Nat → Char
  | 0 => '0' | 1 => '1' | 2 => '2' | 3 => '3' | 4 => '4'
  | 5 => '5' | 6 => '6' | 7 => '7' | 8 => '8' | 9 => '9'
  | _ => '0'

def digitVal (c : Char) : Nat := c.toNat - 48

/-- Decimal rendering of a natural number by repeated division; the fuel
only bounds the number of digits, `n + 1` digits always suffice. -/
def renderNatGo : Nat → Nat → Str
  | 0, _ => []
  | fuel + 1, n =>
    if n < 10 then [digitChar n]
    else renderNatGo fuel (n / 10) ++ [digitChar (n % 10)]

/-- Decimal rendering of a natural number (big-endian digits). -/
def renderNat (n : Nat) : Str := renderNatGo (n + 1) n

def renderInt (n : Int) : Str :=
  if n < 0 then '-' :: renderNat n.natAbs else renderNat n.natAbs

def hexDigit (n : Nat) : Char :=
  if n < 10 then digitChar n
  else if n = 10 then 'a' else if n = 11 then 'b' else if n = 12 then 'c'
  else if n = 13 then 'd' else if n = 14 then 'e' else 'f'

/-- `JSON.stringify`'s escaping of one character inside a string literal:
quote, backslash, the shorthand control escapes, `\u00XX` for the other
control characters, everything else verbatim. -/
def escapeChar (c : Char) : Str :=
  if c = '"' then ['\\', '"']
  else if c = '\\' then ['\\', '\\']
  else if c = '\x08' then ['\\', 'b']
  else if c = '\x09' then ['\\', 't']
  else if c = '\x0a' then ['\\', 'n']
  else if c = '\x0c' then ['\\', 'f']
  else if c = '\x0d' then ['\\', 'r']
  else if c.toNat < 0x20 then
    ['\\', 'u', '0', '0', hexDigit (c.toNat / 16), hexDigit (c.toNat % 16)]
  else [c]

def escapeStr (s : Str) : Str := (s.map escapeChar).flatten

def renderString (s : Str) : Str := '"' :: escapeStr s ++ ['"']

/-- Comma-separated join, as `JSON.stringify` emits between array elements
and object members. -/
def joinComma : List Str → Str
  | [] => []
  | [x] => x
  | x :: y :: rest => x ++ ',' :: joinComma (y :: rest)

/-- `JSON.stringify` (no indentation: no whitespace between tokens). -/
def renderJson : Json → Str
  | .null => 'n' :: 'u' :: 'l' :: 'l' :: []
  | .bool true => 't' :: 'r' :: 'u' :: 'e' :: []
  | .bool false => 'f' :: 'a' :: 'l' :: 's' :: 'e' :: []
  | .num n => renderInt n
  | .numFrac l => l
  | .str s => renderString s
  | .arr xs =>
    '[' :: joinComma (xs.attach.map (fun x => renderJson x.1)) ++ [']']
  | .obj kvs =>
    '{' :: joinComma
      (kvs.attach.map (fun kv => renderString kv.1.1 ++ ':' :: renderJson kv.1.2)) ++ ['}']
  termination_by j => sizeOf j
  decreasing_by
    · have h1 := List.sizeOf_lt_of_mem x.2
      have h2 : sizeOf (Json.arr xs) = 1 + sizeOf xs := by
        simp [Json.arr.sizeOf_spec]
      omega
    · have h1 := List.sizeOf_lt_of_mem kv.2
      have h2 : sizeOf (Json.obj kvs) = 1 + sizeOf kvs := by
        simp [Json.obj.sizeOf_spec]
      have h3 : sizeOf kv.1 = 1 + sizeOf kv.1.1 + sizeOf kv.1.2 := by
        rcases hkv : kv.1 with ⟨a, b⟩
        simp [hkv]
      omega

/-- One `\uXXXX` hex digit. -/
def hexVal (c : Char) : Option Nat :=
  if 48 ≤ c.toNat ∧ c.toNat ≤ 57 then some (c.toNat - 48)
  else if 97 ≤ c.toNat ∧ c.toNat ≤ 102 then some (c.toNat - 87)
  else if 65 ≤ c.toNat ∧ c.toNat ≤ 70 then some (c.toNat - 55)
  else none

/-- Decode one escape sequence after a backslash: the shorthand escapes or
a `\uXXXX` scalar (surrogate halves rejected); returns the decoded
character and the remaining input. -/
def escDecode (rest : Str) : Option (Char × Str) :=
  match rest with
  | [] => none
  | e :: r =>
    if e = '"' then some ('"', r)
    else if e = '\\' then some ('\\', r)
    else if e = '/' then some ('/', r)
    else if e = 'b' then some ('\x08', r)
    else if e = 'f' then some ('\x0c', r)
    else if e = 'n' then some ('\x0a', r)
    else if e = 'r' then some ('\x0d', r)
    else if e = 't' then some ('\x09', r)
    else if e = 'u' then
      match r with
      | h1 :: h2 :: h3 :: h4 :: r2 =>
        match hexVal h1, hexVal h2, hexVal h3, hexVal h4 with
        | some a, some b, some c2, some d =>
          if ((a * 16 + b) * 16 + c2) * 16 + d < 0xd800 ∨
              (0xe000 ≤ ((a * 16 + b) * 16 + c2) * 16 + d ∧
               ((a * 16 + b) * 16 + c2) * 16 + d < 0x110000) then
            some (Char.ofNat (((a * 16 + b) * 16 + c2) * 16 + d), r2)
          else none
        | _, _, _, _ => none
      | _ => none
    else none

/-- Body of a JSON string literal after the opening quote: returns the
decoded characters and the input after the closing quote.  Raw control
characters are rejected; the fuel only bounds the number of scanned
characters, any fuel above the input length behaves identically. -/
def parseStringBody : Nat → Str → Option (Str × Str)
  | 0, _ => none
  | _ + 1, [] => none
  | fuel + 1, c :: rest =>
    if c = '"' then some ([], rest)
    else if c = '\\' then
      (escDecode rest).bind
        (fun er => (parseStringBody fuel er.2).map (fun p => (er.1 :: p.1, p.2)))
    else if c.toNat < 0x20 then none
    else (parseStringBody fuel rest).map (fun p => (c :: p.1, p.2))

def mkIntVal (neg : Bool) (intPart : Str) : Int :=
  let v : Int := Int.ofNat (intPart.foldl (fun a c => a * 10 + digitVal c) 0)
  if neg then -v else v

/-- Exponent part of a number after `e`/`E`: keeps the lexeme. -/
def parseExpPart (neg : Bool) (intPart mid : Str) (r : Str) : Option (Json × Str) :=
  let sgn : Str := match r with
    | '+' :: _ => ['+']
    | '-' :: _ => ['-']
    | _ => []
  let r5 := match r with
    | '+' :: rr => rr
    | '-' :: rr => rr
    | _ => r
  let expPart := r5.takeWhile isDigit
  let r6 := r5.dropWhile isDigit
  if expPart = [] then none
  else some (.numFrac ((if neg then ['-'] else []) ++ intPart ++ mid ++ sgn ++ expPart), r6)

/-- Magnitude of a number literal: integer part without redundant leading
zero, optional fraction and exponent; a plain integer becomes `Json.num`. -/
def parseNumMag (neg : Bool) (l1 : Str) : Option (Json × Str) :=
  if l1.takeWhile isDigit = [] then none
  else if 2 ≤ (l1.takeWhile isDigit).length ∧ (l1.takeWhile isDigit).headI = '0' then none
  else
    match l1.dropWhile isDigit with
    | [] => some (.num (mkIntVal neg (l1.takeWhile isDigit)), [])
    | c :: r2 =>
      if c = '.' then
        if r2.takeWhile isDigit = [] then none
        else
          match r2.dropWhile isDigit with
          | 'e' :: r4 =>
            parseExpPart neg (l1.takeWhile isDigit)
              ('.' :: r2.takeWhile isDigit ++ ['e']) r4
          | 'E' :: r4 =>
            parseExpPart neg (l1.takeWhile isDigit)
              ('.' :: r2.takeWhile isDigit ++ ['E']) r4
          | r3 =>
            some (.numFrac ((if neg then ['-'] else []) ++ l1.takeWhile isDigit ++
              '.' :: r2.takeWhile isDigit), r3)
      else if c = 'e' ∨ c = 'E' then
        parseExpPart neg (l1.takeWhile isDigit) [c] r2
      else some (.num (mkIntVal neg (l1.takeWhile isDigit)), c :: r2)

/-- A JSON number literal: optional minus then the magnitude. -/
def parseNumber (l : Str) : Option (Json × Str) :=
  match l with
  | [] => none
  | c :: r => if c = '-' then parseNumMag true r else parseNumMag false (c :: r)

mutual

/-- Fueled recursive-descent JSON value parser; the fuel only bounds the
syntactic nesting, one unit per subvalue, so `length + 1` is always
enough. -/
def parseValue : Nat → Str → Option (Json × Str)
  | 0, _ => none
  | fuel + 1, l =>
    match skipWs l with
    | [] => none
    | c :: r =>
      if c = 'n' then
        match r with
        | 'u' :: 'l' :: 'l' :: r2 => some (.null, r2)
        | _ => none
      else if c = 't' then
        match r with
        | 'r' :: 'u' :: 'e' :: r2 => some (.bool true, r2)
        | _ => none
      else if c = 'f' then
        match r with
        | 'a' :: 'l' :: 's' :: 'e' :: r2 => some (.bool false, r2)
        | _ => none
      else if c = '"' then (parseStringBody (r.length + 1) r).map (fun p => (.str p.1, p.2))
      else if c = '{' then
        match skipWs r with
        | [] => none
        | c2 :: r2 =>
          if c2 = '}' then some (.obj [], r2)
          else parseMembers fuel (c2 :: r2) []
      else if c = '[' then
        match skipWs r with
        | [] => none
        | c2 :: r2 =>
          if c2 = ']' then some (.arr [], r2)
          else parseElems fuel (c2 :: r2) []
      else parseNumber (c :: r)

/-- The members of a JSON object after `{` (at least one member). -/
def parseMembers : Nat → Str → List (Str × Json) → Option (Json × Str)
  | 0, _, _ => none
  | fuel + 1, l, acc =>
    match skipWs l with
    | [] => none
    | c :: r =>
      if c = '"' then
        match parseStringBody (r.length + 1) r with
        | none => none
        | some (key, r1) =>
          match skipWs r1 with
          | [] => none
          | c2 :: r2 =>
            if c2 = ':' then
              match parseValue fuel r2 with
              | none => none
              | some (v, r3) =>
                match skipWs r3 with
                | [] => none
                | c3 :: r4 =>
                  if c3 = ',' then parseMembers fuel r4 (acc ++ [(key, v)])
                  else if c3 = '}' then some (.obj (acc ++ [(key, v)]), r4)
                  else none
            else none
      else none

/-- The elements of a JSON array after `[` (at least one element). -/
def parseElems : Nat → Str → List Json → Option (Json × Str)
  | 0, _, _ => none
  | fuel + 1, l, acc =>
    match parseValue fuel l with
    | none => none
    | some (v, r1) =>
      match skipWs r1 with
      | ',' :: r2 => parseElems fuel r2 (acc ++ [v])
      | ']' :: r2 => some (.arr (acc ++ [v]), r2)
      | _ => none

end

/-- `JSON.parse`: parse one value and require only whitespace after it. -/
def jsonParse (s : Str) : Option Json :=
  match parseValue (s.length + 1) s with
  | some (v, rest) => if skipWs rest = [] then some v else none
  | none => none

/-! ### Round trip: stringify then parse -/

theorem skipWs_cons_not_ws (c : Char) (l : Str) (h : isJsonWs c = false) :
    skipWs (c :: l) = c :: l := by
  unfold skipWs
  rw [List.dropWhile_cons, if_neg (by simp [h])]

theorem digit_lt_ten_cases (d : Nat) (h : d < 10) :
    d = 0 ∨ d = 1 ∨ d = 2 ∨ d = 3 ∨ d = 4 ∨ d = 5 ∨ d = 6 ∨ d = 7 ∨ d = 8 ∨ d = 9 := by
  omega

theorem isDigit_digitChar (d : Nat) (h : d < 10) : isDigit (digitChar d) = true := by
  rcases digit_lt_ten_cases d h with rfl | rfl | rfl | rfl | rfl | rfl | rfl | rfl | rfl | rfl
    <;> decide

theorem digitVal_digitChar (d : Nat) (h : d < 10) : digitVal (digitChar d) = d := by
  rcases digit_lt_ten_cases d h with rfl | rfl | rfl | rfl | rfl | rfl | rfl | rfl | rfl | rfl
    <;> decide

theorem digitChar_ne_zero (d : Nat) (h0 : d ≠ 0) (h : d < 10) : digitChar d ≠ '0' := by
  rcases digit_lt_ten_cases d h with rfl | rfl | rfl | rfl | rfl | rfl | rfl | rfl | rfl | rfl
    <;> first
      | exact absurd rfl h0
      | decide

theorem takeWhile_all_append {p : Char → Bool} :
    ∀ (a r : Str), (∀ c ∈ a, p c = true) → (∀ d tail, r = d :: tail → p d = false) →
      (a ++ r).takeWhile p = a ∧ (a ++ r).dropWhile p = r := by
  intro a
  induction a with
  | nil =>
    intro r _ hr
    constructor
    · cases r with
      | nil => rfl
      | cons d tail =>
        simp only [List.nil_append, List.takeWhile_cons, hr d tail rfl]
        rfl
    · cases r with
      | nil => rfl
      | cons d tail =>
        simp only [List.nil_append, List.dropWhile_cons, hr d tail rfl]
        rfl
  | cons c cs ih =>
    intro r ha hr
    have hc : p c = true := ha c (by simp)
    have hrest := ih r (fun d hd => ha d (by simp [hd])) hr
    constructor
    · rw [List.cons_append, List.takeWhile_cons, if_pos (by simp [hc]), hrest.1]
    · rw [List.cons_append, List.dropWhile_cons, if_pos (by simp [hc]), hrest.2]

/-- Big-endian digit-list evaluation as done by the parser's fold. -/
theorem foldl_digits_reverse (l : List Nat) (hl : ∀ d ∈ l, d < 10) :
    ∀ (a : Nat), (l.reverse.map digitChar).foldl (fun acc c => acc * 10 + digitVal c) a =
      a * 10 ^ l.length + Nat.ofDigits 10 l := by
  induction l with
  | nil => intro a; simp
  | cons d ds ih =>
    intro a
    have hd : d < 10 := hl d (by simp)
    rw [List.reverse_cons, List.map_append, List.foldl_append]
    rw [ih (fun e he => hl e (by simp [he])) a]
    simp only [List.map_cons, List.map_nil, List.foldl_cons, List.foldl_nil]
    rw [digitVal_digitChar d hd, Nat.ofDigits_cons]
    simp only [List.length_cons]
    ring

theorem renderNatGo_foldl :
    ∀ (fuel n a : Nat), n < 10 ^ fuel →
      (renderNatGo fuel n).foldl (fun acc c => acc * 10 + digitVal c) a
        = a * 10 ^ (renderNatGo fuel n).length + n := by
  intro fuel
  induction fuel with
  | zero =>
    intro n a h
    interval_cases n
    rw [renderNatGo]
    simp
  | succ fuel ih =>
    intro n a h
    rw [renderNatGo]
    by_cases h10 : n < 10
    · rw [if_pos h10]
      simp only [List.foldl_cons, List.foldl_nil, List.length_singleton]
      rw [digitVal_digitChar n h10]
      ring
    · rw [if_neg h10]
      have hdiv : n / 10 < 10 ^ fuel := by
        rw [Nat.div_lt_iff_lt_mul (by omega)]
        rw [pow_succ] at h
        omega
      rw [List.foldl_append, ih (n / 10) a hdiv]
      simp only [List.foldl_cons, List.foldl_nil, List.length_append,
        List.length_singleton]
      rw [digitVal_digitChar (n % 10) (Nat.mod_lt n (by omega))]
      have hdm : 10 * (n / 10) + n % 10 = n := Nat.div_add_mod n 10
      generalize (renderNatGo fuel (n / 10)).length = t
      have halg : (a * 10 ^ t + n / 10) * 10 + n % 10
          = a * 10 ^ (t + 1) + (10 * (n / 10) + n % 10) := by
        rw [pow_succ]
        ring
      rw [halg, hdm]

theorem lt_ten_pow_succ (n : Nat) : n < 10 ^ (n + 1) := by
  have h1 : n < 2 ^ n * 1 := by
    have := Nat.lt_two_pow n
    omega
  have h2 : (2 : Nat) ^ n ≤ 10 ^ n := Nat.pow_le_pow_left (by omega) n
  have h3 : (10 : Nat) ^ n ≤ 10 ^ (n + 1) :=
    Nat.pow_le_pow_right (by omega) (Nat.le_succ n)
  omega

theorem foldl_renderNat (n : Nat) :
    (renderNat n).foldl (fun acc c => acc * 10 + digitVal c) 0 = n := by
  unfold renderNat
  rw [renderNatGo_foldl (n + 1) n 0 (lt_ten_pow_succ n)]
  simp

theorem hexVal_hexDigit (k : Nat) (h : k < 16) : hexVal (hexDigit k) = some k := by
  interval_cases k <;> decide

theorem psb_cons_plain (F : Nat) (c : Char) (X : Str) (h1 : ¬ c = '"')
    (h2 : ¬ c = '\\') (h3 : ¬ c.toNat < 0x20) :
    parseStringBody (F + 1) (c :: X) =
      (parseStringBody F X).map (fun p => (c :: p.1, p.2)) := by
  rw [parseStringBody]
  rw [if_neg h1, if_neg h2, if_neg h3]

theorem parseStringBody_escape :
    ∀ (s : Str) (F : Nat) (rest : Str), s.length + 1 ≤ F →
      parseStringBody F (escapeStr s ++ '"' :: rest) = some (s, rest) := by
  intro s
  induction s with
  | nil =>
    intro F rest hF
    obtain ⟨F2, rfl⟩ : ∃ F2, F = F2 + 1 := ⟨F - 1, by omega⟩
    show parseStringBody (F2 + 1) ('"' :: rest) = some ([], rest)
    rw [parseStringBody]
    rw [if_pos rfl]
  | cons c cs ih =>
    intro F rest hF
    obtain ⟨F2, rfl⟩ : ∃ F2, F = F2 + 1 := ⟨F - 1, by omega⟩
    have hFc : cs.length + 1 ≤ F2 := by
      simp only [List.length_cons] at hF
      omega
    have hesc : escapeStr (c :: cs) ++ '"' :: rest =
        escapeChar c ++ (escapeStr cs ++ '"' :: rest) := by
      unfold escapeStr
      rw [List.map_cons, List.flatten_cons, List.append_assoc]
    rw [hesc]
    unfold escapeChar
    by_cases h1 : c = '"'
    · subst h1
      rw [if_pos rfl]
      show parseStringBody (F2 + 1) ('\\' :: '"' :: (escapeStr cs ++ '"' :: rest)) = _
      rw [parseStringBody, if_neg (by decide), if_pos rfl]
      rw [show escDecode ('"' :: (escapeStr cs ++ '"' :: rest)) =
        some ('"', escapeStr cs ++ '"' :: rest) from rfl]
      rw [Option.some_bind, ih F2 rest hFc]
      rfl
    · rw [if_neg h1]
      by_cases h2 : c = '\\'
      · subst h2
        rw [if_pos rfl]
        show parseStringBody (F2 + 1) ('\\' :: '\\' :: (escapeStr cs ++ '"' :: rest)) = _
        rw [parseStringBody, if_neg (by decide), if_pos rfl]
        rw [show escDecode ('\\' :: (escapeStr cs ++ '"' :: rest)) =
          some ('\\', escapeStr cs ++ '"' :: rest) from rfl]
        rw [Option.some_bind, ih F2 rest hFc]
        rfl
      · rw [if_neg h2]
        by_cases h3 : c = '\x08'
        · subst h3
          rw [if_pos rfl]
          show parseStringBody (F2 + 1) ('\\' :: 'b' :: (escapeStr cs ++ '"' :: rest)) = _
          rw [parseStringBody, if_neg (by decide), if_pos rfl]
          rw [show escDecode ('b' :: (escapeStr cs ++ '"' :: rest)) =
            some ('\x08', escapeStr cs ++ '"' :: rest) from rfl]
          rw [Option.some_bind, ih F2 rest hFc]
          rfl
        · rw [if_neg h3]
          by_cases h4 : c = '\x09'
          · subst h4
            rw [if_pos rfl]
            show parseStringBody (F2 + 1) ('\\' :: 't' :: (escapeStr cs ++ '"' :: rest)) = _
            rw [parseStringBody, if_neg (by decide), if_pos rfl]
            rw [show escDecode ('t' :: (escapeStr cs ++ '"' :: rest)) =
              some ('\x09', escapeStr cs ++ '"' :: rest) from rfl]
            rw [Option.some_bind, ih F2 rest hFc]
            rfl
          · rw [if_neg h4]
            by_cases h5 : c = '\x0a'
            · subst h5
              rw [if_pos rfl]
              show parseStringBody (F2 + 1) ('\\' :: 'n' :: (escapeStr cs ++ '"' :: rest)) = _
              rw [parseStringBody, if_neg (by decide), if_pos rfl]
              rw [show escDecode ('n' :: (escapeStr cs ++ '"' :: rest)) =
                some ('\x0a', escapeStr cs ++ '"' :: rest) from rfl]
              rw [Option.some_bind, ih F2 rest hFc]
              rfl
            · rw [if_neg h5]
              by_cases h6 : c = '\x0c'
              · subst h6
                rw [if_pos rfl]
                show parseStringBody (F2 + 1)
                  ('\\' :: 'f' :: (escapeStr cs ++ '"' :: rest)) = _
                rw [parseStringBody, if_neg (by decide), if_pos rfl]
                rw [show escDecode ('f' :: (escapeStr cs ++ '"' :: rest)) =
                  some ('\x0c', escapeStr cs ++ '"' :: rest) from rfl]
                rw [Option.some_bind, ih F2 rest hFc]
                rfl
              · rw [if_neg h6]
                by_cases h7 : c = '\x0d'
                · subst h7
                  rw [if_pos rfl]
                  show parseStringBody (F2 + 1)
                    ('\\' :: 'r' :: (escapeStr cs ++ '"' :: rest)) = _
                  rw [parseStringBody, if_neg (by decide), if_pos rfl]
                  rw [show escDecode ('r' :: (escapeStr cs ++ '"' :: rest)) =
                    some ('\x0d', escapeStr cs ++ '"' :: rest) from rfl]
                  rw [Option.some_bind, ih F2 rest hFc]
                  rfl
                · rw [if_neg h7]
                  by_cases hctl : c.toNat < 0x20
                  · rw [if_pos hctl]
                    show parseStringBody (F2 + 1) ('\\' :: 'u' :: '0' :: '0' ::
                      hexDigit (c.toNat / 16) :: hexDigit (c.toNat % 16) ::
                      (escapeStr cs ++ '"' :: rest)) = _
                    rw [parseStringBody, if_neg (by decide), if_pos rfl]
                    have hdec : escDecode ('u' :: '0' :: '0' ::
                        hexDigit (c.toNat / 16) :: hexDigit (c.toNat % 16) ::
                        (escapeStr cs ++ '"' :: rest)) =
                        some (c, escapeStr cs ++ '"' :: rest) := by
                      rw [escDecode]
                      rw [if_neg (by decide), if_neg (by decide), if_neg (by decide),
                        if_neg (by decide), if_neg (by decide), if_neg (by decide),
                        if_neg (by decide), if_neg (by decide), if_pos rfl]
                      simp only [show hexVal '0' = some 0 from rfl,
                        hexVal_hexDigit (c.toNat / 16) (by omega),
                        hexVal_hexDigit (c.toNat % 16) (by omega)]
                      have hn : ((0 * 16 + 0) * 16 + c.toNat / 16) * 16 + c.toNat % 16 =
                          c.toNat := by omega
                      simp only [hn]
                      rw [if_pos (Or.inl (by omega)), Char.ofNat_toNat]
                    rw [hdec, Option.some_bind, ih F2 rest hFc]
                    rfl
                  · rw [if_neg hctl]
                    show parseStringBody (F2 + 1)
                      (c :: (escapeStr cs ++ '"' :: rest)) = _
                    rw [psb_cons_plain F2 c _ h1 h2 hctl, ih F2 rest hFc]
                    rfl

/-! ### Numbers round-trip -/

theorem renderNatGo_all_digits :
    ∀ (fuel n : Nat), ∀ c ∈ renderNatGo fuel n, isDigit c = true := by
  intro fuel
  induction fuel with
  | zero =>
    intro n c hc
    rw [renderNatGo] at hc
    simp at hc
  | succ fuel ih =>
    intro n c hc
    rw [renderNatGo] at hc
    by_cases h : n < 10
    · rw [if_pos h] at hc
      rw [List.mem_singleton] at hc
      subst hc
      exact isDigit_digitChar n h
    · rw [if_neg h] at hc
      rcases List.mem_append.mp hc with h1 | h1
      · exact ih (n / 10) c h1
      · rw [List.mem_singleton] at h1
        subst h1
        exact isDigit_digitChar _ (Nat.mod_lt n (by omega))

theorem renderNat_all_digits (n : Nat) : ∀ c ∈ renderNat n, isDigit c = true :=
  renderNatGo_all_digits (n + 1) n

theorem renderNatGo_ne_nil (fuel n : Nat) : renderNatGo (fuel + 1) n ≠ [] := by
  rw [renderNatGo]
  by_cases h : n < 10
  · rw [if_pos h]
    simp
  · rw [if_neg h]
    simp

theorem renderNat_ne_nil (n : Nat) : renderNat n ≠ [] := renderNatGo_ne_nil n n

theorem headI_append_left {α : Type} [Inhabited α] (l l2 : List α) (h : l ≠ []) :
    (l ++ l2).headI = l.headI := by
  cases l with
  | nil => exact absurd rfl h
  | cons a as => rfl

theorem renderNatGo_headI :
    ∀ (fuel n : Nat), 10 ≤ n → n < 10 ^ (fuel + 1) →
      (renderNatGo (fuel + 1) n).headI ≠ '0' := by
  intro fuel
  induction fuel with
  | zero =>
    intro n h10 hlt
    norm_num at hlt
    omega
  | succ fuel ih =>
    intro n h10 hlt
    rw [renderNatGo, if_neg (by omega)]
    rw [headI_append_left _ _ (renderNatGo_ne_nil fuel (n / 10))]
    by_cases h : n / 10 < 10
    · rw [renderNatGo, if_pos h]
      rw [List.headI_cons]
      exact digitChar_ne_zero (n / 10) (by omega) h
    · refine ih (n / 10) (by omega) ?_
      rw [Nat.div_lt_iff_lt_mul (by omega)]
      rw [pow_succ] at hlt
      omega

theorem renderNat_no_leading_zero (n : Nat) :
    ¬ (2 ≤ (renderNat n).length ∧ (renderNat n).headI = '0') := by
  unfold renderNat
  by_cases h : n < 10
  · rw [renderNatGo, if_pos h]
    intro hand
    simp at hand
  · intro hand
    exact renderNatGo_headI n n (by omega) (lt_ten_pow_succ n) hand.2

theorem digit_toNat_bounds (c : Char) (h : isDigit c = true) :
    48 ≤ c.toNat ∧ c.toNat ≤ 57 := by
  unfold isDigit at h
  simp only [Bool.and_eq_true, decide_eq_true_eq] at h
  exact h

theorem digit_ne_of_toNat (c : Char) (h : isDigit c = true) (ch : Char)
    (hch : ch.toNat < 48 ∨ 57 < ch.toNat) : ¬ c = ch := by
  intro he
  subst he
  have := digit_toNat_bounds c h
  rcases hch with h1 | h1 <;> omega

theorem digit_not_jsonws (c : Char) (h : isDigit c = true) : isJsonWs c = false := by
  have hb := digit_toNat_bounds c h
  unfold isJsonWs
  have h1 : (c == ' ') = false := by
    rw [beq_eq_false_iff_ne]
    exact digit_ne_of_toNat c h ' ' (by decide)
  have h2 : (c == '\t') = false := by
    rw [beq_eq_false_iff_ne]
    exact digit_ne_of_toNat c h '\t' (by decide)
  have h3 : (c == '\n') = false := by
    rw [beq_eq_false_iff_ne]
    exact digit_ne_of_toNat c h '\n' (by decide)
  have h4 : (c == '\r') = false := by
    rw [beq_eq_false_iff_ne]
    exact digit_ne_of_toNat c h '\r' (by decide)
  rw [h1, h2, h3, h4]
  rfl

theorem parseNumMag_render (n : Nat) (c : Char) (tail : Str)
    (hd : isDigit c = false) (hdot : ¬ c = '.') (he : ¬ c = 'e') (hE : ¬ c = 'E') :
    parseNumMag false (renderNat n ++ c :: tail) = some (.num (Int.ofNat n), c :: tail) := by
  have hsplit := @takeWhile_all_append isDigit (renderNat n) (c :: tail)
    (renderNat_all_digits n) (by
      intro d t hdt
      cases hdt
      exact hd)
  unfold parseNumMag
  rw [hsplit.1, hsplit.2]
  rw [if_neg (renderNat_ne_nil n), if_neg (renderNat_no_leading_zero n)]
  simp only
  rw [if_neg hdot, if_neg (by
    intro hor
    rcases hor with h | h
    · exact he h
    · exact hE h)]
  unfold mkIntVal
  rw [foldl_renderNat n]
  rfl

theorem parseNumber_render (n : Nat) (c : Char) (tail : Str)
    (hd : isDigit c = false) (hdot : ¬ c = '.') (he : ¬ c = 'e') (hE : ¬ c = 'E') :
    parseNumber (renderNat n ++ c :: tail) = some (.num (Int.ofNat n), c :: tail) := by
  obtain ⟨d, ds, hds⟩ : ∃ d ds, renderNat n = d :: ds := by
    cases h : renderNat n with
    | nil => exact absurd h (renderNat_ne_nil n)
    | cons d ds => exact ⟨d, ds, rfl⟩
  have hddig : isDigit d = true := renderNat_all_digits n d (by rw [hds]; simp)
  rw [hds, List.cons_append, parseNumber]
  rw [if_neg (digit_ne_of_toNat d hddig '-' (by decide))]
  rw [← List.cons_append, ← hds]
  exact parseNumMag_render n c tail hd hdot he hE

/-! ### Dispatch of parseValue on rendered scalars -/

theorem escapeChar_ne_nil (c : Char) : escapeChar c ≠ [] := by
  unfold escapeChar
  split_ifs <;> simp

theorem escapeStr_length_ge (s : Str) : s.length ≤ (escapeStr s).length := by
  induction s with
  | nil => simp [escapeStr]
  | cons c cs ih =>
    have h1 : escapeStr (c :: cs) = escapeChar c ++ escapeStr cs := by
      unfold escapeStr
      rw [List.map_cons, List.flatten_cons]
    rw [h1, List.length_append, List.length_cons]
    have h2 : 1 ≤ (escapeChar c).length := by
      cases h : escapeChar c with
      | nil => exact absurd h (escapeChar_ne_nil c)
      | cons x xs => simp
    omega

theorem parseValue_string (f : Nat) (s rest : Str) :
    parseValue (f + 1) (renderString s ++ rest) = some (.str s, rest) := by
  have h : renderString s ++ rest = '"' :: (escapeStr s ++ '"' :: rest) := by
    unfold renderString
    simp [List.append_assoc]
  rw [h, parseValue]
  rw [skipWs_cons_not_ws '"' _ (by decide)]
  simp only [if_neg (by decide : ¬ ('"' : Char) = 'n'),
    if_neg (by decide : ¬ ('"' : Char) = 't'),
    if_neg (by decide : ¬ ('"' : Char) = 'f'), if_pos rfl]
  rw [parseStringBody_escape s _ rest (by
    have := escapeStr_length_ge s
    simp only [List.length_append, List.length_cons]
    omega)]
  rfl

theorem parseValue_number (f : Nat) (n : Nat) (c : Char) (tail : Str)
    (hd : isDigit c = false) (hdot : ¬ c = '.') (he : ¬ c = 'e') (hE : ¬ c = 'E') :
    parseValue (f + 1) (renderNat n ++ c :: tail) = some (.num (Int.ofNat n), c :: tail) := by
  obtain ⟨d, ds, hds⟩ : ∃ d ds, renderNat n = d :: ds := by
    cases h : renderNat n with
    | nil => exact absurd h (renderNat_ne_nil n)
    | cons d ds => exact ⟨d, ds, rfl⟩
  have hddig : isDigit d = true := renderNat_all_digits n d (by rw [hds]; simp)
  rw [hds, List.cons_append, parseValue]
  rw [skipWs_cons_not_ws d _ (digit_not_jsonws d hddig)]
  simp only [if_neg (digit_ne_of_toNat d hddig 'n' (by decide)),
    if_neg (digit_ne_of_toNat d hddig 't' (by decide)),
    if_neg (digit_ne_of_toNat d hddig 'f' (by decide)),
    if_neg (digit_ne_of_toNat d hddig '"' (by decide)),
    if_neg (digit_ne_of_toNat d hddig '{' (by decide)),
    if_neg (digit_ne_of_toNat d hddig '[' (by decide))]
  rw [← List.cons_append, ← hds]
  exact parseNumber_render n c tail hd hdot he hE

/-! ### Objects of scalar values round-trip -/

/-- One rendered object member, `"key":value`. -/
def renderMember (kv : Str × Json) : Str :=
  renderString kv.1 ++ ':' :: renderJson kv.2

/-- The values stored in the chunk metadata object: strings and
non-negative integers. -/
def isScalarVal : Json → Bool
  | .str _ => true
  | .num n => decide (0 ≤ n)
  | _ => false

theorem renderInt_ofNat (n : Nat) : renderInt (Int.ofNat n) = renderNat n := by
  unfold renderInt
  rw [if_neg (by rw [Int.ofNat_eq_natCast]; omega)]
  rfl

theorem renderJson_obj (kvs : List (Str × Json)) :
    renderJson (.obj kvs) = '{' :: joinComma (kvs.map renderMember) ++ ['}'] := by
  rw [renderJson]
  have h : kvs.attach.map (fun kv => renderString kv.1.1 ++ ':' :: renderJson kv.1.2)
      = kvs.map renderMember := by
    rw [show (fun kv : {x // x ∈ kvs} => renderString kv.1.1 ++ ':' :: renderJson kv.1.2)
        = (fun kv : {x // x ∈ kvs} => renderMember kv.1) from rfl]
    exact List.attach_map_val kvs renderMember
  rw [h]

theorem parseValue_scalar (f : Nat) (v : Json) (hv : isScalarVal v = true)
    (c : Char) (tail : Str) (hd : isDigit c = false)
    (hdot : ¬ c = '.') (he : ¬ c = 'e') (hE : ¬ c = 'E') :
    parseValue (f + 1) (renderJson v ++ c :: tail) = some (v, c :: tail) := by
  cases v with
  | str s =>
    rw [show renderJson (.str s) = renderString s from by rw [renderJson]]
    exact parseValue_string f s (c :: tail)
  | num n =>
    have hn : 0 ≤ n := by
      unfold isScalarVal at hv
      exact of_decide_eq_true hv
    have hofn : Int.ofNat n.toNat = n := Int.toNat_of_nonneg hn
    rw [show renderJson (.num n) = renderInt n from by rw [renderJson],
      ← hofn, renderInt_ofNat]
    exact parseValue_number f n.toNat c tail hd hdot he hE
  | null => simp [isScalarVal] at hv
  | bool b => simp [isScalarVal] at hv
  | numFrac l => simp [isScalarVal] at hv
  | arr xs => simp [isScalarVal] at hv
  | obj kvs => simp [isScalarVal] at hv

theorem parseMembers_step (f : Nat) (k : Str) (v : Json) (hv : isScalarVal v = true)
    (c3 : Char) (r4 : Str) (hc3 : c3 = ',' ∨ c3 = '}') (acc : List (Str × Json)) :
    parseMembers (f + 1 + 1) (renderMember (k, v) ++ c3 :: r4) acc =
      if c3 = ',' then parseMembers (f + 1) r4 (acc ++ [(k, v)])
      else some (.obj (acc ++ [(k, v)]), r4) := by
  have hc3d : isDigit c3 = false := by
    rcases hc3 with rfl | rfl <;> decide
  have hc3dot : ¬ c3 = '.' := by rcases hc3 with rfl | rfl <;> decide
  have hc3e : ¬ c3 = 'e' := by rcases hc3 with rfl | rfl <;> decide
  have hc3E : ¬ c3 = 'E' := by rcases hc3 with rfl | rfl <;> decide
  have hc3ws : isJsonWs c3 = false := by rcases hc3 with rfl | rfl <;> decide
  have hl : renderMember (k, v) ++ c3 :: r4
      = '"' :: (escapeStr k ++ '"' :: (':' :: (renderJson v ++ c3 :: r4))) := by
    unfold renderMember renderString
    simp [List.append_assoc]
  rw [hl, parseMembers]
  rw [skipWs_cons_not_ws '"' _ (by decide)]
  simp only [if_pos rfl]
  rw [parseStringBody_escape k _ (':' :: (renderJson v ++ c3 :: r4)) (by
    have := escapeStr_length_ge k
    simp only [List.length_append, List.length_cons]
    omega)]
  simp only
  rw [skipWs_cons_not_ws ':' _ (by decide)]
  simp only [if_pos rfl]
  rw [parseValue_scalar f v hv c3 r4 hc3d hc3dot hc3e hc3E]
  simp only
  rw [skipWs_cons_not_ws c3 _ hc3ws]
  rcases hc3 with rfl | rfl
  · simp
  · simp

theorem parseMembers_render (ms : List (Str × Json)) :
    ∀ (f : Nat) (acc : List (Str × Json)) (rest : Str), ms ≠ [] →
    (∀ kv ∈ ms, isScalarVal kv.2 = true) →
    ms.length + 1 ≤ f →
    parseMembers f (joinComma (ms.map renderMember) ++ '}' :: rest) acc
      = some (.obj (acc ++ ms), rest) := by
  induction ms with
  | nil => intro f acc rest hne; exact absurd rfl hne
  | cons kv ms ih =>
    intro f acc rest _ hscal hf
    obtain ⟨k, v⟩ := kv
    have hv : isScalarVal v = true := hscal (k, v) (by simp)
    obtain ⟨f1, rfl⟩ : ∃ f1, f = f1 + 1 + 1 := by
      refine ⟨f - 2, ?_⟩
      simp only [List.length_cons] at hf
      omega
    cases ms with
    | nil =>
      have hjoin : joinComma ([(k, v)].map renderMember) = renderMember (k, v) := by
        simp [joinComma]
      simp only [List.map_cons, List.map_nil] at hjoin ⊢
      rw [show joinComma [renderMember (k, v)] = renderMember (k, v) from by
        unfold joinComma
        rfl]
      rw [parseMembers_step f1 k v hv '}' rest (Or.inr rfl) acc]
      rw [if_neg (by decide : ¬ ('}' : Char) = ',')]
    | cons kv2 ms2 =>
      have hjoin : joinComma (((k, v) :: kv2 :: ms2).map renderMember)
          = renderMember (k, v) ++ ',' :: joinComma ((kv2 :: ms2).map renderMember) := by
        simp only [List.map_cons]
        rw [joinComma]
      rw [hjoin, List.append_assoc]
      rw [show (',' :: joinComma ((kv2 :: ms2).map renderMember)) ++ '}' :: rest
          = ',' :: (joinComma ((kv2 :: ms2).map renderMember) ++ '}' :: rest) from rfl]
      rw [parseMembers_step f1 k v hv ',' _ (Or.inl rfl) acc]
      rw [if_pos rfl]
      rw [ih (f1 + 1) (acc ++ [(k, v)]) rest (by simp)
        (fun kv hkv => hscal kv (by simp [hkv]))
        (by simp only [List.length_cons] at hf ⊢; omega)]
      rw [List.append_assoc]
      rfl

theorem joinComma_ne_nil_head (x : Str) (xs : List Str) (hx : x ≠ []) :
    joinComma (x :: xs) ≠ [] ∧ (joinComma (x :: xs)).headI = x.headI := by
  cases xs with
  | nil =>
    rw [show joinComma [x] = x from by unfold joinComma; rfl]
    exact ⟨hx, rfl⟩
  | cons y ys =>
    rw [joinComma]
    cases x with
    | nil => exact absurd rfl hx
    | cons a as => exact ⟨by simp, by simp⟩

theorem joinComma_length_ge (l : List Str) (h : ∀ x ∈ l, x ≠ []) :
    l.length ≤ (joinComma l).length := by
  induction l with
  | nil => simp
  | cons x xs ih =>
    cases xs with
    | nil =>
      rw [show joinComma [x] = x from by unfold joinComma; rfl]
      have hx := h x (by simp)
      cases x with
      | nil => exact absurd rfl hx
      | cons a as => simp
    | cons y ys =>
      rw [joinComma]
      have := ih (fun z hz => h z (by simp [List.mem_cons] at hz ⊢; tauto))
      simp only [List.length_cons, List.length_append, List.length_cons] at this ⊢
      omega

theorem renderMember_ne_nil (kv : Str × Json) : renderMember kv ≠ [] := by
  unfold renderMember renderString
  simp

theorem renderMember_headI (kv : Str × Json) : (renderMember kv).headI = '"' := by
  unfold renderMember renderString
  simp

/-- `JSON.parse (JSON.stringify o) = o` for a non-empty object of scalar
values, as stored in the chunk metadata category field. -/
theorem jsonParse_render_obj (ms : List (Str × Json)) (hne : ms ≠ [])
    (hscal : ∀ kv ∈ ms, isScalarVal kv.2 = true) :
    jsonParse (renderJson (.obj ms)) = some (.obj ms) := by
  obtain ⟨kv0, ms0, rfl⟩ : ∃ kv0 ms0, ms = kv0 :: ms0 := by
    cases ms with
    | nil => exact absurd rfl hne
    | cons kv0 ms0 => exact ⟨kv0, ms0, rfl⟩
  have hjh := joinComma_ne_nil_head (renderMember kv0) (ms0.map renderMember)
    (renderMember_ne_nil kv0)
  obtain ⟨bs, hb⟩ : ∃ bs, joinComma ((kv0 :: ms0).map renderMember) = '"' :: bs := by
    rw [List.map_cons]
    cases hj : joinComma (renderMember kv0 :: ms0.map renderMember) with
    | nil => exact absurd hj hjh.1
    | cons b bs =>
      have h2 := hjh.2
      rw [hj, List.headI_cons, renderMember_headI] at h2
      exact ⟨bs, by rw [h2]⟩
  have hjlen : (kv0 :: ms0).length ≤ (joinComma ((kv0 :: ms0).map renderMember)).length := by
    have h1 := joinComma_length_ge ((kv0 :: ms0).map renderMember) (by
      intro x hx
      rcases List.mem_map.mp hx with ⟨kv, _, rfl⟩
      exact renderMember_ne_nil kv)
    simpa using h1
  have hrlen : (renderJson (.obj (kv0 :: ms0))).length
      = (joinComma ((kv0 :: ms0).map renderMember)).length + 2 := by
    rw [renderJson_obj]
    simp
  obtain ⟨L, hL⟩ : ∃ L, (renderJson (.obj (kv0 :: ms0))).length = L + 2 :=
    ⟨_, hrlen⟩
  have hfuel : (kv0 :: ms0).length + 1 ≤ L + 2 := by
    rw [hrlen] at hL
    simp only [List.length_cons] at hjlen ⊢
    omega
  unfold jsonParse
  rw [hL, renderJson_obj, hb]
  rw [parseValue]
  rw [show ('{' :: ('"' :: bs)) ++ ['}'] = '{' :: ('"' :: (bs ++ ['}'])) from by simp]
  rw [skipWs_cons_not_ws '{' _ (by decide)]
  simp only [if_neg (by decide : ¬ ('{' : Char) = 'n'),
    if_neg (by decide : ¬ ('{' : Char) = 't'),
    if_neg (by decide : ¬ ('{' : Char) = 'f'),
    if_neg (by decide : ¬ ('{' : Char) = '"'), if_pos rfl]
  rw [skipWs_cons_not_ws '"' _ (by decide)]
  simp only [if_neg (by decide : ¬ ('"' : Char) = '}')]
  rw [show ('"' : Char) :: (bs ++ ['}']) = ('"' :: bs) ++ '}' :: ([] : Str) from by simp]
  rw [← hb]
  rw [parseMembers_render (kv0 :: ms0) (L + 2) [] [] (by simp) hscal hfuel]
  rfl

/-! ### Chunk metadata and the queryVectors hit mapping -/

/-- The structured chunk metadata object built by `processDocument` for each
chunk: documentId, userId, fileName, fileType, chunkIndex, totalChunks,
createdAt, in source order. -/
def metadataJson (documentId userId fileName fileType : Str)
    (chunkIndex totalChunks : Nat) (createdAt : Str) : Json :=
  .obj [("documentId".data, .str documentId),
        ("userId".data, .str userId),
        ("fileName".data, .str fileName),
        ("fileType".data, .str fileType),
        ("chunkIndex".data, .num (Int.ofNat chunkIndex)),
        ("totalChunks".data, .num (Int.ofNat totalChunks)),
        ("createdAt".data, .str createdAt)]

/-- `JSON.stringify(metadata)`, the value stored in the record's category
field. -/
def stringifyMetadata (documentId userId fileName fileType : Str)
    (chunkIndex totalChunks : Nat) (createdAt : Str) : Str :=
  renderJson
    (metadataJson documentId userId fileName fileType chunkIndex totalChunks createdAt)

/-- A Pinecone search hit's record fields as read by `queryVectors`;
either field may be absent. -/
structure HitFields where
  category : Option Str
  text : Option Str

/-- JS `a || b` on a possibly-absent string: falsy when absent or empty. -/
def jsOr (a : Option Str) (b : Str) : Str :=
  match a with
  | none => b
  | some l => if l = [] then b else l

/-- `hit.fields.category || hit.fields.text` with an empty-string final
fallback. -/
def categoryValueOf (f : HitFields) : Str := jsOr f.category (jsOr f.text [])

/-- The metadata `queryVectors` attaches to a hit: the JSON parse of the
category value, or on parse failure a synthesized object carrying the raw
value as documentId. -/
def hitMetadata (f : HitFields) : Json :=
  match jsonParse (categoryValueOf f) with
  | some j => j
  | none => .obj [("documentId".data, .str (categoryValueOf f))]

/-- `hit.fields.text || categoryValue`, the text `queryVectors` returns. -/
def hitText (f : HitFields) : Str := jsOr f.text (categoryValueOf f)

theorem stringifyMetadata_ne_nil (documentId userId fileName fileType : Str)
    (chunkIndex totalChunks : Nat) (createdAt : Str) :
    stringifyMetadata documentId userId fileName fileType chunkIndex totalChunks createdAt
      ≠ [] := by
  unfold stringifyMetadata metadataJson
  rw [renderJson_obj]
  simp

theorem metadataJson_scalars (documentId userId fileName fileType : Str)
    (chunkIndex totalChunks : Nat) (createdAt : Str) :
    ∀ kv ∈ [("documentId".data, Json.str documentId),
        ("userId".data, Json.str userId),
        ("fileName".data, Json.str fileName),
        ("fileType".data, Json.str fileType),
        ("chunkIndex".data, Json.num (Int.ofNat chunkIndex)),
        ("totalChunks".data, Json.num (Int.ofNat totalChunks)),
        ("createdAt".data, Json.str createdAt)], isScalarVal kv.2 = true := by
  intro kv hkv
  simp only [List.mem_cons, List.not_mem_nil, or_false] at hkv
  rcases hkv with rfl | rfl | rfl | rfl | rfl | rfl | rfl <;>
    simp [isScalarVal, Int.ofNat_eq_natCast]

/-- C5: the structured metadata serialized by processDocument into the
record's category field (documentId, userId, fileName, fileType,
chunkIndex, totalChunks, createdAt) is reconstructed with the same field
values by queryVectors when it parses that field back; and for any hit
whose stored category value is not parseable as JSON, queryVectors does
not fail but returns the hit with synthesized minimal metadata carrying
the raw value as documentId. -/
theorem metadata_roundtrip_spec :
    (∀ documentId userId fileName fileType chunkIndex totalChunks createdAt txt,
      hitMetadata ⟨some (stringifyMetadata documentId userId fileName fileType
          chunkIndex totalChunks createdAt), txt⟩
        = metadataJson documentId userId fileName fileType chunkIndex totalChunks createdAt) ∧
    (∀ f : HitFields, jsonParse (categoryValueOf f) = none →
      hitMetadata f = .obj [("documentId".data, .str (categoryValueOf f))]) := by
  constructor
  · intro documentId userId fileName fileType chunkIndex totalChunks createdAt txt
    have hcv : categoryValueOf ⟨some (stringifyMetadata documentId userId fileName fileType
        chunkIndex totalChunks createdAt), txt⟩
        = stringifyMetadata documentId userId fileName fileType chunkIndex totalChunks
            createdAt := by
      simp only [categoryValueOf, jsOr]
      rw [if_neg (stringifyMetadata_ne_nil documentId userId fileName fileType chunkIndex
        totalChunks createdAt)]
    have hparse : jsonParse (stringifyMetadata documentId userId fileName fileType chunkIndex
        totalChunks createdAt) = some (metadataJson documentId userId fileName fileType
          chunkIndex totalChunks createdAt) := by
      unfold stringifyMetadata metadataJson
      exact jsonParse_render_obj _ (by simp)
        (metadataJson_scalars documentId userId fileName fileType chunkIndex totalChunks
          createdAt)
    unfold hitMetadata
    rw [hcv, hparse]
  · intro f h
    unfold hitMetadata
    rw [h]

/-- Concrete instance of C5 at a parse failure: the raw category value
becomes the synthesized documentId. -/
theorem metadata_roundtrip_spec_witness :
    hitMetadata ⟨some ("Financial".data), none⟩
      = .obj [("documentId".data, .str ("Financial".data))] ∧
    hitMetadata ⟨some (stringifyMetadata ("d1".data) ("u1".data) ("a.pdf".data)
        ("pdf".data) 0 2 ("2024-01-01T00:00:00.000Z".data)), none⟩
      = metadataJson ("d1".data) ("u1".data) ("a.pdf".data) ("pdf".data) 0 2
          ("2024-01-01T00:00:00.000Z".data) :=
  ⟨metadata_roundtrip_spec.2 ⟨some ("Financial".data), none⟩ (by rfl),
   metadata_roundtrip_spec.1 ("d1".data) ("u1".data) ("a.pdf".data) ("pdf".data) 0 2
     ("2024-01-01T00:00:00.000Z".data) none⟩

/-! ### The documents service state -/

/-- A row of the Document table (the fields the service reads or writes). -/
structure DocumentRec where
  id : Str
  name : Str
  type : Str
  size : Nat
  path : Str
  userId : Str
  fileHash : Str
  status : Str
  errorMessage : Option Str
  textFilePath : Option Str
  assistantFileId : Option Str
  deriving DecidableEq

/-- A row of the Chunk table. -/
structure ChunkRec where
  documentId : Str
  content : Str
  chunkIndex : Nat
  pineconeId : Str
  deriving DecidableEq

/-- A row of the User table (the fields the service reads). -/
structure UserRec where
  id : Str
  email : Option Str
  name : Option Str
  deriving DecidableEq

/-- One record stored in a Pinecone namespace. -/
structure VectorRec where
  id : Str
  text : Str
  category : Str
  deriving DecidableEq

/-- The mutable world the service acts on: database tables, the upload
directory (path to content), and the remote vector store per index name. -/
structure ServiceState where
  documents : List DocumentRec
  chunks : List ChunkRec
  users : List UserRec
  fileContents : List (Str × Str)
  remote : List (Str × List VectorRec)
  deriving DecidableEq

/-- The four Pinecone environment variables read by PineconeService
(`none` models an unset variable). -/
structure PineconeConfig where
  indexName : Option Str
  indexUrl : Option Str
  indexNameAir : Option Str
  indexUrlAir : Option Str
  deriving DecidableEq

/-- JS truthiness of a possibly-absent string. -/
def strTruthy (o : Option Str) : Bool :=
  match o with
  | none => false
  | some l => !l.isEmpty

/-- `configService.get(key, default)`: the default applies only when the
variable is unset. -/
def optOr (o : Option Str) (d : Str) : Str :=
  match o with
  | none => d
  | some l => l

def defaultIndexName (cfg : PineconeConfig) : Str := optOr cfg.indexName ("air-multy".data)

def airIndexName (cfg : PineconeConfig) : Str := optOr cfg.indexNameAir ("air".data)

/-- Assignment into a JS object used as a record: an existing key keeps its
position and gets the new value, a new key is appended (`for..in` follows
this order). -/
def recordSet {α : Type} (m : List (Str × α)) (k : Str) (v : α) : List (Str × α) :=
  if m.any (fun kv => kv.1 == k) then m.map (fun kv => if kv.1 == k then (k, v) else kv)
  else m ++ [(k, v)]

/-- The `indexes` record after the conditional default-index assignment. -/
def indexesStep1 (cfg : PineconeConfig) : List (Str × Str) :=
  if strTruthy cfg.indexUrl then [(defaultIndexName cfg, optOr cfg.indexUrl [])] else []

/-- The `indexes` record built by the Pinecone service: default index if
its URL is configured, then the air index if its URL is configured. -/
def configuredIndexes (cfg : PineconeConfig) : List (Str × Str) :=
  if strTruthy cfg.indexUrlAir then
    recordSet (indexesStep1 cfg) (airIndexName cfg) (optOr cfg.indexUrlAir [])
  else indexesStep1 cfg

def assocFind {α : Type} (r : List (Str × α)) (k : Str) : Option α :=
  match r.find? (fun kv => kv.1 == k) with
  | some kv => some kv.2
  | none => none

/-- The records of one remote index namespace (empty if never written). -/
def remoteGet (r : List (Str × List VectorRec)) (n : Str) : List VectorRec :=
  (assocFind r n).getD []

def remoteSet (r : List (Str × List VectorRec)) (n : Str) (recs : List VectorRec) :
    List (Str × List VectorRec) :=
  recordSet r n recs

/-- Upserting one record: same id overwrites in place, otherwise append. -/
def vecSet (recs : List VectorRec) (v : VectorRec) : List VectorRec :=
  if recs.any (fun w => w.id == v.id) then recs.map (fun w => if w.id == v.id then v else w)
  else recs ++ [v]

/-- `namespace.upsertRecords(vector)`. -/
def upsertRecords (recs : List VectorRec) (vector : List VectorRec) : List VectorRec :=
  vector.foldl vecSet recs

/-- The environment's per-index upsert outcome: an index name mapped here
fails with the given error message. -/
def failMsg (fails : List (Str × Str)) (n : Str) : Option Str := assocFind fails n

def upsertLoop (fails : List (Str × Str)) (vector : List VectorRec) :
    List (Str × Str) → List (Str × List VectorRec) →
      Except Str (List (Str × List VectorRec))
  | [], r => .ok r
  | (n, _) :: rest, r =>
    match failMsg fails n with
    | some m => .error m
    | none => upsertLoop fails vector rest (remoteSet r n (upsertRecords (remoteGet r n) vector))

/-- `vector.map(v => v.id).filter(Boolean)`. -/
def chunkIdsOf (vector : List VectorRec) : List Str :=
  (vector.map (fun v => v.id)).filter (fun s => !s.isEmpty)

def noIndexMsg : Str := "At least one Pinecone index URL must be configured".data

/-- `PineconeService.upsertVector`: throws when no index URL is
configured, upserts the same payload to every configured index in order
(stopping at the first failing index and rethrowing), and returns the
accepted chunk ids. -/
def upsertVector (cfg : PineconeConfig) (fails : List (Str × Str))
    (r : List (Str × List VectorRec)) (vector : List VectorRec) :
    Except Str (List Str × List (Str × List VectorRec)) :=
  if configuredIndexes cfg = [] then .error noIndexMsg
  else
    match upsertLoop fails vector (configuredIndexes cfg) r with
    | .ok r2 => .ok (chunkIdsOf vector, r2)
    | .error m => .error m

/-- `namespace.deleteMany(ids)`. -/
def deleteMany (recs : List VectorRec) (ids : List Str) : List VectorRec :=
  recs.filter (fun v => !ids.contains v.id)

/-- `PineconeService.deleteVectors`: returns immediately on an empty id
list, otherwise deletes the ids from every configured index. -/
def deleteVectors (cfg : PineconeConfig) (r : List (Str × List VectorRec))
    (ids : List Str) : List (Str × List VectorRec) :=
  if ids = [] then r
  else (configuredIndexes cfg).foldl
    (fun acc nu => remoteSet acc nu.1 (deleteMany (remoteGet acc nu.1) ids)) r

/-! ### DocumentsService -/

/-- `documentRepository.findOne(\x7b where: \x7b id \x7d \x7d)`. -/
def docById (s : ServiceState) (id : Str) : Option DocumentRec :=
  s.documents.find? (fun d => d.id == id)

/-- `getDocument`: `findOne(\x7b where: \x7b id, userId \x7d \x7d)`; the service
throws NotFoundException when this is `none`. -/
def getDocument (s : ServiceState) (id uid : Str) : Option DocumentRec :=
  s.documents.find? (fun d => d.id == id && d.userId == uid)

def updateDocs (docs : List DocumentRec) (id : Str) (f : DocumentRec → DocumentRec) :
    List DocumentRec :=
  docs.map (fun d => if d.id == id then f d else d)

def setStatusFields (st : Str) (msg : Option Str) (d : DocumentRec) : DocumentRec :=
  { d with status := st,
           errorMessage := match msg with | none => d.errorMessage | some m => some m }

/-- `updateDocumentStatus`: TypeORM skips an undefined `errorMessage`
column, so `none` leaves the stored message unchanged. -/
def updateDocumentStatus (s : ServiceState) (id : Str) (st : Str) (msg : Option Str) :
    ServiceState :=
  { s with documents := updateDocs s.documents id (setStatusFields st msg) }

/-- `user?.email || null` and `user?.name || null`. -/
def jsOrNull (o : Option Str) : Option Str :=
  match o with
  | none => none
  | some l => if l = [] then none else some l

def userById (s : ServiceState) (uid : Str) : Option UserRec :=
  s.users.find? (fun u => u.id == uid)

def emailOfUser (u : Option UserRec) : Option Str :=
  match u with
  | none => none
  | some u2 => jsOrNull u2.email

def nameOfUser (u : Option UserRec) : Option Str :=
  match u with
  | none => none
  | some u2 => jsOrNull u2.name

/-- The multer file handed to `uploadDocument` (content as characters). -/
structure UploadFile where
  originalname : Str
  mimetype : Str
  size : Nat
  content : Str
  deriving DecidableEq

/-- The ConflictException payload thrown on duplicate content. -/
structure ConflictPayload where
  message : Str
  existingDoc : DocumentRec
  uploadedByEmail : Option Str
  uploadedByName : Option Str
  deriving DecidableEq

def conflictMsg : Str := "Document with the same content already exists".data

inductive UploadOutcome where
  | ok (doc : DocumentRec) (uploadedByEmail uploadedByName : Option Str) (s : ServiceState)
  | conflict (p : ConflictPayload) (s : ServiceState)
  deriving DecidableEq

def uploadFilePath (upath : Str) (now : Nat) (f : UploadFile) : Str :=
  upath ++ '/' :: (renderNat now ++ '-' :: f.originalname)

def newDocumentRec (hash : Str → Str) (newId : Str) (now : Nat) (upath : Str)
    (f : UploadFile) (userId : Str) : DocumentRec :=
  { id := newId, name := f.originalname, type := f.mimetype, size := f.size,
    path := uploadFilePath upath now f, userId := userId, fileHash := hash f.content,
    status := "processing".data, errorMessage := none, textFilePath := none,
    assistantFileId := none }

/-- `uploadDocument` up to (but not including) the asynchronous
`processDocument` task: hash the content, throw ConflictException if a
document with the same hash exists (referencing it and its uploader's
email/name), otherwise write the file, save the new `processing` document
and return it with the uploader identity.  `hash` abstracts sha256 (a
fixed deterministic function of the content), `newId` the generated row
id, `now` the timestamp in the stored file name. -/
def uploadDocument (hash : Str → Str) (newId : Str) (now : Nat) (upath : Str)
    (f : UploadFile) (userId : Str) (s : ServiceState) : UploadOutcome :=
  match s.documents.find? (fun d => d.fileHash == hash f.content) with
  | some ex =>
    .conflict ⟨conflictMsg, ex, emailOfUser (userById s ex.userId),
      nameOfUser (userById s ex.userId)⟩ s
  | none =>
    .ok (newDocumentRec hash newId now upath f userId)
      (emailOfUser (userById s userId)) (nameOfUser (userById s userId))
      { s with
        documents := s.documents ++ [newDocumentRec hash newId now upath f userId],
        fileContents := recordSet s.fileContents (uploadFilePath upath now f) f.content }

/-- The per-run environment of `processDocument`: parser outcome,
assistant upload outcome (errors are swallowed), Gemini chunking outcome
(errors fall back to the manual chunker), per-index upsert failures and
the metadata timestamp. -/
structure ProcEnv where
  parseResult : Except Str Str
  assistantUpload : Except Str Str
  geminiResult : Except Str (List Str)
  upsertFails : List (Str × Str)
  createdAt : Str

/-- The outcome of `processDocument`: an error carries the state as
already mutated when the exception was thrown. -/
inductive ProcOutcome where
  | ok (s : ServiceState)
  | error (msg : Str) (s : ServiceState)
  deriving DecidableEq

/-- `splitIntoChunks(text, 1000)`: Gemini, falling back to
`semanticChunking(text, 1000, 0.1)`. -/
def splitIntoChunks (env : ProcEnv) (text : Str) : List Str :=
  match env.geminiResult with
  | .ok cs => cs
  | .error _ => semanticChunking text 1000 (1 / 10)

def assistantIdOf (env : ProcEnv) : Option Str :=
  match env.assistantUpload with
  | .ok fid => some fid
  | .error _ => none

def textPathOf (upath id : Str) : Str := upath ++ '/' :: (id ++ "-text.txt".data)

def withTextFile (p content : Str) (s : ServiceState) : ServiceState :=
  { s with fileContents := recordSet s.fileContents p content }

def withDocFiles (documentId p : Str) (afid : Option Str) (s : ServiceState) : ServiceState :=
  { s with documents := updateDocs s.documents documentId (fun d =>
      { d with textFilePath := some p, assistantFileId := afid }) }

def chunkVecId (documentId : Str) (i : Nat) : Str :=
  documentId ++ "_chunk_".data ++ renderNat i

/-- The `data` array: one record per chunk, its category field the
stringified structured metadata. -/
def buildVectors (documentId userId docName docType createdAt : Str)
    (chunks : List Str) : List VectorRec :=
  (List.range chunks.length).map (fun i =>
    { id := chunkVecId documentId i,
      text := chunks.getD i [],
      category := stringifyMetadata documentId userId docName docType i
        chunks.length createdAt })

/-- `chunkIds[i] || documentId_chunk_i`. -/
def pineconeIdAt (documentId : Str) (chunkIds : List Str) (i : Nat) : Str :=
  if chunkIds.getD i [] = [] then chunkVecId documentId i else chunkIds.getD i []

def buildChunks (documentId : Str) (chunks : List Str) (chunkIds : List Str) :
    List ChunkRec :=
  (List.range chunks.length).map (fun i =>
    { documentId := documentId, content := chunks.getD i [], chunkIndex := i,
      pineconeId := pineconeIdAt documentId chunkIds i })

/-- Steps 5-7 of `processDocument`: chunk, upsert to Pinecone, and only
after a successful upsert save the chunk rows and mark the document
ready. -/
def processUpsert (cfg : PineconeConfig) (env : ProcEnv) (documentId : Str)
    (doc : DocumentRec) (content : Str) (s : ServiceState) : ProcOutcome :=
  match upsertVector cfg env.upsertFails s.remote
      (buildVectors documentId doc.userId doc.name doc.type env.createdAt
        (splitIntoChunks env content)) with
  | .error m => .error m s
  | .ok (chunkIds, r2) =>
    .ok (updateDocumentStatus
      { s with remote := r2,
               chunks := s.chunks ++ buildChunks documentId (splitIntoChunks env content)
                 chunkIds }
      documentId ("ready".data) none)

/-- Steps 2-7 of `processDocument` after a successful parse: write the
cleaned text file, try the assistant upload (failure swallowed), record
text path and assistant id on the document, then chunk and upsert. -/
def processAfterParse (cfg : PineconeConfig) (env : ProcEnv) (upath documentId : Str)
    (doc : DocumentRec) (content : Str) (s : ServiceState) : ProcOutcome :=
  processUpsert cfg env documentId doc content
    (withDocFiles documentId (textPathOf upath documentId) (assistantIdOf env)
      (withTextFile (textPathOf upath documentId) content s))

/-- `processDocument(documentId)`: find the document, parse, clean line
breaks, then the remaining pipeline; any thrown error is rethrown. -/
def processDocument (cfg : PineconeConfig) (env : ProcEnv) (upath documentId : Str)
    (s : ServiceState) : ProcOutcome :=
  match docById s documentId with
  | none => .error ("Document not found".data) s
  | some doc =>
    match env.parseResult with
    | .error m => .error m s
    | .ok raw => processAfterParse cfg env upath documentId doc (cleanTextLineBreaks raw) s

/-- `processDocument(id).catch(e => updateDocumentStatus(id, 'error',
e.message))` — the wrapper both `uploadDocument` and `reprocessDocument`
attach to the asynchronous task. -/
def processDocumentTask (cfg : PineconeConfig) (env : ProcEnv) (upath documentId : Str)
    (s : ServiceState) : ServiceState :=
  match processDocument cfg env upath documentId s with
  | .ok s2 => s2
  | .error m s2 => updateDocumentStatus s2 documentId ("error".data) (some m)

/-- `reprocessDocument` followed by the completion of its asynchronous
task: look the document up (NotFoundException when missing), set its
status to `processing` — the chunk/vector cleanup loop is commented out
in the source — and re-run the pipeline. -/
def reprocessDocumentRun (cfg : PineconeConfig) (env : ProcEnv) (upath : Str)
    (documentId userId : Str) (s : ServiceState) : Except Str ServiceState :=
  match getDocument s documentId userId with
  | none => .error ("Document not found".data)
  | some _ => .ok (processDocumentTask cfg env upath documentId
      { s with documents := updateDocs s.documents documentId (fun d =>
          { d with status := "processing".data }) })

def fsDelete (files : List (Str × Str)) (p : Str) : List (Str × Str) :=
  files.filter (fun kv => !(kv.1 == p))

/-- `if (document.textFilePath && fs.existsSync(...)) unlinkSync(...)`. -/
def fsDeleteOpt (files : List (Str × Str)) (o : Option Str) : List (Str × Str) :=
  match o with
  | none => files
  | some p => fsDelete files p

def chunkPineconeIds (s : ServiceState) (documentId : Str) : List Str :=
  ((s.chunks.filter (fun c => c.documentId == documentId)).map
    (fun c => c.pineconeId)).filter (fun p => !p.isEmpty)

/-- The state mutation of `deleteDocument` once the document was found:
assistant deletion is fire-and-forget (errors swallowed, not tracked),
remote vectors of the document's chunks are deleted, both files are
unlinked behind existence guards, and the row is deleted (cascading to
its chunks). -/
def deleteApply (cfg : PineconeConfig) (documentId : Str) (doc : DocumentRec)
    (s : ServiceState) : ServiceState :=
  { documents := s.documents.filter (fun d => !(d.id == documentId)),
    chunks := s.chunks.filter (fun c => !(c.documentId == documentId)),
    users := s.users,
    fileContents := fsDeleteOpt (fsDelete s.fileContents doc.path) doc.textFilePath,
    remote := deleteVectors cfg s.remote (chunkPineconeIds s documentId) }

/-- `deleteDocument`: NotFoundException when the document is missing,
otherwise the deletions above. -/
def deleteDocument (cfg : PineconeConfig) (documentId userId : Str)
    (s : ServiceState) : Except Str ServiceState :=
  match getDocument s documentId userId with
  | none => .error ("Document not found".data)
  | some doc => .ok (deleteApply cfg documentId doc s)

/-- The document's status and error message, as observed in a state. -/
def docStatus (s : ServiceState) (id : Str) : Option (Str × Option Str) :=
  (docById s id).map (fun d => (d.status, d.errorMessage))

/-! ### Record and lookup lemmas -/

theorem find?_append_none {α : Type} (p : α → Bool) (l1 l2 : List α)
    (h : l1.find? p = none) : (l1 ++ l2).find? p = l2.find? p := by
  rw [List.find?_append, h]
  rfl

theorem find?_map_set_self {α : Type} :
    ∀ (r : List (Str × α)) (k : Str) (v : α), r.any (fun kv => kv.1 == k) = true →
      (r.map (fun kv => if kv.1 == k then (k, v) else kv)).find? (fun kv => kv.1 == k)
        = some (k, v) := by
  intro r k v h
  induction r with
  | nil => simp at h
  | cons kv kvs ih =>
    rw [List.map_cons]
    by_cases hkv : (kv.1 == k) = true
    · rw [if_pos hkv]
      simp [List.find?_cons]
    · rw [if_neg hkv]
      rw [Bool.not_eq_true] at hkv
      simp only [List.find?_cons, hkv, cond_false]
      refine ih ?_
      rw [List.any_cons, hkv, Bool.false_or] at h
      exact h

theorem find?_map_set_other {α : Type} :
    ∀ (r : List (Str × α)) (k : Str) (v : α) (k2 : Str), ¬ k2 = k →
      (r.map (fun kv => if kv.1 == k then (k, v) else kv)).find? (fun kv => kv.1 == k2)
        = r.find? (fun kv => kv.1 == k2) := by
  intro r k v k2 h
  induction r with
  | nil => rfl
  | cons kv kvs ih =>
    rw [List.map_cons]
    by_cases hkv : (kv.1 == k) = true
    · rw [if_pos hkv]
      have hk1 : kv.1 = k := by simpa using hkv
      have hne : (k == k2) = false := by
        simp only [beq_eq_false_iff_ne, ne_eq]
        exact fun he => h he.symm
      simp only [List.find?_cons, hne, cond_false]
      rw [show (kv.1 == k2) = false from by rw [hk1]; exact hne]
      simp only [cond_false]
      exact ih
    · rw [if_neg hkv]
      rw [Bool.not_eq_true] at hkv
      cases hp : (kv.1 == k2) with
      | true => simp only [List.find?_cons, hp, cond_true]
      | false =>
        simp only [List.find?_cons, hp, cond_false]
        exact ih

theorem assocFind_set_same {α : Type} (r : List (Str × α)) (k : Str) (v : α) :
    assocFind (recordSet r k v) k = some v := by
  unfold assocFind recordSet
  by_cases h : r.any (fun kv => kv.1 == k) = true
  · rw [if_pos h, find?_map_set_self r k v h]
  · rw [if_neg h]
    rw [find?_append_none _ r _ (List.find?_eq_none.mpr (fun kv hkv hp =>
      h (List.any_eq_true.mpr ⟨kv, hkv, hp⟩)))]
    simp [List.find?_cons]

theorem assocFind_set_other {α : Type} (r : List (Str × α)) (k : Str) (v : α)
    (k2 : Str) (h : ¬ k2 = k) :
    assocFind (recordSet r k v) k2 = assocFind r k2 := by
  unfold assocFind recordSet
  by_cases hany : r.any (fun kv => kv.1 == k) = true
  · rw [if_pos hany, find?_map_set_other r k v k2 h]
  · rw [if_neg hany]
    rw [List.find?_append]
    rw [show ([(k, v)].find? (fun kv => kv.1 == k2)) = none from by
      have hne : (k == k2) = false := by
        simp only [beq_eq_false_iff_ne, ne_eq]
        exact fun he => h he.symm
      simp [List.find?_cons, hne]]
    cases r.find? (fun kv => kv.1 == k2) <;> rfl

theorem remoteGet_set_same (r : List (Str × List VectorRec)) (n : Str)
    (recs : List VectorRec) : remoteGet (remoteSet r n recs) n = recs := by
  unfold remoteGet remoteSet
  rw [assocFind_set_same]
  rfl

theorem remoteGet_set_other (r : List (Str × List VectorRec)) (n : Str)
    (recs : List VectorRec) (n2 : Str) (h : ¬ n2 = n) :
    remoteGet (remoteSet r n recs) n2 = remoteGet r n2 := by
  unfold remoteGet remoteSet
  rw [assocFind_set_other _ _ _ _ h]

theorem find?_updateDocs (docs : List DocumentRec) (id : Str)
    (f : DocumentRec → DocumentRec) (hf : ∀ d, (f d).id = d.id) :
    (updateDocs docs id f).find? (fun d => d.id == id)
      = (docs.find? (fun d => d.id == id)).map f := by
  induction docs with
  | nil => rfl
  | cons d ds ih =>
    unfold updateDocs
    rw [List.map_cons]
    by_cases hd : (d.id == id) = true
    · rw [if_pos hd]
      simp only [List.find?_cons, hd, cond_true]
      rw [show ((f d).id == id) = true from by rw [hf d]; exact hd]
      simp only [cond_true]
      rfl
    · rw [if_neg hd]
      rw [Bool.not_eq_true] at hd
      simp only [List.find?_cons, hd, cond_false]
      exact ih

theorem docById_update (s : ServiceState) (id : Str) (f : DocumentRec → DocumentRec)
    (hf : ∀ d, (f d).id = d.id) :
    docById { s with documents := updateDocs s.documents id f } id
      = (docById s id).map f := by
  unfold docById
  exact find?_updateDocs s.documents id f hf

theorem docStatus_update_status (s : ServiceState) (id : Str) (st : Str) (m : Str)
    (d : DocumentRec) (hd : docById s id = some d) :
    docStatus (updateDocumentStatus s id st (some m)) id = some (st, some m) := by
  unfold docStatus updateDocumentStatus
  rw [docById_update s id (setStatusFields st (some m)) (fun d2 => rfl), hd]
  rfl

/-! ### Upsert loop lemmas -/

theorem upsertLoop_preserve (fails : List (Str × Str)) (vector : List VectorRec) :
    ∀ (names : List (Str × Str)) (r r2 : List (Str × List VectorRec)) (k : Str),
      (∀ nu ∈ names, ¬ nu.1 = k) →
      upsertLoop fails vector names r = .ok r2 → remoteGet r2 k = remoteGet r k := by
  intro names
  induction names with
  | nil =>
    intro r r2 k _ h
    rw [upsertLoop] at h
    injection h with h2
    rw [← h2]
  | cons nv rest ih =>
    intro r r2 k hk h
    obtain ⟨n, u⟩ := nv
    rw [upsertLoop] at h
    split at h
    next m heq => exact absurd h (by simp)
    next heq =>
      have h2 := ih _ r2 k (fun nu2 hnu2 => hk nu2 (by simp [hnu2])) h
      rw [h2, remoteGet_set_other _ _ _ _ (fun he => hk (n, u) (by simp) he.symm)]

theorem upsertLoop_ok_get (fails : List (Str × Str)) (vector : List VectorRec) :
    ∀ (names : List (Str × Str)) (r r2 : List (Str × List VectorRec)),
      names.Pairwise (fun a b => ¬ a.1 = b.1) →
      upsertLoop fails vector names r = .ok r2 →
      ∀ nu ∈ names, remoteGet r2 nu.1 = upsertRecords (remoteGet r nu.1) vector := by
  intro names
  induction names with
  | nil =>
    intro r r2 _ _ nu hnu
    simp at hnu
  | cons nv rest ih =>
    intro r r2 hpw h nu hnu
    obtain ⟨n, u⟩ := nv
    rw [upsertLoop] at h
    split at h
    next m heq => exact absurd h (by simp)
    next heq =>
      rcases List.mem_cons.mp hnu with rfl | hmem
      · have hpres := upsertLoop_preserve fails vector rest _ r2 n
          (fun nu2 hnu2 he => (List.pairwise_cons.mp hpw).1 nu2 hnu2 he.symm) h
        rw [hpres, remoteGet_set_same]
      · have h3 := ih _ r2 (List.pairwise_cons.mp hpw).2 h nu hmem
        rw [h3, remoteGet_set_other _ _ _ _
          (fun he => (List.pairwise_cons.mp hpw).1 nu hmem he.symm)]

theorem upsertLoop_error_of_fail (fails : List (Str × Str)) (vector : List VectorRec) :
    ∀ (names : List (Str × Str)) (r : List (Str × List VectorRec)),
      (∃ nu ∈ names, failMsg fails nu.1 ≠ none) →
      ∃ m, upsertLoop fails vector names r = .error m := by
  intro names
  induction names with
  | nil =>
    intro r hex
    rcases hex with ⟨nu, hnu, _⟩
    simp at hnu
  | cons nv rest ih =>
    intro r hex
    obtain ⟨n, u⟩ := nv
    cases hf : failMsg fails n with
    | some m =>
      refine ⟨m, ?_⟩
      rw [upsertLoop, hf]
    | none =>
      rcases hex with ⟨nu, hnu, hne⟩
      rcases List.mem_cons.mp hnu with rfl | hmem
      · exact absurd hf hne
      · obtain ⟨m, hm⟩ := ih (remoteSet r n (upsertRecords (remoteGet r n) vector))
          ⟨nu, hmem, hne⟩
        refine ⟨m, ?_⟩
        rw [upsertLoop, hf]
        exact hm

theorem configuredIndexes_nodupkeys (cfg : PineconeConfig) :
    (configuredIndexes cfg).Pairwise (fun a b => ¬ a.1 = b.1) := by
  unfold configuredIndexes recordSet indexesStep1
  by_cases h2 : strTruthy cfg.indexUrlAir = true
  · rw [if_pos h2]
    by_cases h1 : strTruthy cfg.indexUrl = true
    · rw [if_pos h1]
      by_cases hdup : ([(defaultIndexName cfg, optOr cfg.indexUrl [])].any
          (fun kv => kv.1 == airIndexName cfg)) = true
      · rw [if_pos hdup]
        simp
      · rw [if_neg hdup]
        simp only [List.any_cons, List.any_nil, Bool.or_false] at hdup
        refine List.pairwise_cons.mpr ⟨?_, ?_⟩
        · intro b hb
          have hb2 : b ∈ [(airIndexName cfg, optOr cfg.indexUrlAir [])] := hb
          rw [List.mem_singleton] at hb2
          subst hb2
          intro he
          have he2 : defaultIndexName cfg = airIndexName cfg := he
          exact hdup (by simp [he2])
        · exact List.pairwise_singleton _ _
    · rw [if_neg h1]
      by_cases hdup : (([] : List (Str × Str)).any (fun kv => kv.1 == airIndexName cfg)) = true
      · simp at hdup
      · rw [if_neg hdup]
        simp
  · rw [if_neg h2]
    by_cases h1 : strTruthy cfg.indexUrl = true
    · rw [if_pos h1]
      exact List.pairwise_singleton _ _
    · rw [if_neg h1]
      exact List.Pairwise.nil

/-! ### Error propagation of the processing task -/

theorem processUpsert_chunks_eq (cfg : PineconeConfig) (env : ProcEnv)
    (documentId : Str) (doc : DocumentRec) (content : Str) (s : ServiceState)
    (msg : Str) (s2 : ServiceState)
    (h : processUpsert cfg env documentId doc content s = .error msg s2) : s2 = s := by
  unfold processUpsert at h
  split at h
  next m heq =>
    injection h with h1 h2
    rw [← h2]
  next chunkIds r2 heq => exact absurd h (by simp)

theorem processDocument_error_cases (cfg : PineconeConfig) (env : ProcEnv)
    (upath documentId : Str) (s : ServiceState) (msg : Str) (s2 : ServiceState)
    (h : processDocument cfg env upath documentId s = .error msg s2) :
    s2 = s ∨ ∃ content, s2 = withDocFiles documentId (textPathOf upath documentId)
      (assistantIdOf env) (withTextFile (textPathOf upath documentId) content s) := by
  unfold processDocument at h
  split at h
  next heq =>
    injection h with h1 h2
    exact Or.inl h2.symm
  next doc heq =>
    split at h
    next m heq2 =>
      injection h with h1 h2
      exact Or.inl h2.symm
    next raw heq2 =>
      unfold processAfterParse at h
      have := processUpsert_chunks_eq cfg env documentId doc (cleanTextLineBreaks raw) _
        msg s2 h
      exact Or.inr ⟨cleanTextLineBreaks raw, this⟩

theorem error_state_chunks (cfg : PineconeConfig) (env : ProcEnv)
    (upath documentId : Str) (s : ServiceState) (msg : Str) (s2 : ServiceState)
    (h : processDocument cfg env upath documentId s = .error msg s2) :
    s2.chunks = s.chunks := by
  rcases processDocument_error_cases cfg env upath documentId s msg s2 h with rfl | ⟨c, rfl⟩
  · rfl
  · rfl

theorem error_state_doc (cfg : PineconeConfig) (env : ProcEnv)
    (upath documentId : Str) (s : ServiceState) (msg : Str) (s2 : ServiceState)
    (d : DocumentRec)
    (h : processDocument cfg env upath documentId s = .error msg s2)
    (hd : docById s documentId = some d) :
    ∃ d2, docById s2 documentId = some d2 := by
  rcases processDocument_error_cases cfg env upath documentId s msg s2 h with rfl | ⟨c, rfl⟩
  · exact ⟨d, hd⟩
  · refine ⟨?_, ?_⟩
    · exact { d with textFilePath := some (textPathOf upath documentId)
                     assistantFileId := assistantIdOf env }
    unfold withDocFiles withTextFile
    rw [docById_update _ documentId (fun d2 =>
      { d2 with textFilePath := some (textPathOf upath documentId)
                assistantFileId := assistantIdOf env }) (fun d2 => rfl)]
    have hd2 : docById
        { s with fileContents := recordSet s.fileContents (textPathOf upath documentId) c }
        documentId = some d := hd
    rw [hd2]
    rfl

/-- On any thrown pipeline error the catch handler leaves the document in
status `error` carrying the thrown message. -/
theorem task_error_status (cfg : PineconeConfig) (env : ProcEnv)
    (upath documentId : Str) (s : ServiceState) (msg : Str) (s2 : ServiceState)
    (d : DocumentRec)
    (h : processDocument cfg env upath documentId s = .error msg s2)
    (hd : docById s documentId = some d) :
    docStatus (processDocumentTask cfg env upath documentId s) documentId
      = some ("error".data, some msg) := by
  obtain ⟨d2, hd2⟩ := error_state_doc cfg env upath documentId s msg s2 d h hd
  unfold processDocumentTask
  rw [h]
  exact docStatus_update_status s2 documentId ("error".data) msg d2 hd2

/-- Everything a successful `processDocument` run did, in terms of the
initial state. -/
theorem processDocument_ok_shape (cfg : PineconeConfig) (env : ProcEnv)
    (upath documentId : Str) (s s3 : ServiceState)
    (h : processDocument cfg env upath documentId s = .ok s3) :
    ∃ doc raw chunkIds r2,
      docById s documentId = some doc ∧ env.parseResult = .ok raw ∧
      upsertVector cfg env.upsertFails s.remote
        (buildVectors documentId doc.userId doc.name doc.type env.createdAt
          (splitIntoChunks env (cleanTextLineBreaks raw))) = .ok (chunkIds, r2) ∧
      s3.chunks = s.chunks ++ buildChunks documentId
        (splitIntoChunks env (cleanTextLineBreaks raw)) chunkIds ∧
      assocFind s3.fileContents (textPathOf upath documentId)
        = some (cleanTextLineBreaks raw) := by
  unfold processDocument at h
  split at h
  next heq => exact absurd h (by simp)
  next doc heq =>
    split at h
    next m heq2 => exact absurd h (by simp)
    next raw heq2 =>
      unfold processAfterParse processUpsert at h
      split at h
      next m hequ => exact absurd h (by simp)
      next chunkIds r2 hequ =>
        injection h with h3
        refine ⟨doc, raw, chunkIds, r2, heq, heq2, hequ, ?_, ?_⟩
        · rw [← h3]
          rfl
        · rw [← h3]
          exact assocFind_set_same s.fileContents (textPathOf upath documentId)
            (cleanTextLineBreaks raw)

/-! ### Claim C1 -/

/-- C1: after a successful upload, a second upload with byte-identical
file content (by any user, any filename) fails with the duplicate-content
ConflictException whose payload references the already-stored document and
its uploader's email and name; the failing call returns the state
unchanged — so no new Document row is created and the first document,
still present, is untouched. -/
theorem uploadDocument_dedup (hash : Str → Str) (id1 id2 : Str) (now1 now2 : Nat)
    (upath : Str) (f g : UploadFile) (uid1 uid2 : Str) (s s1 : ServiceState)
    (d : DocumentRec) (e n : Option Str)
    (hcontent : g.content = f.content)
    (h1 : uploadDocument hash id1 now1 upath f uid1 s = .ok d e n s1) :
    uploadDocument hash id2 now2 upath g uid2 s1 =
      .conflict ⟨conflictMsg, d, emailOfUser (userById s1 d.userId),
        nameOfUser (userById s1 d.userId)⟩ s1 ∧
    d.fileHash = hash g.content ∧ d ∈ s1.documents := by
  unfold uploadDocument at h1
  split at h1
  next ex heq => exact absurd h1 (by simp)
  next heq =>
    injection h1 with hd he hn hs
    have hfind2 : s1.documents.find? (fun d2 => d2.fileHash == hash g.content)
        = some d := by
      rw [← hs, hcontent]
      have hfst : ({ s with
          documents := s.documents ++ [newDocumentRec hash id1 now1 upath f uid1],
          fileContents := recordSet s.fileContents (uploadFilePath upath now1 f)
            f.content } : ServiceState).documents
          = s.documents ++ [newDocumentRec hash id1 now1 upath f uid1] := rfl
      rw [hfst]
      rw [find?_append_none _ _ _ heq]
      rw [← hd]
      simp [List.find?_cons, newDocumentRec]
    refine ⟨?_, ?_, ?_⟩
    · unfold uploadDocument
      rw [hfind2]
    · rw [← hd, hcontent]
      rfl
    · rw [← hs, ← hd]
      have : ({ s with
          documents := s.documents ++ [newDocumentRec hash id1 now1 upath f uid1],
          fileContents := recordSet s.fileContents (uploadFilePath upath now1 f)
            f.content } : ServiceState).documents
          = s.documents ++ [newDocumentRec hash id1 now1 upath f uid1] := rfl
      rw [this]
      exact List.mem_append_right _ (List.mem_singleton.mpr rfl)

def wHash (c : Str) : Str := 'h' :: c

def wFile : UploadFile := ⟨("a.txt".data), ("text/plain".data), 2, ("xy".data)⟩

def wS0 : ServiceState := ⟨[], [], [], [], []⟩

def wDoc : DocumentRec := newDocumentRec wHash ("d1".data) 1 ("up".data) wFile ("u1".data)

def wS1 : ServiceState :=
  ⟨[wDoc], [], [], [(uploadFilePath ("up".data) 1 wFile, wFile.content)], []⟩

/-- Concrete instance of C1: the same bytes uploaded twice conflict on the
second call. -/
theorem uploadDocument_dedup_witness :
    uploadDocument wHash ("d2".data) 2 ("up".data) wFile ("u2".data) wS1 =
      .conflict ⟨conflictMsg, wDoc, emailOfUser (userById wS1 wDoc.userId),
        nameOfUser (userById wS1 wDoc.userId)⟩ wS1 ∧
    wDoc.fileHash = wHash wFile.content ∧ wDoc ∈ wS1.documents :=
  uploadDocument_dedup wHash ("d1".data) ("d2".data) 1 2 ("up".data) wFile wFile
    ("u1".data) ("u2".data) wS0 wS1 wDoc none none rfl (by rfl)

/-! ### Claim C2 -/

/-- C2: if any pipeline stage of processDocument throws (document lookup,
content extraction, or the remote upsert), the catch handler records
status `error` on the document together with the thrown error's message,
and the Chunk table is exactly as before the attempt; chunk rows are
appended only on the success path, after `upsertVector` has returned
`ok`. -/
theorem processDocument_error_spec (cfg : PineconeConfig) (env : ProcEnv)
    (upath documentId : Str) (s : ServiceState) :
    (∀ msg s2, processDocument cfg env upath documentId s = .error msg s2 →
      s2.chunks = s.chunks ∧
      ∀ d, docById s documentId = some d →
        docStatus (processDocumentTask cfg env upath documentId s) documentId
          = some ("error".data, some msg)) ∧
    (∀ s3, processDocument cfg env upath documentId s = .ok s3 →
      ∃ doc raw chunkIds r2,
        docById s documentId = some doc ∧ env.parseResult = .ok raw ∧
        upsertVector cfg env.upsertFails s.remote
          (buildVectors documentId doc.userId doc.name doc.type env.createdAt
            (splitIntoChunks env (cleanTextLineBreaks raw))) = .ok (chunkIds, r2) ∧
        s3.chunks = s.chunks ++ buildChunks documentId
          (splitIntoChunks env (cleanTextLineBreaks raw)) chunkIds) := by
  constructor
  · intro msg s2 h
    exact ⟨error_state_chunks cfg env upath documentId s msg s2 h,
      fun d hd => task_error_status cfg env upath documentId s msg s2 d h hd⟩
  · intro s3 h
    obtain ⟨doc, raw, cids, r2, h1, h2, h3, h4, _⟩ :=
      processDocument_ok_shape cfg env upath documentId s s3 h
    exact ⟨doc, raw, cids, r2, h1, h2, h3, h4⟩

def wDocA : DocumentRec :=
  ⟨("a".data), ("f.txt".data), ("text/plain".data), 2, ("p".data), ("u1".data),
    ("h".data), ("ready".data), none, none, none⟩

def wS2 : ServiceState := ⟨[wDocA], [], [], [], []⟩

def wCfg : PineconeConfig := ⟨none, some ("u".data), none, none⟩

def wEnvParseFail : ProcEnv :=
  ⟨.error ("boom".data), .error ("x".data), .ok [("c".data)], [], ("t".data)⟩

/-- Concrete instance of C2: a parser exception flips the document to
status `error` with message `boom` and persists no chunks. -/
theorem processDocument_error_spec_witness :
    wS2.chunks = wS2.chunks ∧
    docStatus (processDocumentTask wCfg wEnvParseFail ("up".data) ("a".data) wS2) ("a".data)
      = some ("error".data, some ("boom".data)) :=
  ⟨((processDocument_error_spec wCfg wEnvParseFail ("up".data) ("a".data) wS2).1
      ("boom".data) wS2 (by rfl)).1,
   ((processDocument_error_spec wCfg wEnvParseFail ("up".data) ("a".data) wS2).1
      ("boom".data) wS2 (by rfl)).2 wDocA (by rfl)⟩

/-! ### Claim C3 -/

/-- C3: a successful `upsertVector` has issued the identical upsert
against every configured index (default plus air when their URLs are set)
and returns the ids of the input items (dropping falsy ids) for the
caller to persist; if the upsert against any configured index fails the
whole call throws, and a thrown pipeline error makes the orchestrator's
catch handler mark the document `error`. -/
theorem upsertVector_spec (cfg : PineconeConfig) (fails : List (Str × Str))
    (r : List (Str × List VectorRec)) (vector : List VectorRec) :
    (∀ ids r2, upsertVector cfg fails r vector = .ok (ids, r2) →
      ids = (vector.map (fun v => v.id)).filter (fun t => !t.isEmpty) ∧
      ∀ nu ∈ configuredIndexes cfg,
        remoteGet r2 nu.1 = upsertRecords (remoteGet r nu.1) vector) ∧
    ((∃ nu ∈ configuredIndexes cfg, failMsg fails nu.1 ≠ none) →
      ∃ m, upsertVector cfg fails r vector = .error m) ∧
    (∀ (env : ProcEnv) (upath documentId : Str) (s : ServiceState) (msg : Str)
       (s2 : ServiceState) (d : DocumentRec),
      processDocument cfg env upath documentId s = .error msg s2 →
      docById s documentId = some d →
      docStatus (processDocumentTask cfg env upath documentId s) documentId
        = some ("error".data, some msg)) := by
  refine ⟨?_, ?_, ?_⟩
  · intro ids r2 h
    unfold upsertVector at h
    by_cases hcfg : configuredIndexes cfg = []
    · rw [if_pos hcfg] at h
      exact absurd h (by simp)
    · rw [if_neg hcfg] at h
      split at h
      next r3 hequ =>
        injection h with h1
        rw [Prod.mk.injEq] at h1
        obtain ⟨h1a, h1b⟩ := h1
        constructor
        · rw [← h1a]
          rfl
        · intro nu hnu
          rw [← h1b]
          exact upsertLoop_ok_get fails vector (configuredIndexes cfg) r r3
            (configuredIndexes_nodupkeys cfg) hequ nu hnu
      next m hequ => exact absurd h (by simp)
  · intro hex
    by_cases hcfg : configuredIndexes cfg = []
    · rcases hex with ⟨nu, hnu, _⟩
      rw [hcfg] at hnu
      simp at hnu
    · obtain ⟨m, hm⟩ := upsertLoop_error_of_fail fails vector (configuredIndexes cfg) r hex
      refine ⟨m, ?_⟩
      unfold upsertVector
      rw [if_neg hcfg, hm]
  · intro env upath documentId s msg s2 d h hd
    exact task_error_status cfg env upath documentId s msg s2 d h hd

def wCfg3 : PineconeConfig := ⟨none, some ("u1".data), none, some ("u2".data)⟩

def wVec3 : List VectorRec :=
  [⟨("a".data), ("t".data), ("c".data)⟩, ⟨[], ("t2".data), ("c2".data)⟩]

def wR3 : List (Str × List VectorRec) :=
  [(("air-multy".data), wVec3), (("air".data), wVec3)]

def wCfg3F : PineconeConfig := ⟨none, some ("u1".data), none, none⟩

/-- Concrete instance of C3: with both indexes configured the same two
records land in each and the falsy id is dropped from the returned list;
with the sole configured index failing, the call throws. -/
theorem upsertVector_spec_witness :
    (([("a".data)] : List Str) = (wVec3.map (fun v => v.id)).filter (fun t => !t.isEmpty) ∧
      ∀ nu ∈ configuredIndexes wCfg3,
        remoteGet wR3 nu.1
          = upsertRecords (remoteGet ([] : List (Str × List VectorRec)) nu.1) wVec3) ∧
    (∃ m, upsertVector wCfg3F [(("air-multy".data), ("down".data))] [] wVec3 = .error m) :=
  ⟨(upsertVector_spec wCfg3 [] [] wVec3).1 [("a".data)] wR3 (by rfl),
   (upsertVector_spec wCfg3F [(("air-multy".data), ("down".data))] [] wVec3).2.1
     ⟨(("air-multy".data), ("u1".data)), by decide, by decide⟩⟩

/-! ### Claim C4 -/

def c4docA : DocumentRec :=
  ⟨("a".data), ("f.txt".data), ("text/plain".data), 2, ("p".data), ("u1".data),
    ("h".data), ("ready".data), none, some ("tp".data), none⟩

def c4s : ServiceState :=
  ⟨[c4docA],
   [⟨("a".data), ("c0".data), 0, ("a_chunk_0".data)⟩,
    ⟨("a".data), ("c1".data), 1, ("a_chunk_1".data)⟩],
   [], [],
   [(("air-multy".data),
     [⟨("a_chunk_0".data), ("c0".data), ("m0".data)⟩,
      ⟨("a_chunk_1".data), ("c1".data), ("m1".data)⟩])]⟩

def c4env : ProcEnv :=
  ⟨.ok ("hi".data), .error ("x".data), .ok [("hi".data)], [], ("t".data)⟩

/-- C4: the claim is false of the code — the chunk/vector cleanup loop in
reprocessDocument is commented out.  Reprocessing a ready document that
had two chunks into one new chunk leaves the old remote vector
`a_chunk_1` in the index (an orphan that keeps matching queries) and
leaves both old Chunk rows in the table next to the new one, so the new
chunk set does not replace the old one. -/
theorem reprocess_no_cleanup_bug :
    ∃ s2, reprocessDocumentRun wCfg c4env ("up".data) ("a".data) ("u1".data) c4s
        = .ok s2 ∧
      ((remoteGet s2.remote ("air-multy".data)).filter
        (fun v => v.id == ("a_chunk_1".data))).length = 1 ∧
      (s2.chunks.filter (fun c => c.documentId == ("a".data))).length = 3 := by
  refine ⟨_, rfl, ?_, ?_⟩ <;> decide

/-! ### Claim C9 -/

def c9doc : DocumentRec :=
  ⟨("a".data), ("f".data), ("t".data), 1, ("p".data), ("u1".data), ("h".data),
    ("ready".data), none, none, none⟩

def c9s : ServiceState := ⟨[c9doc], [], [], [(("p".data), ("x".data))], []⟩

/-- C9 is false as stated: the second of two back-to-back deleteDocument
calls throws NotFoundException (`Document not found`) because the row was
already deleted, even though every sub-deletion is itself idempotent. -/
theorem deleteDocument_twice_cex :
    ∃ s1, deleteDocument wCfg ("a".data) ("u1".data) c9s = .ok s1 ∧
      deleteDocument wCfg ("a".data) ("u1".data) s1
        = .error ("Document not found".data) := by
  exact ⟨_, rfl, rfl⟩

/-- C9 (amended): a successful deleteDocument removes the document row
and its chunk rows, and the file and remote-vector deletions it performs
are individually idempotent (an existence-guarded unlink and an
empty-guarded deleteMany are no-ops on absent targets); but the entity
lookup is not: an immediate second call throws NotFoundException instead
of succeeding. -/
theorem deleteDocument_spec (cfg : PineconeConfig) (documentId userId : Str)
    (s s1 : ServiceState)
    (h : deleteDocument cfg documentId userId s = .ok s1) :
    docById s1 documentId = none ∧
    s1.chunks.filter (fun c => c.documentId == documentId) = [] ∧
    deleteDocument cfg documentId userId s1 = .error ("Document not found".data) ∧
    (∀ r, deleteVectors cfg r [] = r) ∧
    (∀ (files : List (Str × Str)) (p : Str), (∀ kv ∈ files, ¬ kv.1 = p) →
      fsDelete files p = files) := by
  unfold deleteDocument at h
  split at h
  next heq => exact absurd h (by simp)
  next doc heq =>
    injection h with h1
    refine ⟨?_, ?_, ?_, ?_, ?_⟩
    · rw [← h1]
      unfold docById deleteApply
      refine List.find?_eq_none.mpr ?_
      intro d hd hp
      have hmem := List.mem_filter.mp hd
      rw [hp] at hmem
      simp at hmem
    · rw [← h1]
      unfold deleteApply
      refine List.filter_eq_nil_iff.mpr ?_
      intro c hc
      have hmem := List.mem_filter.mp hc
      intro hp
      rw [hp] at hmem
      simp at hmem
    · rw [← h1]
      unfold deleteDocument
      have hfind : getDocument (deleteApply cfg documentId doc s) documentId userId
          = none := by
        unfold getDocument deleteApply
        refine List.find?_eq_none.mpr ?_
        intro d hd hp
        have hmem := List.mem_filter.mp hd
        rw [Bool.and_eq_true] at hp
        rw [hp.1] at hmem
        simp at hmem
      rw [hfind]
    · intro r
      unfold deleteVectors
      rw [if_pos rfl]
    · intro files p hfp
      unfold fsDelete
      refine List.filter_eq_self.mpr ?_
      intro kv hkv
      simp only [Bool.not_eq_eq_eq_not, Bool.not_true, beq_eq_false_iff_ne, ne_eq]
      exact hfp kv hkv

/-- Concrete instance of the amended C9 at a one-document state. -/
theorem deleteDocument_spec_witness :
    docById (deleteApply wCfg ("a".data) c9doc c9s) ("a".data) = none ∧
    (deleteApply wCfg ("a".data) c9doc c9s).chunks.filter
      (fun c => c.documentId == ("a".data)) = [] ∧
    deleteDocument wCfg ("a".data) ("u1".data) (deleteApply wCfg ("a".data) c9doc c9s)
      = .error ("Document not found".data) ∧
    (∀ r, deleteVectors wCfg r [] = r) ∧
    (∀ (files : List (Str × Str)) (p : Str), (∀ kv ∈ files, ¬ kv.1 = p) →
      fsDelete files p = files) :=
  deleteDocument_spec wCfg ("a".data) ("u1".data) c9s _ (by rfl)

/-! ### Claim C10 -/

/-- C10: cleanTextLineBreaks collapses every run of three or more
newlines to exactly two (on a pure newline run, to min n 2), leaves
triple-free text unchanged, is idempotent, and always produces
triple-free output; processDocument applies it to the parsed content
before the text file is written and before chunking, so the written text
file holds the cleaned content and the chunker input — hence every
persisted chunk source — never contains three consecutive newlines. -/
theorem cleanTextLineBreaks_spec :
    (∀ t : Str, ¬ hasTripleNl t → cleanTextLineBreaks t = t) ∧
    (∀ t : Str, cleanTextLineBreaks (cleanTextLineBreaks t) = cleanTextLineBreaks t) ∧
    (∀ t : Str, ¬ hasTripleNl (cleanTextLineBreaks t)) ∧
    (∀ n : Nat, cleanTextLineBreaks (List.replicate n '\n')
      = List.replicate (min n 2) '\n') ∧
    (∀ (cfg : PineconeConfig) (env : ProcEnv) (upath documentId : Str)
       (s s3 : ServiceState) (raw : Str),
      processDocument cfg env upath documentId s = .ok s3 →
      env.parseResult = .ok raw →
      assocFind s3.fileContents (textPathOf upath documentId)
          = some (cleanTextLineBreaks raw) ∧
      ¬ hasTripleNl (cleanTextLineBreaks raw) ∧
      ∃ doc chunkIds, docById s documentId = some doc ∧
        s3.chunks = s.chunks ++ buildChunks documentId
          (splitIntoChunks env (cleanTextLineBreaks raw)) chunkIds) := by
  refine ⟨clean_eq_self_of_noTriple, clean_idem, noTriple_clean, clean_replicate_nl, ?_⟩
  intro cfg env upath documentId s s3 raw h hraw
  obtain ⟨doc, raw2, cids, r2, h1, h2, _, h4, h5⟩ :=
    processDocument_ok_shape cfg env upath documentId s s3 h
  rw [hraw] at h2
  injection h2 with h2e
  subst h2e
  exact ⟨h5, noTriple_clean raw, doc, cids, h1, h4⟩

def c10env : ProcEnv :=
  ⟨.ok ('x' :: '\n' :: '\n' :: '\n' :: []), .error ("x".data), .ok [("x".data)], [],
    ("t".data)⟩

/-- Concrete instance of C10: parsed content with a triple newline is
stored and chunked as its cleaned form. -/
theorem cleanTextLineBreaks_spec_witness :
    cleanTextLineBreaks ('a' :: '\n' :: 'b' :: []) = 'a' :: '\n' :: 'b' :: [] ∧
    (assocFind (processDocumentTask wCfg c10env ("up".data) ("a".data) wS2).fileContents
        (textPathOf ("up".data) ("a".data))
        = some (cleanTextLineBreaks ('x' :: '\n' :: '\n' :: '\n' :: [])) ∧
      ¬ hasTripleNl (cleanTextLineBreaks ('x' :: '\n' :: '\n' :: '\n' :: [])) ∧
      ∃ doc chunkIds, docById wS2 ("a".data) = some doc ∧
        (processDocumentTask wCfg c10env ("up".data) ("a".data) wS2).chunks
          = wS2.chunks ++ buildChunks ("a".data)
            (splitIntoChunks c10env (cleanTextLineBreaks
              ('x' :: '\n' :: '\n' :: '\n' :: []))) chunkIds) :=
  ⟨cleanTextLineBreaks_spec.1 ('a' :: '\n' :: 'b' :: []) (by decide),
   cleanTextLineBreaks_spec.2.2.2.2 wCfg c10env ("up".data) ("a".data) wS2
     (processDocumentTask wCfg c10env ("up".data) ("a".data) wS2)
     ('x' :: '\n' :: '\n' :: '\n' :: []) (by rfl) rfl⟩

end AirRag
